import Mathlib

/-!
AliceVision tone curves: `image/curves.cpp`, `image/curves.hpp`.

A shallow embedding of `DiagonalCurve` (construction from a flat control-point
sequence, the natural cubic spline solve `spline_cubic_set`, and `getVal`),
followed by theorems about it.

Conventions of the embedding.

* `double` and `float` values are rationals (`ℚ`).  Where rounding matters a
  function is embedded twice: the plain definition (`getVal`, `Apply`, ...)
  evaluates every operation exactly, and the definition named `...Rounded`
  rounds the result of every operation to the format of the source
  (`roundFloat`, `roundDouble`: round to nearest, ties to even).  A theorem
  about a plain definition is a statement of exact arithmetic.  The rounded
  definitions take every operation to be rounded by itself in the format of
  its operands (no fused multiply-add, no excess precision) and do not model
  overflow to an infinity.
* A C array is a `List ℚ`; every read and write is bounds-checked and an index
  outside the array ends the run with `Fault.outOfBounds`.  `new double[n]` is
  a list of `n` zeros (the code writes every cell before it reads it).
* A floating division by zero has no rational value (IEEE gives an infinity or
  a NaN); it ends the run with `Fault.divByZero`.
* `int N` is a natural number: it is only ever `0` or `(p.size() - 1) / 2`.
  Index expressions that can go below zero in the source (`N - 1`) are computed
  in `Int`.  The `unsigned int` bisection indices stay below `N`, so that no
  wrap-around can occur and they are natural numbers as well.
-/

namespace alicevision.image

/-! ## Runs that can go wrong -/

/-- The ways a run of the model can end without a value. -/
inductive Fault where
  | outOfBounds
  | divByZero
  | noFuel
  | nullPointer
  | uninitialised
  | badAlloc
  deriving DecidableEq, Repr

/-- A computation that returns a value or ends with a fault. -/
abbrev Run (α : Type) := Except Fault α

/-- Checked array read `a[i]`. -/
def rd (a : List ℚ) (i : Nat) : Run ℚ :=
  match a[i]? with
  | some v => .ok v
  | none => .error .outOfBounds

/-- Checked array read `a[i]` for a signed index. -/
def rdI (a : List ℚ) (i : Int) : Run ℚ :=
  if i < 0 then .error .outOfBounds else rd a i.toNat

/-- Checked array write `a[i] = v`. -/
def wr (a : List ℚ) (i : Nat) (v : ℚ) : Run (List ℚ) :=
  if i < a.length then .ok (a.set i v) else .error .outOfBounds

/-- Checked array write `a[i] = v` for a signed index. -/
def wrI (a : List ℚ) (i : Int) (v : ℚ) : Run (List ℚ) :=
  if i < 0 then .error .outOfBounds else wr a i.toNat v

/-- Floating division `a / b`; a zero divisor is a fault. -/
def fdiv (a b : ℚ) : Run ℚ :=
  if b = 0 then .error .divByZero else .ok (a / b)

/-! ## `enum DiagonalCurveType` (curves.hpp) -/

/-- Enumerator `DCT_Empty = -1`, also used for identity curves. -/
abbrev DCT_Empty : Int := -1
/-- Enumerator `DCT_Linear`, value 0. -/
abbrev DCT_Linear : Int := 0
/-- Enumerator `DCT_Spline`, value 1. -/
abbrev DCT_Spline : Int := 1
/-- Enumerator `DCT_Parametric`, value 2. -/
abbrev DCT_Parametric : Int := 2
/-- Enumerator `DCT_NURBS`, value 3. -/
abbrev DCT_NURBS : Int := 3
/-- Enumerator `DCT_CatumullRom`, value 4. -/
abbrev DCT_CatumullRom : Int := 4
/-- Enumerator `DCT_Unchanged`, value 5. -/
abbrev DCT_Unchanged : Int := 5

/-- The cast `(DiagonalCurveType)p[0]` of a `double`: truncation toward zero. -/
def toDiagonalCurveType (q : ℚ) : Int :=
  if 0 ≤ q then ⌊q⌋ else -⌊-q⌋

/-! ## `class DiagonalCurve` -/

/-- The fields of `Curve` / `DiagonalCurve` that the constructor and `getVal` use. -/
structure DiagonalCurve where
  /-- Field `int N`. -/
  N : Nat
  /-- Field `int ppn`. -/
  ppn : Int
  /-- Field `double* x` (`nullptr` is the empty list). -/
  x : List ℚ
  /-- Field `double* y`. -/
  y : List ℚ
  /-- Field `unsigned short hashSize`. -/
  hashSize : Nat
  /-- Field `double* ypp`. -/
  ypp : List ℚ
  /-- Field `DiagonalCurveType kind`, as its underlying integer. -/
  kind : Int
  deriving DecidableEq, Repr

/-- The loop `for (int i = 0; i < N; i++)` of the constructor, with `n` iterations
left to run: it copies the pairs of `p` into `x[]`, `y[]` and clears `identity`
at the first point that is off the diagonal. -/
def readPoints (p : List ℚ) : Nat → Nat → Nat → List ℚ → List ℚ → Bool →
    Run (List ℚ × List ℚ × Bool)
  | 0, _, _, x, y, identity => .ok (x, y, identity)
  | n + 1, i, ix, x, y, identity => do
    let x ← wr x i (← rd p ix)
    let y ← wr y i (← rd p (ix + 1))
    let xi ← rd x i
    let yi ← rd y i
    let identity := if |xi - yi| ≥ 9 / 1000000 then false else identity
    readPoints p n (i + 1) (ix + 2) x y identity

/-- The forward elimination loop `for (int i = 1; i < N - 1; ++i)` of
`spline_cubic_set`, with `n` iterations left to run (`i` starts at 1). -/
def splineForward (x y : List ℚ) : Nat → Nat → List ℚ → List ℚ →
    Run (List ℚ × List ℚ)
  | 0, _, ypp, u => .ok (ypp, u)
  | n + 1, i, ypp, u => do
    let xi ← rd x i
    let xm ← rd x (i - 1)
    let xp ← rd x (i + 1)
    let sig ← fdiv (xi - xm) (xp - xm)
    let p := sig * (← rd ypp (i - 1)) + 2
    let ypp ← wr ypp i (← fdiv (sig - 1) p)
    let yp ← rd y (i + 1)
    let yi ← rd y i
    let ym ← rd y (i - 1)
    let u ← wr u i ((← fdiv (yp - yi) (xp - xi)) - (← fdiv (yi - ym) (xi - xm)))
    let u ← wr u i (← fdiv ((← fdiv (6 * (← rd u i)) (xp - xm)) - sig * (← rd u (i - 1))) p)
    splineForward x y n (i + 1) ypp u

/-- The back substitution loop `for (int k = N - 2; k >= 0; --k)` of
`spline_cubic_set`; the first argument is `k + 1`. -/
def splineBack (u : List ℚ) : Nat → List ℚ → Run (List ℚ)
  | 0, ypp => .ok ypp
  | k + 1, ypp => do
    let ypp ← wr ypp k ((← rd ypp k) * (← rd ypp (k + 1)) + (← rd u k))
    splineBack u k ypp

/-- Method `DiagonalCurve::spline_cubic_set`. -/
def DiagonalCurve.spline_cubic_set (c : DiagonalCurve) : Run DiagonalCurve := do
  let u := List.replicate (c.N - 1) (0 : ℚ)
  let ypp := List.replicate c.N (0 : ℚ)
  let u ← wr u 0 0
  let ypp ← wr ypp 0 0
  let (ypp, u) ← splineForward c.x c.y (c.N - 2) 1 ypp u
  let ypp ← wrI ypp ((c.N : Int) - 1) 0
  let ypp ← splineBack u (c.N - 1) ypp
  pure { c with ypp := ypp }

/-- The statement `if (x[0] != 0.0 || x[N - 1] != 1.0) identity = false;` of the
constructor (`||` reads `x[N - 1]` only when `x[0]` is zero). -/
def checkEnds (x : List ℚ) (N : Nat) (identity : Bool) : Run Bool := do
  let x0 ← rd x 0
  if x0 ≠ 0 then pure false
  else do
    let xl ← rdI x ((N : Int) - 1)
    if xl ≠ 1 then pure false else pure identity

/-- The statement `if (x[0] == 0.0 && x[1] == 0.0) x[1] = 0.01;` of the constructor
(`&&` reads `x[1]` only when `x[0]` is zero). -/
def nudgeAtZero (x : List ℚ) : Run (List ℚ) := do
  let x0 ← rd x 0
  if x0 = 0 then do
    let x1 ← rd x 1
    if x1 = 0 then wr x 1 (1 / 100) else pure x
  else pure x

/-- The statement `if (x[0] == 1.0 && x[1] == 1.0) x[0] = 0.99;` of the constructor. -/
def nudgeAtOne (x : List ℚ) : Run (List ℚ) := do
  let x0 ← rd x 0
  if x0 = 1 then do
    let x1 ← rd x 1
    if x1 = 1 then wr x 0 (99 / 100) else pure x
  else pure x

/-- The statement `if (!identity) { if (kind == DCT_Spline && N > 2) spline_cubic_set();
else kind = DCT_Linear; }` of the constructor. -/
def chooseKind (c : DiagonalCurve) (identity : Bool) : Run DiagonalCurve :=
  if identity = false then
    if c.kind = DCT_Spline ∧ c.N > 2 then c.spline_cubic_set
    else pure { c with kind := DCT_Linear }
  else pure c

/-- The body of `if (kind == DCT_Linear || kind == DCT_Spline || kind == DCT_NURBS ||
kind == DCT_CatumullRom) { ... }` in the constructor; it returns the object and the
local `identity`. -/
def loadPoints (c : DiagonalCurve) (p : List ℚ) : Run (DiagonalCurve × Bool) := do
  let N := (p.length - 1) / 2
  let (x, y, identity) ← readPoints p N 0 1 (List.replicate N 0) (List.replicate N 0) true
  let identity ← checkEnds x N identity
  let x ← nudgeAtZero x
  let x ← nudgeAtOne x
  let c ← chooseKind { c with N := N, x := x, y := y } identity
  pure (c, identity)

/-- The object at the start of the constructor body: the base constructor
`Curve::Curve()` has set `N = 0`, null arrays and `hashSize = 1000`, and the first
statements fix `ppn` and `hashSize` (`kind` is not yet assigned; it is shown as
`DCT_Empty`). -/
def DiagonalCurve.init (poly_pn : Int) : DiagonalCurve :=
  let ppn : Int := if poly_pn > 65500 then 65500 else poly_pn
  let hashSize : Nat := if ppn < 500 then 100 else 1000
  let hashSize : Nat := if ppn < 50 then 10 else hashSize
  { N := 0, ppn := ppn, x := [], y := [], hashSize := hashSize, ypp := [], kind := DCT_Empty }

/-- Constructor `DiagonalCurve::DiagonalCurve(const std::vector<double>& p, int poly_pn)`. -/
def DiagonalCurve.construct (p : List ℚ) (poly_pn : Int) : Run DiagonalCurve := do
  let c := DiagonalCurve.init poly_pn
  if p.length < 3 then
    pure { c with kind := DCT_Empty }
  else do
    let kind := toDiagonalCurveType (← rd p 0)
    let c := { c with kind := kind }
    let (c, identity) ←
      if kind = DCT_Linear ∨ kind = DCT_Spline ∨ kind = DCT_NURBS ∨ kind = DCT_CatumullRom then
        loadPoints c p
      else pure (c, true)
    if identity then pure { c with kind := DCT_Empty } else pure c

/-- The bisection `while (k_hi > 1 + k_lo)` of `getVal`, with a bound on the
number of iterations. -/
def bisect (x : List ℚ) (t : ℚ) : Nat → Nat → Nat → Run (Nat × Nat)
  | 0, k_lo, k_hi =>
    if k_hi > 1 + k_lo then .error .noFuel else .ok (k_lo, k_hi)
  | fuel + 1, k_lo, k_hi =>
    if k_hi > 1 + k_lo then do
      let k := (k_hi + k_lo) / 2
      if (← rd x k) > t then bisect x t fuel k_lo k else bisect x t fuel k k_hi
    else .ok (k_lo, k_hi)

/-- The literal `0.1666666666666666666666666666666` of `getVal`. -/
def sixth : ℚ := 1666666666666666666666666666666 / 10000000000000000000000000000000

/-- Method `DiagonalCurve::getVal`, every operation evaluated exactly;
`DiagonalCurve.getValRounded` below rounds the result of every operation to `double`. -/
def DiagonalCurve.getVal (c : DiagonalCurve) (t : ℚ) : Run ℚ :=
  if c.kind = DCT_Linear ∨ c.kind = DCT_Spline then do
    let xl ← rdI c.x ((c.N : Int) - 1)
    if t > xl then rdI c.y ((c.N : Int) - 1)
    else do
      let x0 ← rd c.x 0
      if t < x0 then rd c.y 0
      else do
        let (k_lo, k_hi) ← bisect c.x t c.N 0 (c.N - 1)
        let h := (← rd c.x k_hi) - (← rd c.x k_lo)
        if c.kind = DCT_Linear then do
          let ylo ← rd c.y k_lo
          let q ← fdiv ((t - (← rd c.x k_lo)) * ((← rd c.y k_hi) - ylo)) h
          pure (ylo + q)
        else do
          let a ← fdiv ((← rd c.x k_hi) - t) h
          let b ← fdiv (t - (← rd c.x k_lo)) h
          let r := a * (← rd c.y k_lo) + b * (← rd c.y k_hi)
            + ((a * a * a - a) * (← rd c.ypp k_lo) + (b * b * b - b) * (← rd c.ypp k_hi))
              * (h * h) * sixth
          pure (if r > 0 then (if r < 1 then r else 1) else 0)
  else
    pure t

/-! ## `class avLUTf` (curves.hpp) -/

/-- Conversion of an integer value to `unsigned int`: reduction modulo `2^32`. -/
def toUInt32 (z : Int) : Nat := (z % 4294967296).toNat

/-- Conversion of an integer value to `int`: the representative modulo `2^32` that
lies in `[-2^31, 2^31)`. -/
def toInt32 (z : Int) : Int :=
  if z % 4294967296 < 2147483648 then z % 4294967296 else z % 4294967296 - 4294967296

/-- The conversion `(int)index` of a `float`: truncation toward zero. -/
def floatToInt (q : ℚ) : Int := if 0 ≤ q then ⌊q⌋ else -⌊-q⌋

/-- The fields of `avLUTf`.  The buffer `float* data` is `none` for `nullptr` and
otherwise the list of its allocated cells; a cell is `none` until it is first
written (`new float[n]` does not initialise). -/
structure avLUTf where
  /-- Field `int maxs`. -/
  maxs : Int
  /-- Field `float maxsf`. -/
  maxsf : ℚ
  /-- Field `float* data`. -/
  data : Option (List (Option ℚ))
  /-- Field `unsigned int size`. -/
  size : Nat
  /-- Field `unsigned int upperBound`. -/
  upperBound : Nat
  deriving DecidableEq, Repr

/-- Read of the cell `data[i]`. -/
def avLUTf.load (t : avLUTf) (i : Int) : Run ℚ :=
  match t.data with
  | none => .error .nullPointer
  | some cells =>
    if i < 0 then .error .outOfBounds
    else
      match cells[i.toNat]? with
      | none => .error .outOfBounds
      | some none => .error .uninitialised
      | some (some v) => .ok v

/-- Write `data[i] = v`. -/
def avLUTf.store (t : avLUTf) (i : Int) (v : ℚ) : Run avLUTf :=
  match t.data with
  | none => .error .nullPointer
  | some cells =>
    if i < 0 then .error .outOfBounds
    else if i.toNat < cells.length then
      .ok { t with data := some (cells.set i.toNat (some v)) }
    else .error .outOfBounds

/-- Method `avLUTf::clear`: `if (data && size) memset(data, 0, size * sizeof(float))`. -/
def avLUTf.clear (t : avLUTf) : Run avLUTf :=
  match t.data with
  | none => .ok t
  | some cells =>
    if t.size ≠ 0 then
      if t.size ≤ cells.length then
        .ok { t with data := some (List.replicate t.size (some 0) ++ cells.drop t.size) }
      else .error .outOfBounds
    else .ok t

/-- Method `avLUTf::operator()(int s)`: a fresh buffer of `s + 3` cells replaces the
old one (which is not freed), every field is overwritten, and `clear()` zero-fills
the first `size` cells.  (`s + 3` is computed without overflow: the only caller
passes 65536.) -/
def avLUTf.allocate (_t : avLUTf) (s : Int) : Run avLUTf :=
  if s + 3 < 0 then .error .badAlloc
  else
    let size := toUInt32 s
    let upperBound := toUInt32 ((size : Int) - 1)
    let maxs := toInt32 ((size : Int) - 2)
    avLUTf.clear
      { maxs := maxs, maxsf := (maxs : ℚ), data := some (List.replicate (s + 3).toNat none),
        size := size, upperBound := upperBound }

/-- Constructor `avLUTf::avLUTf(const std::vector<float>& input)`; the members are
initialised in declaration order `maxs, maxsf, data, size, upperBound`. -/
def avLUTf.ofVector (input : List ℚ) : avLUTf :=
  let maxs := toInt32 ((input.length : Int) - 2)
  let size := toUInt32 input.length
  { maxs := maxs, maxsf := (maxs : ℚ),
    data := some (input.map some ++ List.replicate 3 none),
    size := size, upperBound := toUInt32 ((size : Int) - 1) }

/-- Method `avLUTf::reset`. -/
def avLUTf.reset (_t : avLUTf) : avLUTf :=
  { maxs := 0, maxsf := 0, data := none, size := 0, upperBound := 0 }

/-- The subscript `(index < 0) ? 0 : ((index > upperBound) ? upperBound : index)` of
`operator[](int)`; the comparison with `upperBound` and the result are `unsigned int`. -/
def avLUTf.slot (t : avLUTf) (index : Int) : Nat :=
  if index < 0 then 0
  else if toUInt32 index > t.upperBound then t.upperBound else toUInt32 index

/-- Method `float& avLUTf::operator[](int index)`, used to read the cell. -/
def avLUTf.atInt (t : avLUTf) (index : Int) : Run ℚ :=
  t.load (t.slot index)

/-- Method `float& avLUTf::operator[](int index)`, used to assign `v` to the cell. -/
def avLUTf.setInt (t : avLUTf) (index : Int) (v : ℚ) : Run avLUTf :=
  t.store (t.slot index) v

/-- Method `float avLUTf::operator[](float index)`, every operation evaluated exactly;
`avLUTf.atFloatRounded` below rounds the result of every operation to `float`. -/
def avLUTf.atFloat (t : avLUTf) (index : ℚ) : Run ℚ :=
  if index < 0 then t.load 0
  else if index > t.maxsf then t.load t.upperBound
  else do
    let idx : Int := floatToInt index
    let diff : ℚ := index - (idx : ℚ)
    let p1 ← t.load idx
    let p2 := (← t.load (idx + 1)) - p1
    pure (p1 + p2 * diff)

/-! ## `class Curve`, `class ToneCurve`, `class AdobeToneCurve` -/

/-- The abstract class `Curve` as `ToneCurve::Set` sees it: the virtual `getVal`. -/
structure Curve where
  /-- Virtual method `double getVal(double t) const`. -/
  getVal : ℚ → Run ℚ

/-- A `DiagonalCurve` passed as `const Curve&`. -/
def DiagonalCurve.toCurve (c : DiagonalCurve) : Curve := { getVal := c.getVal }

/-- Class `ToneCurve`. -/
structure ToneCurve where
  /-- Field `avLUTf lutToneCurve`. -/
  lutToneCurve : avLUTf
  deriving DecidableEq, Repr

/-- Method `ToneCurve::Reset`. -/
def ToneCurve.Reset (tc : ToneCurve) : ToneCurve :=
  { lutToneCurve := tc.lutToneCurve.reset }

/-- The loop `for (int i = 0; i < 65536; i++)` of `ToneCurve::Set`, with `n` iterations
left to run: `lutToneCurve[i] = (float)pCurve.getVal(float(i) / 65535.f) * 65535.f`. -/
def fillLoop (pCurve : Curve) : Nat → Int → avLUTf → Run avLUTf
  | 0, _, lut => .ok lut
  | n + 1, i, lut => do
    let v ← pCurve.getVal ((i : ℚ) / 65535)
    let lut ← lut.setInt i (v * 65535)
    fillLoop pCurve n (i + 1) lut

/-- Method `ToneCurve::Set(const Curve& pCurve, float gamma)`. -/
def ToneCurve.Set (tc : ToneCurve) (pCurve : Curve) (gamma : ℚ) : Run ToneCurve := do
  let lut ← tc.lutToneCurve.allocate 65536
  if gamma ≤ 0 ∨ gamma = 1 then do
    let lut ← fillLoop pCurve 65536 0 lut
    pure { lutToneCurve := lut }
  else
    pure { lutToneCurve := lut }

/-- Class `AdobeToneCurve`, derived from `ToneCurve`. -/
structure AdobeToneCurve extends ToneCurve
  deriving DecidableEq, Repr

/-- Method `AdobeToneCurve::RGBTone(float& maxval, float& medval, float& minval)`, every
operation evaluated exactly; it returns the final values of its three reference
parameters.  `AdobeToneCurve.RGBToneRounded` below rounds the result of every operation to
`float`. -/
def AdobeToneCurve.RGBTone (tc : AdobeToneCurve) (maxval medval minval : ℚ) :
    Run (ℚ × ℚ × ℚ) := do
  let minvalold := minval
  let medvalold := medval
  let maxvalold := maxval
  let maxval ← tc.lutToneCurve.atFloat maxvalold
  let minval ← tc.lutToneCurve.atFloat minvalold
  let q ← fdiv ((maxval - minval) * (medvalold - minvalold)) (maxvalold - minvalold)
  let medval := minval + q
  pure (maxval, medval, minval)

/-- The statement `if (r >= g) { ... } else { ... }` of `AdobeToneCurve::Apply`, on the
clamped locals `r`, `g`, `b`; it returns their final values. -/
def AdobeToneCurve.toneTree (tc : AdobeToneCurve) (r g b : ℚ) : Run (ℚ × ℚ × ℚ) :=
  if r ≥ g then
    if g > b then do
      let (r, g, b) ← tc.RGBTone r g b
      pure (r, g, b)
    else if b > r then do
      let (b, r, g) ← tc.RGBTone b r g
      pure (r, g, b)
    else if b > g then do
      let (r, b, g) ← tc.RGBTone r b g
      pure (r, g, b)
    else do
      let r ← tc.lutToneCurve.atFloat r
      let g ← tc.lutToneCurve.atFloat g
      let b := g
      pure (r, g, b)
  else
    if r ≥ b then do
      let (g, r, b) ← tc.RGBTone g r b
      pure (r, g, b)
    else if b > g then do
      let (b, g, r) ← tc.RGBTone b g r
      pure (r, g, b)
    else do
      let (g, b, r) ← tc.RGBTone g b r
      pure (r, g, b)

/-- Method `AdobeToneCurve::Apply(float& ir, float& ig, float& ib)`, every operation
evaluated exactly; it returns the final values of its three reference parameters.
`AdobeToneCurve.ApplyRounded` below is the method in `float` arithmetic. -/
def AdobeToneCurve.Apply (tc : AdobeToneCurve) (ir ig ib : ℚ) : Run (ℚ × ℚ × ℚ) := do
  let r : ℚ := max 0 (min 65535 ir)
  let g : ℚ := max 0 (min 65535 ig)
  let b : ℚ := max 0 (min 65535 ib)
  let (r, g, b) ← tc.toneTree r g b
  if ¬ (ir < 0 ∨ ir > 65535) ∨ ¬ (ig < 0 ∨ ig > 65535) ∨ ¬ (ib < 0 ∨ ib > 65535) then
    pure (r, g, b)
  else
    pure (ir, ig, ib)

/-! ## Reading the input sequence -/

/-- The x coordinate of control point `i` of the flat sequence `p`, that is `p[2 i + 1]`. -/
def pointX (p : List ℚ) (i : Nat) : ℚ := p.getD (2 * i + 1) 0

/-- The y coordinate of control point `i` of the flat sequence `p`, that is `p[2 i + 2]`. -/
def pointY (p : List ℚ) (i : Nat) : ℚ := p.getD (2 * i + 2) 0

/-- The number of control points the constructor extracts, `(p.size() - 1) / 2`. -/
def pointCount (p : List ℚ) : Nat := (p.length - 1) / 2

/-! ## Quantities used to state the properties -/

/-- The x coordinates copied by the extraction loop. -/
def pointsX (p : List ℚ) : List ℚ := (List.range (pointCount p)).map (pointX p)

/-- The y coordinates copied by the extraction loop. -/
def pointsY (p : List ℚ) : List ℚ := (List.range (pointCount p)).map (pointY p)

/-- The value of `identity` after the extraction loop: every point is within
`0.000009` of the diagonal. -/
def onDiagonal (p : List ℚ) : Bool :=
  (List.range (pointCount p)).all fun i => decide (|pointX p i - pointY p i| < 9 / 1000000)

/-- The array `x[]` after `if (x[0] == 0.0 && x[1] == 0.0) x[1] = 0.01;`. -/
def fixZero (x : List ℚ) : List ℚ :=
  if x.getD 0 0 = 0 ∧ x.getD 1 0 = 0 then x.set 1 (1 / 100) else x

/-- The array `x[]` after `if (x[0] == 1.0 && x[1] == 1.0) x[0] = 0.99;`. -/
def fixOne (x : List ℚ) : List ℚ :=
  if x.getD 0 0 = 1 ∧ x.getD 1 0 = 1 then x.set 0 (99 / 100) else x

/-- The final value of the local `identity` for an input with a recognised kind. -/
def isIdentity (p : List ℚ) : Bool :=
  decide (pointX p 0 = 0 ∧ pointX p (pointCount p - 1) = 1) && onDiagonal p

/-- The object the constructor holds when it reaches `if (!identity)`. -/
def loaded (p : List ℚ) (poly_pn : Int) : DiagonalCurve :=
  { DiagonalCurve.init poly_pn with
    N := pointCount p, x := fixOne (fixZero (pointsX p)), y := pointsY p,
    kind := toDiagonalCurveType (p.getD 0 0) }

/-- The value of the chord through points `k` and `k + 1` at `t`. -/
def chord (c : DiagonalCurve) (k : Nat) (t : ℚ) : ℚ :=
  c.y.getD k 0 + (t - c.x.getD k 0) * (c.y.getD (k + 1) 0 - c.y.getD k 0) /
    (c.x.getD (k + 1) 0 - c.x.getD k 0)

/-- The ratio `sig` of forward-elimination step `i`. -/
def sigAt (x : List ℚ) (i : Nat) : ℚ :=
  (x.getD i 0 - x.getD (i - 1) 0) / (x.getD (i + 1) 0 - x.getD (i - 1) 0)

/-- The value forward elimination leaves in `ypp[i]`. -/
def fwdYpp (x : List ℚ) : Nat → ℚ
  | 0 => 0
  | i + 1 => (sigAt x (i + 1) - 1) / (sigAt x (i + 1) * fwdYpp x i + 2)

/-- The pivot `p` of forward-elimination step `i`. -/
def pivotAt (x : List ℚ) (i : Nat) : ℚ := sigAt x i * fwdYpp x (i - 1) + 2

/-- The difference of the two slopes at point `i`, the first value stored in `u[i]`. -/
def slopeDiff (x y : List ℚ) (i : Nat) : ℚ :=
  (y.getD (i + 1) 0 - y.getD i 0) / (x.getD (i + 1) 0 - x.getD i 0)
    - (y.getD i 0 - y.getD (i - 1) 0) / (x.getD i 0 - x.getD (i - 1) 0)

/-- The value forward elimination leaves in `u[i]`. -/
def fwdU (x y : List ℚ) : Nat → ℚ
  | 0 => 0
  | i + 1 =>
    (6 * slopeDiff x y (i + 1) / (x.getD (i + 1 + 1) 0 - x.getD i 0)
      - sigAt x (i + 1) * fwdU x y i) / (sigAt x (i + 1) * fwdYpp x i + 2)

/-- A table of logical size `d.length` whose cells hold `d`: the state left by
`operator()(int)` and later assignments, or by the vector constructor (the three
extra cells are allocated and never written). -/
def avLUTf.Holds (t : avLUTf) (d : List ℚ) : Prop :=
  t.data = some (d.map some ++ List.replicate 3 none) ∧ t.size = d.length ∧
    t.upperBound = d.length - 1 ∧ t.maxs = (d.length : Int) - 2 ∧
    t.maxsf = (d.length : ℚ) - 2

instance (t : avLUTf) (d : List ℚ) : Decidable (t.Holds d) := by
  unfold avLUTf.Holds
  infer_instance

/-- The value the fractional lookup `operator[](float)` returns (0 if the run ends with
a fault). -/
def avLUTf.value (t : avLUTf) (f : ℚ) : ℚ :=
  match t.atFloat f with
  | .ok v => v
  | .error _ => 0

/-- One input channel clamped to `[0, 65535]`, as in the first statements of `Apply`. -/
def clampChannel (v : ℚ) : ℚ := max 0 (min 65535 v)

/-- The sort-based reference for `Apply`, written from the specification: with the
inputs clamped, `hi` their maximum and `lo` their minimum, every channel `c` becomes
`LUT(lo) + (LUT(hi) - LUT(lo)) * (c - lo) / (hi - lo)` if `hi > lo`, and `LUT(hi)` if
`hi = lo`. -/
def applyReference (lut : ℚ → ℚ) (ir ig ib : ℚ) : ℚ × ℚ × ℚ :=
  let r := clampChannel ir
  let g := clampChannel ig
  let b := clampChannel ib
  let hi := max r (max g b)
  let lo := min r (min g b)
  if lo < hi then
    (lut lo + (lut hi - lut lo) * (r - lo) / (hi - lo),
     lut lo + (lut hi - lut lo) * (g - lo) / (hi - lo),
     lut lo + (lut hi - lut lo) * (b - lo) / (hi - lo))
  else (lut hi, lut hi, lut hi)

/-- The value of the interpolating branch of `operator[](float)` on the cells `d`:
`p1 + p2 * diff` with `idx = floor(f)`. -/
def interpAt (d : List ℚ) (f : ℚ) : ℚ :=
  d.getD ⌊f⌋.toNat 0 + (d.getD (⌊f⌋.toNat + 1) 0 - d.getD ⌊f⌋.toNat 0) * (f - (⌊f⌋ : ℚ))

/-- The test `!(v < 0.0 || v > 65535.0)` of the last statement of `Apply`: the channel
is within `[0, 65535]`. -/
def inGamut (v : ℚ) : Prop := ¬ (v < 0 ∨ v > 65535)

instance (v : ℚ) : Decidable (inGamut v) := by
  unfold inGamut
  infer_instance

/-- The branch of the decision tree of `Apply` taken for the clamped locals `r`, `g`,
`b`, numbered as in the comments of the source (`Case 1` to `Case 7`). -/
def applyCase (r g b : ℚ) : Nat :=
  if r ≥ g then
    if g > b then 1
    else if b > r then 2
    else if b > g then 3
    else 4
  else
    if r ≥ b then 5
    else if b > g then 6
    else 7

/-- The arguments `(maxval, medval, minval)` of the call of `RGBTone` made by the
decision tree of `Apply`; `none` in the branch that makes no call. -/
def rgbToneArgs (r g b : ℚ) : Option (ℚ × ℚ × ℚ) :=
  if r ≥ g then
    if g > b then some (r, g, b)
    else if b > r then some (b, r, g)
    else if b > g then some (r, b, g)
    else none
  else
    if r ≥ b then some (g, r, b)
    else if b > g then some (b, g, r)
    else some (g, b, r)

/-- A `ToneCurve` before its first `Set`: a representative of the default-constructed
object, whose table fields are indeterminate. -/
def ToneCurve.fresh : ToneCurve :=
  { lutToneCurve := { maxs := 0, maxsf := 0, data := none, size := 0, upperBound := 0 } }

/-- The identity curve: the object the constructor returns for an empty sequence. -/
def identityCurve : DiagonalCurve := { DiagonalCurve.init 1000 with kind := DCT_Empty }

/-- One output channel of the sort-based reference: for the clamped channel `c`, with
`hi` and `lo` the largest and smallest clamped channels. -/
def refChannel (lut : ℚ → ℚ) (hi lo c : ℚ) : ℚ :=
  if lo < hi then lut lo + (lut hi - lut lo) * (c - lo) / (hi - lo) else lut hi

/-- The assignment of the three results `(maxval, medval, minval)` of `RGBTone` to the
locals `(r, g, b)` in branch `k` of the decision tree of `Apply`, read off the order of the
reference arguments of the call made in that branch. -/
def placeChannels (k : Nat) (o : ℚ × ℚ × ℚ) : ℚ × ℚ × ℚ :=
  match k with
  | 1 => (o.1, o.2.1, o.2.2)
  | 2 => (o.2.1, o.2.2, o.1)
  | 3 => (o.1, o.2.2, o.2.1)
  | 5 => (o.2.1, o.1, o.2.2)
  | 6 => (o.2.2, o.2.1, o.1)
  | _ => (o.2.2, o.1, o.2.1)

/-- The indices of the cells of `data` that `operator[](float)` reads, in the order of the
reads: `data[0]`, or `data[upperBound]`, or `data[idx]` and `data[idx + 1]`. -/
def avLUTf.cellsRead (t : avLUTf) (index : ℚ) : List Int :=
  if index < 0 then [0]
  else if index > t.maxsf then [(t.upperBound : Int)]
  else [floatToInt index, floatToInt index + 1]

/-- The value of `u[i]` as the specification words it, read with ordinary operator
precedence: `6 * (slope difference) / (x[i+1] - x[i-1]) - sig * u[i-1] / p`, for the
previous value `uPrev` of `u[i-1]`. -/
def statedU (x y : List ℚ) (i : Nat) (uPrev : ℚ) : ℚ :=
  6 * slopeDiff x y i / (x.getD (i + 1) 0 - x.getD (i - 1) 0) - sigAt x i * uPrev / pivotAt x i

/-! ## Floating-point arithmetic

The definitions above evaluate every operation exactly.  The definitions below evaluate the
same statements with the result of every operation rounded to the format of the source:
`float` in `avLUTf::operator[](float)`, `AdobeToneCurve::RGBTone` and
`AdobeToneCurve::Apply`, `double` in `DiagonalCurve::getVal`. -/

/-- Rounding of `q` to the nearest integer, a tie going to the even neighbour. -/
def roundHalfEven (q : ℚ) : Int :=
  if q - (⌊q⌋ : ℚ) < 1 / 2 then ⌊q⌋
  else if 1 / 2 < q - (⌊q⌋ : ℚ) then ⌊q⌋ + 1
  else if ⌊q⌋ % 2 = 0 then ⌊q⌋ else ⌊q⌋ + 1

/-- Rounding to the nearest value of a binary floating-point format with `p` significand
bits and least normal exponent `emin` (round to nearest, ties to even, gradual
underflow): the spacing of the format around `q` is `2 ^ (e - (p - 1))` with
`e = max (floor (log2 |q|)) emin`.  The format's largest finite value is not modelled: where
the machine would produce an infinity the model produces the rounded finite value, so
the model speaks for the machine only while every intermediate result is finite. -/
def roundBinary (p : Nat) (emin : Int) (q : ℚ) : ℚ :=
  if q = 0 then 0
  else (roundHalfEven (q / 2 ^ (max (Int.log 2 |q|) emin - ((p : Int) - 1))) : ℚ)
      * 2 ^ (max (Int.log 2 |q|) emin - ((p : Int) - 1))

/-- Rounding of the result of an operation on `float` (IEEE binary32). -/
def roundFloat (q : ℚ) : ℚ := roundBinary 24 (-126) q

/-- Rounding of the result of an operation on `double` (IEEE binary64). -/
def roundDouble (q : ℚ) : ℚ := roundBinary 53 (-1022) q

/-- Method `float avLUTf::operator[](float index)` with the result of every
floating-point operation rounded to `float`: the conversion `(float)idx`, the two
subtractions, the product and the sum. -/
def avLUTf.atFloatRounded (t : avLUTf) (index : ℚ) : Run ℚ :=
  if index < 0 then t.load 0
  else if index > t.maxsf then t.load t.upperBound
  else do
    let idx : Int := floatToInt index
    let diff : ℚ := roundFloat (index - roundFloat (idx : ℚ))
    let p1 ← t.load idx
    let p2 := roundFloat ((← t.load (idx + 1)) - p1)
    pure (roundFloat (p1 + roundFloat (p2 * diff)))

/-- Method `AdobeToneCurve::RGBTone` with the result of every floating-point operation
rounded to `float`: the three subtractions, the product, the quotient and the sum of
`minval + ((maxval - minval) * (medvalold - minvalold) / (maxvalold - minvalold))`. -/
def AdobeToneCurve.RGBToneRounded (tc : AdobeToneCurve) (maxval medval minval : ℚ) :
    Run (ℚ × ℚ × ℚ) := do
  let minvalold := minval
  let medvalold := medval
  let maxvalold := maxval
  let maxval ← tc.lutToneCurve.atFloatRounded maxvalold
  let minval ← tc.lutToneCurve.atFloatRounded minvalold
  let q ← fdiv (roundFloat (roundFloat (maxval - minval) * roundFloat (medvalold - minvalold)))
    (roundFloat (maxvalold - minvalold))
  let medval := roundFloat (minval + roundFloat q)
  pure (maxval, medval, minval)

/-- The statement `if (r >= g) { ... } else { ... }` of `AdobeToneCurve::Apply` in `float`
arithmetic, on the clamped locals `r`, `g`, `b`; it returns their final values. -/
def AdobeToneCurve.toneTreeRounded (tc : AdobeToneCurve) (r g b : ℚ) : Run (ℚ × ℚ × ℚ) :=
  if r ≥ g then
    if g > b then do
      let (r, g, b) ← tc.RGBToneRounded r g b
      pure (r, g, b)
    else if b > r then do
      let (b, r, g) ← tc.RGBToneRounded b r g
      pure (r, g, b)
    else if b > g then do
      let (r, b, g) ← tc.RGBToneRounded r b g
      pure (r, g, b)
    else do
      let r ← tc.lutToneCurve.atFloatRounded r
      let g ← tc.lutToneCurve.atFloatRounded g
      let b := g
      pure (r, g, b)
  else
    if r ≥ b then do
      let (g, r, b) ← tc.RGBToneRounded g r b
      pure (r, g, b)
    else if b > g then do
      let (b, g, r) ← tc.RGBToneRounded b g r
      pure (r, g, b)
    else do
      let (g, b, r) ← tc.RGBToneRounded g b r
      pure (r, g, b)

/-- Method `AdobeToneCurve::Apply(float& ir, float& ig, float& ib)` in `float` arithmetic;
it returns the final values of its three reference parameters. -/
def AdobeToneCurve.ApplyRounded (tc : AdobeToneCurve) (ir ig ib : ℚ) : Run (ℚ × ℚ × ℚ) := do
  let r : ℚ := max 0 (min 65535 ir)
  let g : ℚ := max 0 (min 65535 ig)
  let b : ℚ := max 0 (min 65535 ib)
  let (r, g, b) ← tc.toneTreeRounded r g b
  if ¬ (ir < 0 ∨ ir > 65535) ∨ ¬ (ig < 0 ∨ ig > 65535) ∨ ¬ (ib < 0 ∨ ib > 65535) then
    pure (r, g, b)
  else
    pure (ir, ig, ib)

/-- The statement `return y[k_lo] + (t - x[k_lo]) * (y[k_hi] - y[k_lo]) / h;` of `getVal`
with the result of every operation rounded to `double`: two subtractions, the product,
the quotient and the sum. -/
def DiagonalCurve.linearRounded (c : DiagonalCurve) (t : ℚ) (k_lo k_hi : Nat) (h : ℚ) :
    Run ℚ := do
  let ylo ← rd c.y k_lo
  let q ← fdiv (roundDouble (roundDouble (t - (← rd c.x k_lo)) *
    roundDouble ((← rd c.y k_hi) - ylo))) h
  pure (roundDouble (ylo + roundDouble q))

/-- The spline statements of `getVal` (`a`, `b`, `r` and the clamp) with the result of
every operation rounded to `double`; products associate to the left, as in the source
expression, and the literal is the `double` nearest to it. -/
def DiagonalCurve.splineRounded (c : DiagonalCurve) (t : ℚ) (k_lo k_hi : Nat) (h : ℚ) :
    Run ℚ := do
  let a := roundDouble (← fdiv (roundDouble ((← rd c.x k_hi) - t)) h)
  let b := roundDouble (← fdiv (roundDouble (t - (← rd c.x k_lo))) h)
  let chord := roundDouble (roundDouble (a * (← rd c.y k_lo)) +
    roundDouble (b * (← rd c.y k_hi)))
  let ca := roundDouble (roundDouble (roundDouble (roundDouble (a * a) * a) - a) *
    (← rd c.ypp k_lo))
  let cb := roundDouble (roundDouble (roundDouble (roundDouble (b * b) * b) - b) *
    (← rd c.ypp k_hi))
  let cubic := roundDouble (roundDouble (roundDouble (ca + cb) * roundDouble (h * h)) *
    roundDouble sixth)
  let r := roundDouble (chord + cubic)
  pure (if r > 0 then (if r < 1 then r else 1) else 0)

/-- Method `DiagonalCurve::getVal` with the result of every floating-point operation
rounded to `double`. -/
def DiagonalCurve.getValRounded (c : DiagonalCurve) (t : ℚ) : Run ℚ :=
  if c.kind = DCT_Linear ∨ c.kind = DCT_Spline then do
    let xl ← rdI c.x ((c.N : Int) - 1)
    if t > xl then rdI c.y ((c.N : Int) - 1)
    else do
      let x0 ← rd c.x 0
      if t < x0 then rd c.y 0
      else do
        let (k_lo, k_hi) ← bisect c.x t c.N 0 (c.N - 1)
        let h := roundDouble ((← rd c.x k_hi) - (← rd c.x k_lo))
        if c.kind = DCT_Linear then c.linearRounded t k_lo k_hi h
        else c.splineRounded t k_lo k_hi h
  else
    pure t

/-- The cells `0, 1, ..., 65535` of the identity tone table. -/
def identityCells : List ℚ := List.map (fun i : Nat => (i : ℚ)) (List.range 65536)

/-- The identity tone table, built by the vector constructor from `identityCells`. -/
def identityTable : AdobeToneCurve := { lutToneCurve := avLUTf.ofVector identityCells }

/-- The value of the chord through points `k` and `k + 1` at `t` as `getVal` computes it in
`double` arithmetic: `y[k] + (t - x[k]) * (y[k+1] - y[k]) / (x[k+1] - x[k])` with the result
of every operation rounded. -/
def chordRounded (c : DiagonalCurve) (k : Nat) (t : ℚ) : ℚ :=
  roundDouble (c.y.getD k 0 +
    roundDouble (roundDouble (roundDouble (t - c.x.getD k 0) *
        roundDouble (c.y.getD (k + 1) 0 - c.y.getD k 0)) /
      roundDouble (c.x.getD (k + 1) 0 - c.x.getD k 0)))

/-- The `double` nearest to `0.1`, that is `3602879701896397 * 2 ^ (-55)`. -/
def tenthDouble : ℚ := 3602879701896397 / 36028797018963968

/-- The `double` nearest to `0.2`, that is `3602879701896397 * 2 ^ (-54)`. -/
def fifthDouble : ℚ := 3602879701896397 / 18014398509481984

/-- The Linear curve through `(0, 0)` and `(0.1, 0.2)`, the coordinates being the nearest
`double` values. -/
def tenthFifthCurve : DiagonalCurve :=
  { N := 2, ppn := 1000, x := [0, tenthDouble], y := [0, fifthDouble], hashSize := 1000,
    ypp := [], kind := DCT_Linear }

/-- The value `operator[](float)` returns in `float` arithmetic (0 where the run faults). -/
def avLUTf.valueRounded (t : avLUTf) (f : ℚ) : ℚ :=
  match t.atFloatRounded f with
  | .ok v => v
  | .error _ => 0

/-- The middle-channel reconstruction of `RGBTone` in `float` arithmetic:
`min' + (max' - min') * (c - min) / (max - min)` with the result of every operation
rounded. -/
def midRounded (hi' lo' c hi lo : ℚ) : ℚ :=
  roundFloat (lo' + roundFloat (roundFloat (roundFloat (hi' - lo') * roundFloat (c - lo)) /
    roundFloat (hi - lo)))

/-- The sort-based reference in `float` arithmetic, on the clamped channels: `(max, mid,
min)` are the channels in descending order, equal channels keeping the order `r`, `g`,
`b`; then `max' = LUT(max)`, `min' = LUT(min)` and `mid'` is the rounded reconstruction;
if `max = min` every channel becomes `LUT(max)`. -/
def sortedRounded (lut : ℚ → ℚ) (r g b : ℚ) : ℚ × ℚ × ℚ :=
  let hi := max r (max g b)
  let lo := min r (min g b)
  if lo < hi then
    let iMax : Nat := if r = hi then 0 else if g = hi then 1 else 2
    let iMin : Nat := if b = lo then 2 else if g = lo then 1 else 0
    ((if iMax = 0 then lut hi else if iMin = 0 then lut lo
        else midRounded (lut hi) (lut lo) r hi lo),
      (if iMax = 1 then lut hi else if iMin = 1 then lut lo
        else midRounded (lut hi) (lut lo) g hi lo),
      (if iMax = 2 then lut hi else if iMin = 2 then lut lo
        else midRounded (lut hi) (lut lo) b hi lo))
  else (lut hi, lut hi, lut hi)

/-- The sort-based reference for `Apply` in `float` arithmetic: `sortedRounded` on the
inputs clamped to `[0, 65535]`. -/
def applyReferenceRounded (lut : ℚ → ℚ) (ir ig ib : ℚ) : ℚ × ℚ × ℚ :=
  sortedRounded lut (clampChannel ir) (clampChannel ig) (clampChannel ib)

/-! ## Basic facts about checked accesses -/

theorem rd_ok {a : List ℚ} {i : Nat} (h : i < a.length) : rd a i = .ok (a.getD i 0) := by
  simp [rd, List.getD_eq_getElem?_getD, List.getElem?_eq_getElem h]

theorem rd_oob {a : List ℚ} {i : Nat} (h : a.length ≤ i) : rd a i = .error .outOfBounds := by
  simp [rd, List.getElem?_eq_none h]

theorem rdI_pred {a : List ℚ} {n : Nat} (h : 1 ≤ n) : rdI a ((n : Int) - 1) = rd a (n - 1) := by
  have h1 : ¬ ((n : Int) - 1 < 0) := by omega
  have h2 : ((n : Int) - 1).toNat = n - 1 := by omega
  simp [rdI, h1, h2]

theorem wr_ok {a : List ℚ} {i : Nat} (v : ℚ) (h : i < a.length) : wr a i v = .ok (a.set i v) := by
  simp [wr, h]

theorem wrI_pred {a : List ℚ} {n : Nat} (v : ℚ) (h : 1 ≤ n) :
    wrI a ((n : Int) - 1) v = wr a (n - 1) v := by
  have h1 : ¬ ((n : Int) - 1 < 0) := by omega
  have h2 : ((n : Int) - 1).toNat = n - 1 := by omega
  simp [wrI, h1, h2]

theorem fdiv_ok {a b : ℚ} (h : b ≠ 0) : fdiv a b = .ok (a / b) := by
  simp [fdiv, h]

theorem getD_set (a : List ℚ) (i j : Nat) (v : ℚ) :
    (a.set i v).getD j 0 = if j = i ∧ i < a.length then v else a.getD j 0 := by
  simp only [List.getD_eq_getElem?_getD, List.getElem?_set]
  by_cases hij : i = j
  · subst hij
    by_cases hi : i < a.length
    · simp [hi]
    · simp [hi, List.getElem?_eq_none (Nat.le_of_not_lt hi)]
  · have : ¬ (j = i) := fun h => hij h.symm
    simp [hij, this]

theorem getD_set_self {a : List ℚ} {i : Nat} (v : ℚ) (h : i < a.length) :
    (a.set i v).getD i 0 = v := by
  rw [getD_set]; simp [h]

theorem getD_set_ne {a : List ℚ} {i j : Nat} (v : ℚ) (h : j ≠ i) :
    (a.set i v).getD j 0 = a.getD j 0 := by
  rw [getD_set]; simp [h]

theorem rd_set_self {a : List ℚ} {i : Nat} (v : ℚ) (h : i < a.length) :
    rd (a.set i v) i = .ok v := by
  rw [rd_ok (by rw [List.length_set]; exact h), getD_set_self v h]

theorem rd_set_ne {a : List ℚ} {i j : Nat} (v : ℚ) (h : j ≠ i) :
    rd (a.set i v) j = rd a j := by
  simp only [rd, List.getElem?_set_ne (Ne.symm h)]

/-! ## Concrete runs -/

theorem getVal_other (c : DiagonalCurve) (t : ℚ)
    (h : ¬ (c.kind = DCT_Linear ∨ c.kind = DCT_Spline)) : c.getVal t = .ok t := by
  simp only [DiagonalCurve.getVal, if_neg h]; rfl

theorem getVal_of_empty {c : DiagonalCurve} (h : c.kind = DCT_Empty) (t : ℚ) :
    c.getVal t = .ok t :=
  getVal_other c t (by rw [h]; decide)

theorem construct_diagonal (poly_pn : Int) :
    ∃ c, DiagonalCurve.construct [0, 0, 0, 1, 1] poly_pn = .ok c ∧ c.kind = DCT_Empty := by
  simp [DiagonalCurve.construct, DiagonalCurve.init, loadPoints, checkEnds, nudgeAtZero, nudgeAtOne, chooseKind,
    readPoints, rd, wr, rdI, toDiagonalCurveType, bind, Except.bind, pure, Except.pure]

/-- C1 (as stated, refuted): the curve built from `[Linear, 0, 0, 1, 1]` does not
extrapolate flat; the three values `getVal(0.5) = 0.5`, `getVal(-1) = 0`,
`getVal(2) = 1` do not hold together. -/
theorem c1_flat_extrapolation_refuted :
    ¬ ∃ c, DiagonalCurve.construct [0, 0, 0, 1, 1] 1000 = .ok c ∧
      c.getVal (1 / 2) = .ok (1 / 2) ∧ c.getVal (-1) = .ok 0 ∧ c.getVal 2 = .ok 1 := by
  rintro ⟨c, hc, -, h1, -⟩
  obtain ⟨d, hd, hk⟩ := construct_diagonal 1000
  rw [hd] at hc
  cases hc
  rw [getVal_other _ _ (by rw [hk]; decide)] at h1
  simp at h1

/-- C1 (amended): the input `[Linear, 0, 0, 1, 1]` lies on the diagonal with end
points at 0 and 1, so the constructed curve has kind `DCT_Empty` and `getVal` is
the identity: `getVal(0.5) = 0.5`, `getVal(-1) = -1`, `getVal(2) = 2`. -/
theorem c1_diagonal_input_is_identity (poly_pn : Int) :
    ∃ c, DiagonalCurve.construct [0, 0, 0, 1, 1] poly_pn = .ok c ∧ c.kind = DCT_Empty ∧
      c.getVal (1 / 2) = .ok (1 / 2) ∧ c.getVal (-1) = .ok (-1) ∧ c.getVal 2 = .ok 2 := by
  obtain ⟨d, hd, hk⟩ := construct_diagonal poly_pn
  refine ⟨d, hd, hk, ?_, ?_, ?_⟩ <;> exact getVal_other _ _ (by rw [hk]; decide)

/-! ## The extraction loop -/

theorem readPoints_spec (p : List ℚ) : ∀ (n i : Nat) (x y : List ℚ) (ident : Bool),
    x.length = i + n → y.length = i + n → 2 * (i + n) + 1 ≤ p.length →
    ∃ x1 y1 id1, readPoints p n i (2 * i + 1) x y ident = .ok (x1, y1, id1) ∧
      x1.length = i + n ∧ y1.length = i + n ∧
      (∀ j, j < i → x1.getD j 0 = x.getD j 0 ∧ y1.getD j 0 = y.getD j 0) ∧
      (∀ j, i ≤ j → j < i + n → x1.getD j 0 = pointX p j ∧ y1.getD j 0 = pointY p j) ∧
      (id1 = true ↔ ident = true ∧
        ∀ j, i ≤ j → j < i + n → |pointX p j - pointY p j| < 9 / 1000000) := by
  intro n
  induction n with
  | zero =>
    intro i x y ident hx hy _
    refine ⟨x, y, ident, rfl, hx, hy, fun j _ => ⟨rfl, rfl⟩, fun j h1 h2 => ?_, ?_⟩
    · omega
    · constructor
      · intro h; exact ⟨h, fun j h1 h2 => by omega⟩
      · intro h; exact h.1
  | succ n ih =>
    intro i x y ident hx hy hp
    have hxi : i < x.length := by omega
    have hyi : i < y.length := by omega
    have e : 2 * i + 1 + 2 = 2 * (i + 1) + 1 := by ring
    obtain ⟨x1, y1, id1, hrun, hx1, hy1, hlow, hhigh, hid⟩ :=
      ih (i + 1) (x.set i (p.getD (2 * i + 1) 0)) (y.set i (p.getD (2 * i + 1 + 1) 0))
        (if |p.getD (2 * i + 1) 0 - p.getD (2 * i + 1 + 1) 0| ≥ 9 / 1000000 then false else ident)
        (by rw [List.length_set]; omega) (by rw [List.length_set]; omega) (by omega)
    refine ⟨x1, y1, id1, ?_, by omega, by omega, ?_, ?_, ?_⟩
    · rw [readPoints]
      simp only [bind, Except.bind]
      simp only [rd_ok (show 2 * i + 1 < p.length by omega),
        rd_ok (show 2 * i + 1 + 1 < p.length by omega), fun v => wr_ok v hxi,
        fun v => wr_ok v hyi, fun v => rd_set_self v hxi, fun v => rd_set_self v hyi]
      rw [e]
      exact hrun
    · intro j hj
      obtain ⟨h1, h2⟩ := hlow j (by omega)
      rw [h1, h2, getD_set_ne _ (by omega), getD_set_ne _ (by omega)]
      exact ⟨rfl, rfl⟩
    · intro j hj1 hj2
      by_cases hji : j = i
      · subst hji
        obtain ⟨h1, h2⟩ := hlow j (by omega)
        rw [h1, h2, getD_set_self _ hxi, getD_set_self _ hyi]
        exact ⟨rfl, rfl⟩
      · exact hhigh j (by omega) (by omega)
    · rw [hid]
      constructor
      · rintro ⟨h1, h2⟩
        have hlt : |p.getD (2 * i + 1) 0 - p.getD (2 * i + 1 + 1) 0| < 9 / 1000000 := by
          by_contra hc
          rw [if_pos (not_lt.mp hc)] at h1
          exact Bool.false_ne_true h1
        rw [if_neg (not_le.mpr hlt)] at h1
        refine ⟨h1, fun j hj1 hj2 => ?_⟩
        by_cases hji : j = i
        · subst hji; exact hlt
        · exact h2 j (by omega) (by omega)
      · rintro ⟨h1, h2⟩
        have hlt : |p.getD (2 * i + 1) 0 - p.getD (2 * i + 1 + 1) 0| < 9 / 1000000 :=
          h2 i (le_refl _) (by omega)
        rw [if_neg (not_le.mpr hlt)]
        exact ⟨h1, fun j hj1 hj2 => h2 j (by omega) (by omega)⟩

theorem pointsX_length (p : List ℚ) : (pointsX p).length = pointCount p := by
  simp [pointsX]

theorem pointsY_length (p : List ℚ) : (pointsY p).length = pointCount p := by
  simp [pointsY]

theorem pointsX_getD (p : List ℚ) {i : Nat} (h : i < pointCount p) :
    (pointsX p).getD i 0 = pointX p i := by
  simp [pointsX, List.getD_eq_getElem?_getD, List.getElem?_map, List.getElem?_range h]

theorem pointsY_getD (p : List ℚ) {i : Nat} (h : i < pointCount p) :
    (pointsY p).getD i 0 = pointY p i := by
  simp [pointsY, List.getD_eq_getElem?_getD, List.getElem?_map, List.getElem?_range h]

theorem onDiagonal_iff (p : List ℚ) :
    onDiagonal p = true ↔ ∀ i, i < pointCount p → |pointX p i - pointY p i| < 9 / 1000000 := by
  simp [onDiagonal, List.all_eq_true]

theorem list_eq_of_getD {a b : List ℚ} (hl : a.length = b.length)
    (h : ∀ i, i < a.length → a.getD i 0 = b.getD i 0) : a = b := by
  apply List.ext_getElem hl
  intro i h1 h2
  have := h i h1
  simpa [List.getD_eq_getElem?_getD, List.getElem?_eq_getElem h1,
    List.getElem?_eq_getElem h2] using this

theorem readPoints_eq (p : List ℚ) (hlen : 3 ≤ p.length) :
    readPoints p ((p.length - 1) / 2) 0 1 (List.replicate ((p.length - 1) / 2) 0)
      (List.replicate ((p.length - 1) / 2) 0) true = .ok (pointsX p, pointsY p, onDiagonal p) := by
  have hNp : 2 * (0 + pointCount p) + 1 ≤ p.length := by unfold pointCount; omega
  obtain ⟨x1, y1, id1, hrun, hx1, hy1, -, hhigh, hid⟩ :=
    readPoints_spec p (pointCount p) 0 (List.replicate (pointCount p) 0)
      (List.replicate (pointCount p) 0) true (by simp) (by simp) hNp
  have ex : x1 = pointsX p := by
    apply list_eq_of_getD (by rw [hx1, pointsX_length]; omega)
    intro i hi
    rw [(hhigh i (Nat.zero_le _) (by omega)).1, pointsX_getD p (by omega)]
  have ey : y1 = pointsY p := by
    apply list_eq_of_getD (by rw [hy1, pointsY_length]; omega)
    intro i hi
    rw [(hhigh i (Nat.zero_le _) (by omega)).2, pointsY_getD p (by omega)]
  have eid : id1 = onDiagonal p := by
    rw [Bool.eq_iff_iff, hid, onDiagonal_iff]
    constructor
    · rintro ⟨-, h⟩ i hi; exact h i (Nat.zero_le _) (by omega)
    · intro h; exact ⟨rfl, fun j _ hj => h j (by omega)⟩
  rw [← ex, ← ey, ← eid]
  exact hrun

/-! ## The constructor, statement by statement -/

theorem checkEnds_eq {x : List ℚ} {N : Nat} (ident : Bool) (hN : 1 ≤ N) (hx : x.length = N) :
    checkEnds x N ident =
      .ok (decide (x.getD 0 0 = 0 ∧ x.getD (N - 1) 0 = 1) && ident) := by
  simp only [checkEnds, bind, Except.bind, rd_ok (show 0 < x.length by omega), rdI_pred hN,
    rd_ok (show N - 1 < x.length by omega), pure, Except.pure]
  by_cases h0 : x.getD 0 0 = 0
  · by_cases h1 : x.getD (N - 1) 0 = 1
    · rw [if_neg (not_not.mpr h0), if_neg (not_not.mpr h1), decide_eq_true ⟨h0, h1⟩]; rfl
    · rw [if_neg (not_not.mpr h0), if_pos h1, decide_eq_false (fun h => h1 h.2)]; rfl
  · rw [if_pos h0, decide_eq_false (fun h => h0 h.1)]; rfl

theorem nudgeAtZero_eq {x : List ℚ} (hx : 2 ≤ x.length) : nudgeAtZero x = .ok (fixZero x) := by
  simp only [nudgeAtZero, fixZero, bind, Except.bind, rd_ok (show 0 < x.length by omega),
    rd_ok (show 1 < x.length by omega), pure, Except.pure]
  by_cases h0 : x.getD 0 0 = 0
  · by_cases h1 : x.getD 1 0 = 0
    · rw [if_pos h0, if_pos h1, if_pos ⟨h0, h1⟩, wr_ok _ (show 1 < x.length by omega)]
    · rw [if_pos h0, if_neg h1, if_neg (fun h => h1 h.2)]
  · rw [if_neg h0, if_neg (fun h => h0 h.1)]

theorem nudgeAtOne_eq {x : List ℚ} (hx : 2 ≤ x.length) : nudgeAtOne x = .ok (fixOne x) := by
  simp only [nudgeAtOne, fixOne, bind, Except.bind, rd_ok (show 0 < x.length by omega),
    rd_ok (show 1 < x.length by omega), pure, Except.pure]
  by_cases h0 : x.getD 0 0 = 1
  · by_cases h1 : x.getD 1 0 = 1
    · rw [if_pos h0, if_pos h1, if_pos ⟨h0, h1⟩, wr_ok _ (show 0 < x.length by omega)]
    · rw [if_pos h0, if_neg h1, if_neg (fun h => h1 h.2)]
  · rw [if_neg h0, if_neg (fun h => h0 h.1)]

theorem fixZero_length (x : List ℚ) : (fixZero x).length = x.length := by
  unfold fixZero; split_ifs <;> simp

theorem fixOne_length (x : List ℚ) : (fixOne x).length = x.length := by
  unfold fixOne; split_ifs <;> simp

theorem loadPoints_eq (c : DiagonalCurve) (p : List ℚ) (hlen : 5 ≤ p.length) :
    loadPoints c p =
      (chooseKind { c with N := pointCount p, x := fixOne (fixZero (pointsX p)), y := pointsY p }
        (isIdentity p)).map fun d => (d, isIdentity p) := by
  have hN : 2 ≤ pointCount p := by unfold pointCount; omega
  have hX := pointsX_length p
  simp only [loadPoints, bind, Except.bind, readPoints_eq p (by omega)]
  rw [show (p.length - 1) / 2 = pointCount p from rfl,
    checkEnds_eq (onDiagonal p) (by omega) hX]
  simp only [nudgeAtZero_eq (show 2 ≤ (pointsX p).length by omega),
    nudgeAtOne_eq (show 2 ≤ (fixZero (pointsX p)).length by rw [fixZero_length]; omega)]
  have e : (decide ((pointsX p).getD 0 0 = 0 ∧ (pointsX p).getD (pointCount p - 1) 0 = 1)
      && onDiagonal p) = isIdentity p := by
    rw [pointsX_getD p (by omega), pointsX_getD p (by omega)]; rfl
  rw [e]
  cases chooseKind _ (isIdentity p) <;> rfl

theorem construct_short (p : List ℚ) (poly_pn : Int) (h : p.length < 3) :
    DiagonalCurve.construct p poly_pn = .ok { DiagonalCurve.init poly_pn with kind := DCT_Empty } := by
  simp only [DiagonalCurve.construct, if_pos h]; rfl

theorem construct_recognised (p : List ℚ) (poly_pn : Int) (h : 5 ≤ p.length)
    (hk : toDiagonalCurveType (p.getD 0 0) = DCT_Linear ∨
      toDiagonalCurveType (p.getD 0 0) = DCT_Spline ∨
      toDiagonalCurveType (p.getD 0 0) = DCT_NURBS ∨
      toDiagonalCurveType (p.getD 0 0) = DCT_CatumullRom) :
    DiagonalCurve.construct p poly_pn =
      if isIdentity p = true then .ok { loaded p poly_pn with kind := DCT_Empty }
      else chooseKind (loaded p poly_pn) false := by
  simp only [DiagonalCurve.construct, if_neg (not_lt.mpr (show 3 ≤ p.length by omega)), bind,
    Except.bind, rd_ok (show 0 < p.length by omega), if_pos hk, loadPoints_eq _ p h]
  by_cases hid : isIdentity p = true
  · simp only [hid, if_true, chooseKind, Except.map, pure, Except.pure]
    rfl
  · rw [if_neg hid]
    rw [Bool.not_eq_true] at hid
    rw [hid]
    unfold loaded
    generalize chooseKind _ false = q
    cases q <;> rfl

/-! ## Identity detection and malformed input -/

theorem rd_dropLast (p : List ℚ) {j : Nat} (h : j + 1 < p.length) :
    rd p.dropLast j = rd p j := by
  simp only [rd, List.dropLast_eq_take, List.getElem?_take,
    if_pos (show j < p.length - 1 by omega)]

theorem readPoints_dropLast (p : List ℚ) : ∀ (n i ix : Nat) (x y : List ℚ) (ident : Bool),
    ix + 2 * n + 1 ≤ p.length →
    readPoints p.dropLast n i ix x y ident = readPoints p n i ix x y ident := by
  intro n
  induction n with
  | zero => intro i ix x y ident _; rfl
  | succ n ih =>
    intro i ix x y ident h
    simp only [readPoints, bind, Except.bind, rd_dropLast p (show ix + 1 < p.length by omega),
      rd_dropLast p (show ix + 1 + 1 < p.length by omega)]
    simp only [fun i x y ident => ih i (ix + 2) x y ident (by omega)]

theorem construct_dropLast (p : List ℚ) (poly_pn : Int) (heven : p.length % 2 = 0) :
    DiagonalCurve.construct p poly_pn = DiagonalCurve.construct p.dropLast poly_pn := by
  by_cases h3 : p.length < 3
  · rw [construct_short p poly_pn h3,
      construct_short p.dropLast poly_pn (by rw [List.length_dropLast]; omega)]
  · have hl : p.dropLast.length = p.length - 1 := List.length_dropLast p
    have hN : (p.dropLast.length - 1) / 2 = (p.length - 1) / 2 := by omega
    simp only [DiagonalCurve.construct, if_neg h3,
      if_neg (show ¬ p.dropLast.length < 3 by omega), loadPoints, hN,
      rd_dropLast p (show 0 + 1 < p.length by omega),
      readPoints_dropLast p ((p.length - 1) / 2) 0 1 _ _ true (by omega)]

/-- C3 (as stated, refuted): `[Linear, 0, 0, 1, 1/2, 7]` has five coordinate values, an
odd number, yet the constructed curve is not the identity: `getVal(1) = 1/2`. -/
theorem c3_odd_tail_not_identity :
    ∃ c, DiagonalCurve.construct [0, 0, 0, 1, 1 / 2, 7] 1000 = .ok c ∧
      c.getVal 1 = .ok (1 / 2) ∧ c.getVal 1 ≠ .ok 1 := by
  have hc : DiagonalCurve.construct [0, 0, 0, 1, 1 / 2, 7] 1000 =
      .ok { N := 2, ppn := 1000, x := [0, 1], y := [0, 1 / 2], hashSize := 1000, ypp := [],
            kind := DCT_Linear } := by
    simp [DiagonalCurve.construct, DiagonalCurve.init, loadPoints, checkEnds, nudgeAtZero,
      nudgeAtOne, chooseKind, readPoints, rd, wr, rdI, toDiagonalCurveType, bind, Except.bind,
      pure, Except.pure, abs_lt]
    norm_num
  have hv : DiagonalCurve.getVal
      { N := 2, ppn := 1000, x := [0, 1], y := [0, 1 / 2], hashSize := 1000, ypp := [],
        kind := DCT_Linear } 1 = .ok (1 / 2) := by
    simp [DiagonalCurve.getVal, bisect, rd, rdI, fdiv, bind, Except.bind, pure, Except.pure]
  refine ⟨_, hc, hv, ?_⟩
  rw [hv]
  simp

/-- C3 (amended): an input of fewer than 3 elements gives the identity curve,
`getVal(t) = t` for every `t`; an input with an odd number of coordinate values
(an even number of elements) is not rejected: its last element is ignored and the
constructor returns exactly what it returns for the sequence without it. -/
theorem c3_malformed_input (p : List ℚ) (poly_pn : Int) :
    (p.length < 3 →
      ∃ c, DiagonalCurve.construct p poly_pn = .ok c ∧ ∀ t, c.getVal t = .ok t) ∧
    (p.length % 2 = 0 →
      DiagonalCurve.construct p poly_pn = DiagonalCurve.construct p.dropLast poly_pn) := by
  refine ⟨fun h => ?_, fun h => construct_dropLast p poly_pn h⟩
  rw [construct_short p poly_pn h]
  exact ⟨_, rfl, fun t => getVal_of_empty rfl t⟩

/-- Witness for C3 (amended), at `[Linear, 0, 0, 1, 1/2, 7]`. -/
theorem c3_malformed_input_witness :
    DiagonalCurve.construct [0, 0, 0, 1, 1 / 2, 7] 1000 =
      DiagonalCurve.construct [0, 0, 0, 1, 1 / 2] 1000 :=
  (c3_malformed_input [0, 0, 0, 1, 1 / 2, 7] 1000).2 (by decide)

/-- C4 (failing input): for `[Linear, 0, 0]`, one control point `(0, 0)` and `N = 1`,
the constructor evaluates `x[1]` in `x[0] == 0.0 && x[1] == 0.0`, an index that is
not smaller than `N`. -/
theorem c4_single_point_reads_past_end :
    pointCount [0, 0, 0] = 1 ∧
      DiagonalCurve.construct [0, 0, 0] 1000 = .error Fault.outOfBounds := by
  simp [pointCount, DiagonalCurve.construct, DiagonalCurve.init, loadPoints, checkEnds,
    nudgeAtZero, nudgeAtOne, chooseKind, readPoints, rd, wr, rdI, toDiagonalCurveType, bind,
    Except.bind, pure, Except.pure]

/-! ## Evaluation: the bisection -/

theorem bisect_spec (x : List ℚ) (t : ℚ) (top : Nat) : ∀ (fuel lo hi : Nat),
    lo < hi → hi < x.length → hi ≤ lo + fuel + 1 → x.getD lo 0 ≤ t →
    (hi = top ∨ t < x.getD hi 0) →
    ∃ k, bisect x t fuel lo hi = .ok (k, k + 1) ∧ lo ≤ k ∧ k + 1 ≤ hi ∧
      x.getD k 0 ≤ t ∧ (k + 1 = top ∨ t < x.getD (k + 1) 0) := by
  intro fuel
  induction fuel with
  | zero =>
    intro lo hi h1 h2 h3 h4 h5
    have e : hi = lo + 1 := by omega
    subst e
    refine ⟨lo, ?_, le_refl _, le_refl _, h4, h5⟩
    simp only [bisect, if_neg (show ¬ lo + 1 > 1 + lo by omega)]
  | succ fuel ih =>
    intro lo hi h1 h2 h3 h4 h5
    by_cases hgap : hi > 1 + lo
    · have hk1 : lo < (hi + lo) / 2 := by omega
      have hk2 : (hi + lo) / 2 < hi := by omega
      simp only [bisect, if_pos hgap, bind, Except.bind,
        rd_ok (show (hi + lo) / 2 < x.length by omega)]
      by_cases hcmp : x.getD ((hi + lo) / 2) 0 > t
      · rw [if_pos hcmp]
        obtain ⟨k, hk, ha, hb, hc, hd⟩ :=
          ih lo ((hi + lo) / 2) hk1 (by omega) (by omega) h4 (Or.inr hcmp)
        exact ⟨k, hk, ha, by omega, hc, hd⟩
      · rw [if_neg hcmp]
        obtain ⟨k, hk, ha, hb, hc, hd⟩ :=
          ih ((hi + lo) / 2) hi hk2 h2 (by omega) (not_lt.mp hcmp) h5
        exact ⟨k, hk, by omega, hb, hc, hd⟩
    · have e : hi = lo + 1 := by omega
      subst e
      refine ⟨lo, ?_, le_refl _, le_refl _, h4, h5⟩
      simp only [bisect, if_neg hgap]

/-- Strictly increasing abscissas, read by index. -/
theorem pairwise_getD {x : List ℚ} (h : x.Pairwise (· < ·)) {i j : Nat} (hij : i < j)
    (hj : j < x.length) : x.getD i 0 < x.getD j 0 := by
  have := List.pairwise_iff_getElem.mp h i j (by omega) hj hij
  simpa [List.getD_eq_getElem?_getD, List.getElem?_eq_getElem hj,
    List.getElem?_eq_getElem (show i < x.length by omega)] using this

theorem pairwise_getD_le {x : List ℚ} (h : x.Pairwise (· < ·)) {i j : Nat} (hij : i ≤ j)
    (hj : j < x.length) : x.getD i 0 ≤ x.getD j 0 := by
  rcases Nat.lt_or_eq_of_le hij with h1 | h1
  · exact le_of_lt (pairwise_getD h h1 hj)
  · rw [h1]

/-- Inside the domain a Linear curve is evaluated on the adjacent pair the bisection
ends on. -/
theorem getVal_linear_inside (c : DiagonalCurve) (t : ℚ) (hk : c.kind = DCT_Linear)
    (hN : 2 ≤ c.N) (hx : c.x.length = c.N) (hy : c.y.length = c.N)
    (hinc : c.x.Pairwise (· < ·))
    (h0 : c.x.getD 0 0 ≤ t) (h1 : t ≤ c.x.getD (c.N - 1) 0) :
    ∃ k, k + 1 < c.N ∧ bisect c.x t c.N 0 (c.N - 1) = .ok (k, k + 1) ∧
      c.x.getD k 0 ≤ t ∧ t ≤ c.x.getD (k + 1) 0 ∧
      c.getVal t = .ok (c.y.getD k 0 +
        (t - c.x.getD k 0) * (c.y.getD (k + 1) 0 - c.y.getD k 0) /
          (c.x.getD (k + 1) 0 - c.x.getD k 0)) := by
  obtain ⟨k, hb, -, hk2, hlo, hhi⟩ :=
    bisect_spec c.x t (c.N - 1) c.N 0 (c.N - 1) (by omega) (by omega) (by omega) h0 (Or.inl rfl)
  have hup : t ≤ c.x.getD (k + 1) 0 := by
    rcases hhi with h | h
    · rw [h]; exact h1
    · exact le_of_lt h
  have hne : c.x.getD (k + 1) 0 - c.x.getD k 0 ≠ 0 :=
    ne_of_gt (sub_pos.mpr (pairwise_getD hinc (Nat.lt_succ_self k) (by omega)))
  refine ⟨k, by omega, hb, hlo, hup, ?_⟩
  simp only [DiagonalCurve.getVal, hk, true_or, if_true, bind, Except.bind,
    rdI_pred (show 1 ≤ c.N by omega), rd_ok (show c.N - 1 < c.x.length by omega),
    if_neg (not_lt.mpr h1), rd_ok (show 0 < c.x.length by omega), if_neg (not_lt.mpr h0), hb,
    rd_ok (show k + 1 < c.x.length by omega), rd_ok (show k < c.x.length by omega),
    rd_ok (show k + 1 < c.y.length by omega), rd_ok (show k < c.y.length by omega),
    fdiv_ok hne, pure, Except.pure]

/-- C5 (as stated, refuted): the curve built from `[Linear, 1, 1/5, 0, 7/10]` stores
`x = [1, 0]`, `y = [1/5, 7/10]`; at `t = 1/2 < x[0]` the test `t > x[N-1]` fires first
and `getVal` returns `y[N-1] = 7/10`, not `y[0] = 1/5`. -/
theorem c5_lower_extrapolation_refuted :
    ∃ c, DiagonalCurve.construct [0, 1, 1 / 5, 0, 7 / 10] 1000 = .ok c ∧
      c.kind = DCT_Linear ∧ (1 / 2 : ℚ) < c.x.getD 0 0 ∧ c.y.getD 0 0 = 1 / 5 ∧
      c.getVal (1 / 2) = .ok (7 / 10) ∧ c.getVal (1 / 2) ≠ .ok (c.y.getD 0 0) := by
  have hc : DiagonalCurve.construct [0, 1, 1 / 5, 0, 7 / 10] 1000 =
      .ok { N := 2, ppn := 1000, x := [1, 0], y := [1 / 5, 7 / 10], hashSize := 1000,
            ypp := [], kind := DCT_Linear } := by
    simp [DiagonalCurve.construct, DiagonalCurve.init, loadPoints, checkEnds, nudgeAtZero,
      nudgeAtOne, chooseKind, readPoints, rd, wr, rdI, toDiagonalCurveType, bind, Except.bind,
      pure, Except.pure, abs_lt]
  have hv : DiagonalCurve.getVal
      { N := 2, ppn := 1000, x := [1, 0], y := [1 / 5, 7 / 10], hashSize := 1000,
        ypp := [], kind := DCT_Linear } (1 / 2) = .ok (7 / 10) := by
    simp [DiagonalCurve.getVal, rd, rdI, bind, Except.bind]
  refine ⟨_, hc, rfl, by norm_num, by norm_num, hv, ?_⟩
  rw [hv]
  norm_num

/-- C5 (amended): for a curve of kind Linear or Spline with stored points
`x[0..N-1]`, `y[0..N-1]`, `getVal(t) = y[N-1]` for every `t > x[N-1]`, and
`getVal(t) = y[0]` for every `t < x[0]` that is not above `x[N-1]` (so for every
`t < x[0]` when `x[0] ≤ x[N-1]`); the values are returned as stored. -/
theorem c5_flat_extrapolation (c : DiagonalCurve) (t : ℚ)
    (hk : c.kind = DCT_Linear ∨ c.kind = DCT_Spline) (hN : 1 ≤ c.N)
    (hx : c.x.length = c.N) (hy : c.y.length = c.N) :
    (c.x.getD (c.N - 1) 0 < t → c.getVal t = .ok (c.y.getD (c.N - 1) 0)) ∧
    (t < c.x.getD 0 0 → t ≤ c.x.getD (c.N - 1) 0 → c.getVal t = .ok (c.y.getD 0 0)) ∧
    (t < c.x.getD 0 0 → c.x.getD 0 0 ≤ c.x.getD (c.N - 1) 0 →
      c.getVal t = .ok (c.y.getD 0 0)) := by
  have low : t < c.x.getD 0 0 → t ≤ c.x.getD (c.N - 1) 0 →
      c.getVal t = .ok (c.y.getD 0 0) := by
    intro h0 h1
    simp only [DiagonalCurve.getVal, if_pos hk, bind, Except.bind, rdI_pred hN,
      rd_ok (show c.N - 1 < c.x.length by omega), if_neg (not_lt.mpr h1),
      rd_ok (show 0 < c.x.length by omega), if_pos h0, rd_ok (show 0 < c.y.length by omega)]
  refine ⟨fun h => ?_, low, fun h0 h1 => low h0 (le_trans (le_of_lt h0) h1)⟩
  simp only [DiagonalCurve.getVal, if_pos hk, bind, Except.bind, rdI_pred hN,
    rd_ok (show c.N - 1 < c.x.length by omega), gt_iff_lt, if_pos h,
    rd_ok (show c.N - 1 < c.y.length by omega)]

/-- Witness for C5 (amended): the Linear curve through `(0, 1/5)`, `(1, 7/10)`. -/
theorem c5_flat_extrapolation_witness :
    DiagonalCurve.getVal
      { N := 2, ppn := 1000, x := [0, 1], y := [1 / 5, 7 / 10], hashSize := 1000, ypp := [],
        kind := DCT_Linear } 2 = .ok (7 / 10) :=
  (c5_flat_extrapolation
    { N := 2, ppn := 1000, x := [0, 1], y := [1 / 5, 7 / 10], hashSize := 1000, ypp := [],
      kind := DCT_Linear } 2 (Or.inl rfl) (by decide) rfl rfl).1 (by norm_num)

theorem chord_left (c : DiagonalCurve) (k : Nat) : chord c k (c.x.getD k 0) = c.y.getD k 0 := by
  simp [chord]

theorem chord_right (c : DiagonalCurve) (k : Nat)
    (h : c.x.getD (k + 1) 0 - c.x.getD k 0 ≠ 0) :
    chord c k (c.x.getD (k + 1) 0) = c.y.getD (k + 1) 0 := by
  unfold chord
  rw [mul_div_assoc, mul_comm, div_mul_cancel₀ _ h]
  ring

/-- Two brackets of the same `t` in a strictly increasing `x` give the same chord value. -/
theorem chord_unique (c : DiagonalCurve) (hinc : c.x.Pairwise (· < ·)) (t : ℚ) (j k : Nat)
    (hj : j + 1 < c.x.length) (hk : k + 1 < c.x.length)
    (hj0 : c.x.getD j 0 ≤ t) (hj1 : t ≤ c.x.getD (j + 1) 0)
    (hk0 : c.x.getD k 0 ≤ t) (hk1 : t ≤ c.x.getD (k + 1) 0) :
    chord c j t = chord c k t := by
  have step : ∀ a b : Nat, a < b → b + 1 < c.x.length → c.x.getD b 0 ≤ t →
      t ≤ c.x.getD (a + 1) 0 → chord c a t = chord c b t := by
    intro a b hab hb hb0 ha1
    have h1 : c.x.getD (a + 1) 0 ≤ c.x.getD b 0 := pairwise_getD_le hinc (by omega) (by omega)
    have e1 : t = c.x.getD b 0 := le_antisymm (le_trans ha1 h1) hb0
    have e2 : c.x.getD (a + 1) 0 = c.x.getD b 0 := le_antisymm h1 (e1 ▸ ha1)
    have e3 : a + 1 = b := by
      by_contra hne
      have : c.x.getD (a + 1) 0 < c.x.getD b 0 := pairwise_getD hinc (by omega) (by omega)
      exact absurd e2 (ne_of_lt this)
    have hne : c.x.getD (a + 1) 0 - c.x.getD a 0 ≠ 0 :=
      ne_of_gt (sub_pos.mpr (pairwise_getD hinc (Nat.lt_succ_self a) (by omega)))
    rw [e1, chord_left, ← e3, chord_right c a hne]
  rcases Nat.lt_trichotomy j k with h | h | h
  · exact step j k h hk hk0 hj1
  · rw [h]
  · exact (step k j h hj hj0 hk1).symm

theorem sigAt_bounds {x : List ℚ} (hinc : x.Pairwise (· < ·)) {i : Nat} (h1 : 1 ≤ i)
    (h2 : i + 1 < x.length) : 0 < sigAt x i ∧ sigAt x i < 1 := by
  have ha : x.getD (i - 1) 0 < x.getD i 0 := pairwise_getD hinc (by omega) (by omega)
  have hb : x.getD i 0 < x.getD (i + 1) 0 := pairwise_getD hinc (by omega) (by omega)
  unfold sigAt
  constructor
  · exact div_pos (by linarith) (by linarith)
  · rw [div_lt_one (by linarith)]
    linarith

theorem fwdYpp_bounds {x : List ℚ} (hinc : x.Pairwise (· < ·)) :
    ∀ i, i + 1 < x.length → -(1 / 2) ≤ fwdYpp x i ∧ fwdYpp x i ≤ 0 := by
  intro i
  induction i with
  | zero => intro _; simp [fwdYpp]
  | succ i ih =>
    intro h
    obtain ⟨hd1, hd2⟩ := ih (by omega)
    obtain ⟨hs1, hs2⟩ := sigAt_bounds hinc (show 1 ≤ i + 1 by omega) h
    have hp : 0 < sigAt x (i + 1) * fwdYpp x i + 2 := by nlinarith
    simp only [fwdYpp]
    constructor
    · rw [le_div_iff₀ hp]
      nlinarith
    · exact div_nonpos_of_nonpos_of_nonneg (by linarith) (le_of_lt hp)

theorem pivotAt_bounds {x : List ℚ} (hinc : x.Pairwise (· < ·)) {i : Nat} (h1 : 1 ≤ i)
    (h2 : i + 1 < x.length) : 3 / 2 ≤ pivotAt x i := by
  obtain ⟨hd1, hd2⟩ := fwdYpp_bounds hinc (i - 1) (by omega)
  obtain ⟨hs1, hs2⟩ := sigAt_bounds hinc h1 h2
  unfold pivotAt
  nlinarith

theorem splineForward_spec (x y : List ℚ) (hy : y.length = x.length)
    (hinc : x.Pairwise (· < ·)) : ∀ (n i : Nat) (ypp u : List ℚ),
    i + 1 + n + 1 = x.length → ypp.length = x.length → u.length + 1 = x.length →
    (∀ j, j ≤ i → ypp.getD j 0 = fwdYpp x j ∧ u.getD j 0 = fwdU x y j) →
    ∃ ypp1 u1, splineForward x y n (i + 1) ypp u = .ok (ypp1, u1) ∧
      ypp1.length = x.length ∧ u1.length + 1 = x.length ∧
      (∀ j, j ≤ i + n → ypp1.getD j 0 = fwdYpp x j ∧ u1.getD j 0 = fwdU x y j) := by
  intro n
  induction n with
  | zero =>
    intro i ypp u _ h2 h3 h4
    exact ⟨ypp, u, rfl, h2, h3, h4⟩
  | succ n ih =>
    intro i ypp u h1 h2 h3 h4
    obtain ⟨hd, hu⟩ := h4 i (le_refl i)
    have hx01 : x.getD i 0 < x.getD (i + 1) 0 := pairwise_getD hinc (by omega) (by omega)
    have hx12 : x.getD (i + 1) 0 < x.getD (i + 1 + 1) 0 :=
      pairwise_getD hinc (by omega) (by omega)
    have hne1 : x.getD (i + 1 + 1) 0 - x.getD i 0 ≠ 0 := by
      have : 0 < x.getD (i + 1 + 1) 0 - x.getD i 0 := by linarith
      exact ne_of_gt this
    have hne2 : x.getD (i + 1 + 1) 0 - x.getD (i + 1) 0 ≠ 0 := ne_of_gt (sub_pos.mpr hx12)
    have hne3 : x.getD (i + 1) 0 - x.getD i 0 ≠ 0 := ne_of_gt (sub_pos.mpr hx01)
    have hsig : sigAt x (i + 1) =
        (x.getD (i + 1) 0 - x.getD i 0) / (x.getD (i + 1 + 1) 0 - x.getD i 0) := by
      simp only [sigAt, Nat.add_sub_cancel]
    have hslope : slopeDiff x y (i + 1) =
        (y.getD (i + 1 + 1) 0 - y.getD (i + 1) 0) / (x.getD (i + 1 + 1) 0 - x.getD (i + 1) 0)
          - (y.getD (i + 1) 0 - y.getD i 0) / (x.getD (i + 1) 0 - x.getD i 0) := by
      simp only [slopeDiff, Nat.add_sub_cancel]
    have hp : (x.getD (i + 1) 0 - x.getD i 0) / (x.getD (i + 1 + 1) 0 - x.getD i 0)
        * ypp.getD i 0 + 2 ≠ 0 := by
      have := pivotAt_bounds hinc (show 1 ≤ i + 1 by omega) (show i + 1 + 1 < x.length by omega)
      simp only [pivotAt, Nat.add_sub_cancel, hsig, ← hd] at this
      intro h0
      rw [h0] at this
      linarith
    have hi1 : i + 1 ≠ i := by omega
    have hi2 : i ≠ i + 1 := by omega
    simp only [splineForward, bind, Except.bind, Nat.add_sub_cancel,
      rd_ok (show i + 1 < x.length by omega), rd_ok (show i < x.length by omega),
      rd_ok (show i + 1 + 1 < x.length by omega), fun a => fdiv_ok (a := a) hne1,
      fun a => fdiv_ok (a := a) hne2, fun a => fdiv_ok (a := a) hne3,
      fun a => fdiv_ok (a := a) hp, rd_ok (show i < ypp.length by omega),
      fun v => wr_ok (a := ypp) v (show i + 1 < ypp.length by omega),
      rd_ok (show i + 1 + 1 < y.length by omega), rd_ok (show i + 1 < y.length by omega),
      rd_ok (show i < y.length by omega),
      fun v => wr_ok (a := u) v (show i + 1 < u.length by omega),
      fun v => rd_set_self (a := u) v (show i + 1 < u.length by omega),
      fun v => rd_set_ne (a := u) (i := i + 1) (j := i) v hi2,
      rd_ok (show i < u.length by omega),
      fun v w => wr_ok (a := u.set (i + 1) v) w
        (show i + 1 < (u.set (i + 1) v).length by rw [List.length_set]; omega)]
    refine Exists.imp (fun a => Exists.imp (fun b h =>
      ⟨h.1, h.2.1, h.2.2.1, fun j hj => h.2.2.2 j (by omega)⟩))
      (ih (i + 1) _ _ (by omega) (by rw [List.length_set]; exact h2)
        (by rw [List.length_set, List.length_set]; exact h3) ?_)
    intro j hj
    by_cases hji : j = i + 1
    · subst hji
      rw [getD_set_self _ (show i + 1 < ypp.length by omega),
        getD_set_self _ (show i + 1 < (u.set (i + 1) _).length by
          rw [List.length_set]; omega)]
      simp only [fwdYpp, fwdU, hsig, hslope, hd, hu]
      exact ⟨trivial, trivial⟩
    · rw [getD_set_ne _ hji, getD_set_ne _ hji, getD_set_ne _ hji]
      exact h4 j (by omega)

theorem splineBack_spec (u : List ℚ) : ∀ (k : Nat) (ypp : List ℚ),
    k + 1 ≤ ypp.length → k ≤ u.length →
    ∃ z, splineBack u k ypp = .ok z ∧ z.length = ypp.length ∧
      (∀ j, k ≤ j → z.getD j 0 = ypp.getD j 0) ∧
      (∀ j, j < k → z.getD j 0 = ypp.getD j 0 * z.getD (j + 1) 0 + u.getD j 0) := by
  intro k
  induction k with
  | zero =>
    intro ypp _ _
    exact ⟨ypp, rfl, rfl, fun j _ => rfl, fun j hj => absurd hj (Nat.not_lt_zero j)⟩
  | succ k ih =>
    intro ypp h1 h2
    simp only [splineBack, bind, Except.bind, rd_ok (show k < ypp.length by omega),
      rd_ok (show k + 1 < ypp.length by omega), rd_ok (show k < u.length by omega),
      wr_ok _ (show k < ypp.length by omega)]
    obtain ⟨z, hz, hlen, hhigh, hlow⟩ :=
      ih (ypp.set k (ypp.getD k 0 * ypp.getD (k + 1) 0 + u.getD k 0))
        (by rw [List.length_set]; omega) (by omega)
    refine ⟨z, hz, by rw [hlen, List.length_set], ?_, ?_⟩
    · intro j hj
      rw [hhigh j (by omega), getD_set_ne _ (by omega)]
    · intro j hj
      by_cases hjk : j = k
      · subst hjk
        rw [hhigh j (le_refl j), hhigh (j + 1) (by omega),
          getD_set_self _ (show j < ypp.length by omega), getD_set_ne _ (by omega)]
      · rw [hlow j (by omega), getD_set_ne _ hjk]

theorem spline_cubic_set_spec (c : DiagonalCurve) (hN : 3 ≤ c.N) (hx : c.x.length = c.N)
    (hy : c.y.length = c.N) (hinc : c.x.Pairwise (· < ·)) :
    ∃ z, c.spline_cubic_set = .ok { c with ypp := z } ∧ z.length = c.N ∧
      z.getD (c.N - 1) 0 = 0 ∧
      (∀ j, j + 1 < c.N → z.getD j 0 = fwdYpp c.x j * z.getD (j + 1) 0 + fwdU c.x c.y j) := by
  have hu0 : 0 < (List.replicate (c.N - 1) (0 : ℚ)).length := by
    rw [List.length_replicate]; omega
  have hy0 : 0 < (List.replicate c.N (0 : ℚ)).length := by
    rw [List.length_replicate]; omega
  obtain ⟨ypp1, u1, hfwd, hl1, hl2, hinv⟩ :=
    splineForward_spec c.x c.y (by omega) hinc (c.N - 2) 0
      ((List.replicate c.N (0 : ℚ)).set 0 0) ((List.replicate (c.N - 1) (0 : ℚ)).set 0 0)
      (by omega) (by rw [List.length_set, List.length_replicate]; omega)
      (by rw [List.length_set, List.length_replicate]; omega)
      (by
        intro j hj
        have : j = 0 := by omega
        subst this
        rw [getD_set_self _ hy0, getD_set_self _ hu0]
        exact ⟨rfl, rfl⟩)
  obtain ⟨z, hz, hzl, hhigh, hlow⟩ :=
    splineBack_spec u1 (c.N - 1) (ypp1.set (c.N - 1) 0)
      (by rw [List.length_set]; omega) (by omega)
  rw [List.length_set] at hzl
  refine ⟨z, ?_, by omega, ?_, ?_⟩
  · simp only [DiagonalCurve.spline_cubic_set, bind, Except.bind, wr_ok _ hu0, wr_ok _ hy0]
    rw [show (0 : ℕ) + 1 = 1 from rfl] at hfwd
    simp only [hfwd, wrI_pred _ (show 1 ≤ c.N by omega),
      wr_ok _ (show c.N - 1 < ypp1.length by omega), hz]
    rfl
  · rw [hhigh (c.N - 1) (le_refl _), getD_set_self _ (show c.N - 1 < ypp1.length by omega)]
  · intro j hj
    rw [hlow j (by omega), getD_set_ne _ (by omega), (hinv j (by omega)).1,
      (hinv j (by omega)).2]

/-- C8: for `N ≥ 3` points with strictly increasing `x`, the array `ypp` returned by
`spline_cubic_set` solves the natural-spline tridiagonal system: for every interior
index `i` in `1..N-2`,
`(x[i]-x[i-1])*ypp[i-1] + 2*(x[i+1]-x[i-1])*ypp[i] + (x[i+1]-x[i])*ypp[i+1]
 = 6*((y[i+1]-y[i])/(x[i+1]-x[i]) - (y[i]-y[i-1])/(x[i]-x[i-1]))`, in exact arithmetic. -/
theorem c8_tridiagonal_system (c : DiagonalCurve) (hN : 3 ≤ c.N) (hx : c.x.length = c.N)
    (hy : c.y.length = c.N) (hinc : c.x.Pairwise (· < ·)) :
    ∃ d, c.spline_cubic_set = .ok d ∧ d.ypp.length = c.N ∧
      ∀ i, 1 ≤ i → i + 1 < c.N →
        (c.x.getD i 0 - c.x.getD (i - 1) 0) * d.ypp.getD (i - 1) 0
          + 2 * (c.x.getD (i + 1) 0 - c.x.getD (i - 1) 0) * d.ypp.getD i 0
          + (c.x.getD (i + 1) 0 - c.x.getD i 0) * d.ypp.getD (i + 1) 0
        = 6 * ((c.y.getD (i + 1) 0 - c.y.getD i 0) / (c.x.getD (i + 1) 0 - c.x.getD i 0)
            - (c.y.getD i 0 - c.y.getD (i - 1) 0) / (c.x.getD i 0 - c.x.getD (i - 1) 0)) := by
  obtain ⟨z, hz, hl, hlast, hrec⟩ := spline_cubic_set_spec c hN hx hy hinc
  refine ⟨_, hz, hl, ?_⟩
  intro i hi1 hi2
  show (c.x.getD i 0 - c.x.getD (i - 1) 0) * z.getD (i - 1) 0
      + 2 * (c.x.getD (i + 1) 0 - c.x.getD (i - 1) 0) * z.getD i 0
      + (c.x.getD (i + 1) 0 - c.x.getD i 0) * z.getD (i + 1) 0 = _
  obtain ⟨k, rfl⟩ : ∃ k, i = k + 1 := ⟨i - 1, by omega⟩
  simp only [Nat.add_sub_cancel]
  have hx01 : c.x.getD k 0 < c.x.getD (k + 1) 0 := pairwise_getD hinc (by omega) (by omega)
  have hx12 : c.x.getD (k + 1) 0 < c.x.getD (k + 1 + 1) 0 :=
    pairwise_getD hinc (by omega) (by omega)
  have hp := pivotAt_bounds hinc (show 1 ≤ k + 1 by omega)
    (show k + 1 + 1 < c.x.length by omega)
  have e0 := hrec k (by omega)
  have e1 := hrec (k + 1) (by omega)
  have hH : c.x.getD (k + 1 + 1) 0 - c.x.getD k 0 ≠ 0 := by
    have : 0 < c.x.getD (k + 1 + 1) 0 - c.x.getD k 0 := by linarith
    exact ne_of_gt this
  have hsig : sigAt c.x (k + 1) * (c.x.getD (k + 1 + 1) 0 - c.x.getD k 0)
      = c.x.getD (k + 1) 0 - c.x.getD k 0 := by
    simp only [sigAt, Nat.add_sub_cancel]
    exact div_mul_cancel₀ _ hH
  have hS : slopeDiff c.x c.y (k + 1) =
      (c.y.getD (k + 1 + 1) 0 - c.y.getD (k + 1) 0) / (c.x.getD (k + 1 + 1) 0 - c.x.getD (k + 1) 0)
        - (c.y.getD (k + 1) 0 - c.y.getD k 0) / (c.x.getD (k + 1) 0 - c.x.getD k 0) := by
    simp only [slopeDiff, Nat.add_sub_cancel]
  rw [← hS, show c.x.getD (k + 1 + 1) 0 - c.x.getD (k + 1) 0 =
    (c.x.getD (k + 1 + 1) 0 - c.x.getD k 0) - (c.x.getD (k + 1) 0 - c.x.getD k 0) by ring]
  simp only [fwdYpp, fwdU] at e1
  simp only [pivotAt, Nat.add_sub_cancel] at hp
  generalize slopeDiff c.x c.y (k + 1) = S at e1 ⊢
  generalize sigAt c.x (k + 1) = sig at e1 hp hsig ⊢
  generalize fwdYpp c.x k = dk at e0 e1 hp ⊢
  generalize fwdU c.x c.y k = uk at e0 e1 ⊢
  generalize z.getD k 0 = z0 at e0 e1 ⊢
  generalize z.getD (k + 1) 0 = z1 at e0 e1 ⊢
  generalize z.getD (k + 1 + 1) 0 = z2 at e0 e1 ⊢
  generalize c.x.getD (k + 1 + 1) 0 - c.x.getD k 0 = H at e1 hH hsig ⊢
  have hpne : sig * dk + 2 ≠ 0 := by
    intro h0; rw [h0] at hp; linarith
  have hpz : (sig * dk + 2) * z1 = (sig - 1) * z2 + (6 * S / H - sig * uk) := by
    rw [e1]; field_simp; ring
  have hSH : 6 * S / H * H = 6 * S := div_mul_cancel₀ _ hH
  subst e0
  linear_combination H * hpz + hSH - (dk * z1 + uk - z2) * hsig

/-- Witness for C8: the points `(0, 0)`, `(1/2, 1/5)`, `(1, 1)`. -/
theorem c8_tridiagonal_system_witness :
    ∃ d, DiagonalCurve.spline_cubic_set
        { N := 3, ppn := 1000, x := [0, 1 / 2, 1], y := [0, 1 / 5, 1], hashSize := 1000,
          ypp := [], kind := DCT_Spline } = .ok d ∧ d.ypp.length = 3 ∧
      ∀ i, 1 ≤ i → i + 1 < 3 →
        (([0, 1 / 2, 1] : List ℚ).getD i 0 - ([0, 1 / 2, 1] : List ℚ).getD (i - 1) 0)
            * d.ypp.getD (i - 1) 0
          + 2 * (([0, 1 / 2, 1] : List ℚ).getD (i + 1) 0 - ([0, 1 / 2, 1] : List ℚ).getD (i - 1) 0)
            * d.ypp.getD i 0
          + (([0, 1 / 2, 1] : List ℚ).getD (i + 1) 0 - ([0, 1 / 2, 1] : List ℚ).getD i 0)
            * d.ypp.getD (i + 1) 0
        = 6 * ((([0, 1 / 5, 1] : List ℚ).getD (i + 1) 0 - ([0, 1 / 5, 1] : List ℚ).getD i 0)
              / (([0, 1 / 2, 1] : List ℚ).getD (i + 1) 0 - ([0, 1 / 2, 1] : List ℚ).getD i 0)
            - (([0, 1 / 5, 1] : List ℚ).getD i 0 - ([0, 1 / 5, 1] : List ℚ).getD (i - 1) 0)
              / (([0, 1 / 2, 1] : List ℚ).getD i 0 - ([0, 1 / 2, 1] : List ℚ).getD (i - 1) 0)) :=
  c8_tridiagonal_system
    { N := 3, ppn := 1000, x := [0, 1 / 2, 1], y := [0, 1 / 5, 1], hashSize := 1000,
      ypp := [], kind := DCT_Spline } (by decide) rfl rfl (by norm_num)

/-! ## The boundary correction -/

theorem toUInt32_natCast {n : Nat} (h : n < 4294967296) : toUInt32 (n : Int) = n := by
  unfold toUInt32
  omega

theorem toInt32_of_range {z : Int} (h1 : -2147483648 ≤ z) (h2 : z < 2147483648) :
    toInt32 z = z := by
  unfold toInt32
  split_ifs <;> omega

theorem cells_getElem? (d : List ℚ) {i : Nat} (h : i < d.length) :
    (d.map some ++ List.replicate 3 (none : Option ℚ))[i]? = some (some (d.getD i 0)) := by
  rw [List.getElem?_append_left (by simpa using h), List.getElem?_map,
    List.getD_eq_getElem?_getD, List.getElem?_eq_getElem h]
  rfl

theorem cells_set (d : List ℚ) {i : Nat} (v : ℚ) (h : i < d.length) :
    (d.map some ++ List.replicate 3 (none : Option ℚ)).set i (some v) =
      (d.set i v).map some ++ List.replicate 3 none := by
  rw [List.set_append_left _ _ (by simpa using h), List.map_set]

theorem load_of_holds {t : avLUTf} {d : List ℚ} (ht : t.Holds d) {i : Nat}
    (h : i < d.length) : t.load (i : Int) = .ok (d.getD i 0) := by
  have h0 : ¬ ((i : Int) < 0) := by omega
  simp only [avLUTf.load, ht.1, if_neg h0, Int.toNat_ofNat, cells_getElem? d h]

theorem load_int_of_holds {t : avLUTf} {d : List ℚ} (ht : t.Holds d) {z : Int}
    (h0 : 0 ≤ z) (h : z.toNat < d.length) : t.load z = .ok (d.getD z.toNat 0) := by
  have := load_of_holds ht h
  rwa [Int.toNat_of_nonneg h0] at this

theorem store_of_holds {t : avLUTf} {d : List ℚ} (ht : t.Holds d) {i : Nat} (v : ℚ)
    (h : i < d.length) :
    ∃ t1, t.store (i : Int) v = .ok t1 ∧ t1.Holds (d.set i v) := by
  have h0 : ¬ ((i : Int) < 0) := by omega
  have hl : i < (d.map some ++ List.replicate 3 (none : Option ℚ)).length := by
    simp; omega
  refine ⟨{ t with data := some ((d.set i v).map some ++ List.replicate 3 none) }, ?_, ?_⟩
  · simp only [avLUTf.store, ht.1, if_neg h0, Int.toNat_ofNat, if_pos hl, cells_set d v h]
  · obtain ⟨-, h2, h3, h4, h5⟩ := ht
    refine ⟨rfl, ?_, ?_, ?_, ?_⟩ <;> simp only [List.length_set] <;> assumption

theorem ofVector_holds (d : List ℚ) (h1 : 1 ≤ d.length) (h2 : d.length < 2147483648) :
    (avLUTf.ofVector d).Holds d := by
  have e1 : toUInt32 (d.length : Int) = d.length := toUInt32_natCast (by omega)
  have e2 : toInt32 ((d.length : Int) - 2) = (d.length : Int) - 2 :=
    toInt32_of_range (by omega) (by omega)
  have e3 : toUInt32 ((d.length : Int) - 1) = d.length - 1 := by
    unfold toUInt32; omega
  refine ⟨rfl, e1, ?_, e2, ?_⟩
  · show toUInt32 ((toUInt32 (d.length : Int) : Int) - 1) = d.length - 1
    rw [e1, e3]
  · show ((toInt32 ((d.length : Int) - 2) : Int) : ℚ) = (d.length : ℚ) - 2
    rw [e2]; push_cast; ring

theorem allocate_holds (t : avLUTf) {s : Nat} (h1 : 1 ≤ s) (h2 : s < 2147483648) :
    ∃ t1, t.allocate (s : Int) = .ok t1 ∧ t1.Holds (List.replicate s 0) := by
  have e1 : toUInt32 (s : Int) = s := toUInt32_natCast (by omega)
  have e2 : toInt32 ((s : Int) - 2) = (s : Int) - 2 := toInt32_of_range (by omega) (by omega)
  have e3 : toUInt32 ((s : Int) - 1) = s - 1 := by unfold toUInt32; omega
  have e4 : ((s : Int) + 3).toNat = s + 3 := by omega
  have hcells : List.replicate s (some (0 : ℚ)) ++ (List.replicate (s + 3) (none : Option ℚ)).drop s
      = (List.replicate s (0 : ℚ)).map some ++ List.replicate 3 none := by
    simp
  refine ⟨⟨(s : Int) - 2, (((s : Int) - 2 : Int) : ℚ),
    some ((List.replicate s (0 : ℚ)).map some ++ List.replicate 3 none), s, s - 1⟩, ?_, ?_⟩
  · simp only [avLUTf.allocate, if_neg (show ¬ ((s : Int) + 3 < 0) by omega), avLUTf.clear, e1,
      e2, e3, e4, List.length_replicate, if_pos (show s ≠ 0 by omega),
      if_pos (show s ≤ s + 3 by omega), hcells]
  · refine ⟨rfl, ?_, ?_, ?_, ?_⟩
    · simp
    · simp
    · simp
    · simp only [List.length_replicate]; push_cast; ring

theorem atFloat_below {t : avLUTf} {d : List ℚ} (ht : t.Holds d) (h1 : 1 ≤ d.length)
    {f : ℚ} (hf : f < 0) : t.atFloat f = .ok (d.getD 0 0) := by
  simp only [avLUTf.atFloat, if_pos hf]
  exact load_int_of_holds ht (le_refl 0) (by simpa using h1)

theorem atFloat_above {t : avLUTf} {d : List ℚ} (ht : t.Holds d) (h1 : 1 ≤ d.length)
    {f : ℚ} (h0 : ¬ f < 0) (hf : (d.length : ℚ) - 2 < f) :
    t.atFloat f = .ok (d.getD (d.length - 1) 0) := by
  simp only [avLUTf.atFloat, if_neg h0, ht.2.2.2.2, gt_iff_lt, if_pos hf, ht.2.2.1]
  exact load_of_holds ht (by omega)

theorem floor_index {n : Nat} {f : ℚ} (h0 : 0 ≤ f) (hf : f ≤ (n : ℚ) - 2) :
    0 ≤ ⌊f⌋ ∧ ⌊f⌋.toNat + 1 < n ∧ ((⌊f⌋.toNat : ℕ) : ℚ) = (⌊f⌋ : ℚ) := by
  have hfl0 : 0 ≤ ⌊f⌋ := Int.floor_nonneg.mpr h0
  have hfl1 : (⌊f⌋ : ℚ) ≤ (n : ℚ) - 2 := le_trans (Int.floor_le f) hf
  have hfl2 : ⌊f⌋ ≤ (n : Int) - 2 := by
    have : ((⌊f⌋ : Int) : ℚ) ≤ (((n : Int) - 2 : Int) : ℚ) := by push_cast; exact hfl1
    exact_mod_cast this
  refine ⟨hfl0, by omega, ?_⟩
  have : ((⌊f⌋.toNat : ℕ) : Int) = ⌊f⌋ := Int.toNat_of_nonneg hfl0
  exact_mod_cast congrArg (fun z : Int => (z : ℚ)) this

theorem atFloat_inside {t : avLUTf} {d : List ℚ} (ht : t.Holds d) {f : ℚ} (h0 : 0 ≤ f)
    (hf : f ≤ (d.length : ℚ) - 2) :
    t.atFloat f = .ok (d.getD ⌊f⌋.toNat 0 +
      (d.getD (⌊f⌋.toNat + 1) 0 - d.getD ⌊f⌋.toNat 0) * (f - (⌊f⌋ : ℚ))) := by
  obtain ⟨hfl0, hfl1, -⟩ := floor_index h0 hf
  have e : (⌊f⌋ + 1).toNat = ⌊f⌋.toNat + 1 := by omega
  simp only [avLUTf.atFloat, if_neg (not_lt.mpr h0), ht.2.2.2.2, gt_iff_lt,
    if_neg (not_lt.mpr hf), floatToInt, if_pos h0, bind, Except.bind,
    load_int_of_holds ht hfl0 (show ⌊f⌋.toNat < d.length by omega),
    load_int_of_holds ht (show 0 ≤ ⌊f⌋ + 1 by omega)
      (show (⌊f⌋ + 1).toNat < d.length by omega), e, pure, Except.pure]

/-- Every fractional lookup in a table of logical size at least 1 returns a value. -/
theorem atFloat_value {t : avLUTf} {d : List ℚ} (ht : t.Holds d) (h1 : 1 ≤ d.length)
    (f : ℚ) : t.atFloat f = .ok (t.value f) := by
  have key : ∃ v, t.atFloat f = .ok v := by
    by_cases h0 : f < 0
    · exact ⟨_, atFloat_below ht h1 h0⟩
    · by_cases hf : (d.length : ℚ) - 2 < f
      · exact ⟨_, atFloat_above ht h1 h0 hf⟩
      · exact ⟨_, atFloat_inside ht (not_lt.mp h0) (not_lt.mp hf)⟩
  obtain ⟨v, hv⟩ := key
  simp only [avLUTf.value, hv]

theorem slot_of_holds {t : avLUTf} {d : List ℚ} (ht : t.Holds d) (h1 : 1 ≤ d.length)
    {i : Int} (hlo : -2147483648 ≤ i) (hhi : i < 2147483648) :
    t.slot i = (min (max i 0) ((d.length : Int) - 1)).toNat := by
  unfold avLUTf.slot toUInt32
  rw [ht.2.2.1]
  split_ifs <;> omega

theorem ofVector_example_holds : (avLUTf.ofVector [0, 10, 20]).Holds [0, 10, 20] :=
  ofVector_holds [0, 10, 20] (by decide) (by decide)

/-- C13: for every table of logical size `S ≥ 1` and every `int` index `i` (negative,
in range or too large), the integer lookup designates the cell
`data[min(max(i, 0), S-1)]` and no other: it reads that cell, and an assignment
through it changes that cell only. -/
theorem c13_integer_lookup (t : avLUTf) (d : List ℚ) (i : Int) (ht : t.Holds d)
    (h1 : 1 ≤ d.length) (hlo : -2147483648 ≤ i) (hhi : i < 2147483648) :
    (t.slot i : Int) = min (max i 0) ((d.length : Int) - 1) ∧
    t.atInt i = .ok (d.getD (min (max i 0) ((d.length : Int) - 1)).toNat 0) ∧
    ∀ v, ∃ t1, t.setInt i v = .ok t1 ∧
      t1.Holds (d.set (min (max i 0) ((d.length : Int) - 1)).toNat v) := by
  have hs := slot_of_holds ht h1 hlo hhi
  have hlt : (min (max i 0) ((d.length : Int) - 1)).toNat < d.length := by omega
  refine ⟨by rw [hs]; omega, ?_, fun v => ?_⟩
  · rw [avLUTf.atInt, hs]
    exact load_of_holds ht hlt
  · rw [avLUTf.setInt, hs]
    exact store_of_holds ht v hlt

/-- Witness for C13: the table `[0, 10, 20]` at index `7`. -/
theorem c13_integer_lookup_witness :
    (avLUTf.ofVector [0, 10, 20]).atInt 7 = .ok 20 :=
  (c13_integer_lookup (avLUTf.ofVector [0, 10, 20]) [0, 10, 20] 7
    (ofVector_holds [0, 10, 20] (by decide) (by decide)) (by decide) (by decide)
    (by decide)).2.1

/-! ## The interpolating branch as a function of the index -/

theorem interpAt_eq {d : List ℚ} {f : ℚ} {k : Nat} (hk : ⌊f⌋.toNat = k)
    (hc : ((k : ℕ) : ℚ) = (⌊f⌋ : ℚ)) :
    interpAt d f = d.getD k 0 + (d.getD (k + 1) 0 - d.getD k 0) * (f - (k : ℚ)) := by
  unfold interpAt
  rw [hk, hc]

theorem interpAt_zero (d : List ℚ) : interpAt d 0 = d.getD 0 0 := by
  simp [interpAt]

theorem value_above {t : avLUTf} {d : List ℚ} (ht : t.Holds d) (h1 : 1 ≤ d.length) {f : ℚ}
    (h0 : 0 ≤ f) (hf : (d.length : ℚ) - 2 < f) : t.value f = d.getD (d.length - 1) 0 := by
  simp only [avLUTf.value, atFloat_above ht h1 (not_lt.mpr h0) hf]

theorem value_inside {t : avLUTf} {d : List ℚ} (ht : t.Holds d) {f : ℚ} (h0 : 0 ≤ f)
    (hf : f ≤ (d.length : ℚ) - 2) : t.value f = interpAt d f := by
  simp only [avLUTf.value, atFloat_inside ht h0 hf, interpAt]

theorem setInt_of_holds {t : avLUTf} {d : List ℚ} (ht : t.Holds d) {i : Nat} (v : ℚ)
    (hi : i < d.length) (hS : d.length < 2147483648) :
    ∃ t1, t.setInt (i : Int) v = .ok t1 ∧ t1.Holds (d.set i v) := by
  have hs := slot_of_holds ht (by omega) (show -2147483648 ≤ (i : Int) by omega)
    (show (i : Int) < 2147483648 by omega)
  have e : (min (max (i : Int) 0) ((d.length : Int) - 1)).toNat = i := by omega
  rw [avLUTf.setInt, hs, e]
  exact store_of_holds ht v hi

theorem atInt_of_holds {t : avLUTf} {d : List ℚ} (ht : t.Holds d) {i : Nat}
    (hi : i < d.length) (hS : d.length < 2147483648) :
    t.atInt (i : Int) = .ok (d.getD i 0) := by
  have hs := slot_of_holds ht (by omega) (show -2147483648 ≤ (i : Int) by omega)
    (show (i : Int) < 2147483648 by omega)
  have e : (min (max (i : Int) 0) ((d.length : Int) - 1)).toNat = i := by omega
  rw [avLUTf.atInt, hs, e]
  exact load_of_holds ht hi

theorem fillLoop_spec (pCurve : Curve) : ∀ (n i : Nat) (t : avLUTf) (d : List ℚ),
    t.Holds d → i + n ≤ d.length → d.length < 2147483648 →
    (∀ j : Nat, i ≤ j → j < i + n → ∃ v, pCurve.getVal ((j : ℚ) / 65535) = .ok v) →
    ∃ t1 d1, fillLoop pCurve n (i : Int) t = .ok t1 ∧ t1.Holds d1 ∧ d1.length = d.length ∧
      (∀ j, j < i ∨ i + n ≤ j → d1.getD j 0 = d.getD j 0) ∧
      (∀ j : Nat, i ≤ j → j < i + n → ∀ v, pCurve.getVal ((j : ℚ) / 65535) = .ok v →
        d1.getD j 0 = v * 65535) := by
  intro n
  induction n with
  | zero =>
    intro i t d ht _ _ _
    exact ⟨t, d, rfl, ht, rfl, fun j _ => rfl, fun j h1 h2 => by omega⟩
  | succ n ih =>
    intro i t d ht hlen hS hv
    obtain ⟨v, hvi⟩ := hv i (le_refl i) (by omega)
    obtain ⟨t1, hset, hholds⟩ := setInt_of_holds ht (v * 65535) (show i < d.length by omega) hS
    obtain ⟨t2, d2, hrun, hh2, hl2, hout, hin⟩ :=
      ih (i + 1) t1 (d.set i (v * 65535)) hholds (by rw [List.length_set]; omega)
        (by rw [List.length_set]; exact hS) (fun j h1 h2 => hv j (by omega) (by omega))
    refine ⟨t2, d2, ?_, hh2, by rw [hl2, List.length_set], ?_, ?_⟩
    · simp only [fillLoop, bind, Except.bind, Int.cast_natCast, hvi, hset]
      have e : ((i : ℕ) : Int) + 1 = ((i + 1 : ℕ) : Int) := by push_cast; rfl
      rw [e]
      exact hrun
    · intro j hj
      rw [hout j (by omega), getD_set_ne _ (by omega)]
    · intro j h1 h2 w hw
      by_cases hji : j = i
      · subst hji
        rw [hvi] at hw
        cases hw
        rw [hout j (by omega), getD_set_self _ (by omega)]
      · exact hin j (by omega) (by omega) w hw

theorem allocate_tone (t : avLUTf) :
    ∃ t1, t.allocate 65536 = .ok t1 ∧ t1.Holds (List.replicate 65536 0) := by
  have h := allocate_holds t (s := 65536) (by norm_num) (by norm_num)
  rw [Nat.cast_ofNat] at h
  exact h

theorem Set_eq (tc : ToneCurve) (pCurve : Curve) (gamma : ℚ) :
    tc.Set pCurve gamma =
      (tc.lutToneCurve.allocate 65536).bind fun lut =>
        if gamma ≤ 0 ∨ gamma = 1 then
          (fillLoop pCurve 65536 0 lut).bind fun lut => .ok { lutToneCurve := lut }
        else .ok { lutToneCurve := lut } := rfl

theorem Set_unbuilt (tc : ToneCurve) (pCurve : Curve) (gamma : ℚ)
    (hg : ¬ (gamma ≤ 0 ∨ gamma = 1)) :
    ∃ t1, tc.lutToneCurve.allocate 65536 = .ok t1 ∧ t1.Holds (List.replicate 65536 0) ∧
      tc.Set pCurve gamma = .ok { lutToneCurve := t1 } := by
  obtain ⟨t1, h1, h2⟩ := allocate_tone tc.lutToneCurve
  refine ⟨t1, h1, h2, ?_⟩
  rw [Set_eq, h1]
  show (if gamma ≤ 0 ∨ gamma = 1 then _ else _) = _
  rw [if_neg hg]

theorem Set_built (tc : ToneCurve) (pCurve : Curve) (gamma : ℚ)
    (hg : gamma ≤ 0 ∨ gamma = 1)
    (hv : ∀ i : Nat, i < 65536 → ∃ v, pCurve.getVal ((i : ℚ) / 65535) = .ok v) :
    ∃ t1 d, tc.Set pCurve gamma = .ok { lutToneCurve := t1 } ∧ t1.Holds d ∧
      d.length = 65536 ∧
      ∀ i : Nat, i < 65536 → ∀ v, pCurve.getVal ((i : ℚ) / 65535) = .ok v →
        d.getD i 0 = v * 65535 := by
  obtain ⟨t0, h1, h2⟩ := allocate_tone tc.lutToneCurve
  have hlen : (List.replicate 65536 (0 : ℚ)).length = 65536 := List.length_replicate _ _
  obtain ⟨t1, d1, hrun, hh, hl, -, hin⟩ :=
    fillLoop_spec pCurve 65536 0 t0 (List.replicate 65536 0) h2
      (by rw [hlen]) (by rw [hlen]; norm_num)
      (fun j _ hj => hv j (by omega))
  refine ⟨t1, d1, ?_, hh, hl.trans hlen, fun i hi v hvi =>
    hin i (Nat.zero_le i) (by omega) v hvi⟩
  rw [Nat.cast_zero] at hrun
  rw [Set_eq, h1]
  show (if gamma ≤ 0 ∨ gamma = 1 then _ else _) = _
  rw [if_pos hg, hrun]
  rfl

theorem toCurve_getVal_empty {c : DiagonalCurve} (hk : c.kind = DCT_Empty) (t : ℚ) :
    c.toCurve.getVal t = .ok t :=
  getVal_of_empty hk t

/-- C15: for every `gamma` with `gamma > 0` and `gamma ≠ 1`, every curve and every state
of the table before the call, `ToneCurve::Set` returns without sampling the curve (the
result is the same for a curve whose `getVal` never returns a value, and for a table
never built before) and every one of the 65536 entries reads 0. -/
theorem c15_other_gamma_zero_table (tc : ToneCurve) (pCurve : Curve) (gamma : ℚ)
    (h0 : 0 < gamma) (h1 : gamma ≠ 1) :
    ∃ tc1, tc.Set pCurve gamma = .ok tc1 ∧
      tc1.lutToneCurve.Holds (List.replicate 65536 0) ∧
      (∀ i : Nat, i < 65536 → tc1.lutToneCurve.atInt (i : Int) = .ok 0) ∧
      ToneCurve.fresh.Set { getVal := fun _ => .error Fault.divByZero } gamma = .ok tc1 := by
  have hg : ¬ (gamma ≤ 0 ∨ gamma = 1) := by
    rintro (h | h)
    · exact absurd h0 (not_lt.mpr h)
    · exact h1 h
  obtain ⟨t1, ha, hh, hset⟩ := Set_unbuilt tc pCurve gamma hg
  obtain ⟨t2, hb, -, hset2⟩ :=
    Set_unbuilt ToneCurve.fresh { getVal := fun _ => .error Fault.divByZero } gamma hg
  have hlen : (List.replicate 65536 (0 : ℚ)).length = 65536 := List.length_replicate _ _
  have e : t2 = t1 := by
    have h3 : tc.lutToneCurve.allocate 65536 = ToneCurve.fresh.lutToneCurve.allocate 65536 :=
      rfl
    rw [ha, hb] at h3
    cases h3
    rfl
  refine ⟨_, hset, hh, fun i hi => ?_, by rw [hset2, e]⟩
  show t1.atInt (i : Int) = _
  rw [atInt_of_holds hh (by rw [hlen]; exact hi) (by rw [hlen]; norm_num)]
  have : (List.replicate 65536 (0 : ℚ)).getD i 0 = 0 := by
    rw [List.getD_eq_getElem?_getD, List.getElem?_replicate]
    rw [if_pos hi]; rfl
  rw [this]

/-- Witness for C15: `gamma = 2` with the identity curve. -/
theorem c15_other_gamma_zero_table_witness :
    ∃ tc1, ToneCurve.fresh.Set identityCurve.toCurve 2 = .ok tc1 ∧
      tc1.lutToneCurve.Holds (List.replicate 65536 0) ∧
      (∀ i : Nat, i < 65536 → tc1.lutToneCurve.atInt (i : Int) = .ok 0) ∧
      ToneCurve.fresh.Set { getVal := fun _ => .error Fault.divByZero } 2 = .ok tc1 :=
  c15_other_gamma_zero_table ToneCurve.fresh identityCurve.toCurve 2 (by norm_num)
    (by norm_num)

theorem Set_identity (tc : ToneCurve) (c : DiagonalCurve) (hk : c.kind = DCT_Empty) :
    ∃ t1 d, tc.Set c.toCurve 0 = .ok { lutToneCurve := t1 } ∧ t1.Holds d ∧
      d.length = 65536 ∧ ∀ i : Nat, i < 65536 → d.getD i 0 = (i : ℚ) := by
  obtain ⟨t1, d, hset, hh, hl, hd⟩ := Set_built tc c.toCurve 0 (Or.inl (le_refl 0))
    (fun i _ => ⟨_, toCurve_getVal_empty hk _⟩)
  refine ⟨t1, d, hset, hh, hl, fun i hi => ?_⟩
  rw [hd i hi _ (toCurve_getVal_empty hk _)]
  field_simp

/-- C16: for every identity curve (effective kind Identity/Empty) and `gamma = 0`,
`ToneCurve::Set` produces the table whose entry `i` equals `i` for every `i` in
`0..65535`, exactly in rational arithmetic. -/
theorem c16_identity_table (tc : ToneCurve) (c : DiagonalCurve) (hk : c.kind = DCT_Empty) :
    ∃ tc1 d, tc.Set c.toCurve 0 = .ok tc1 ∧ tc1.lutToneCurve.Holds d ∧ d.length = 65536 ∧
      ∀ i : Nat, i < 65536 →
        d.getD i 0 = (i : ℚ) ∧ tc1.lutToneCurve.atInt (i : Int) = .ok (i : ℚ) := by
  obtain ⟨t1, d, hset, hh, hl, hd⟩ := Set_identity tc c hk
  refine ⟨_, d, hset, hh, hl, fun i hi => ⟨hd i hi, ?_⟩⟩
  show t1.atInt (i : Int) = _
  rw [atInt_of_holds hh (by omega) (by omega), hd i hi]

/-- Witness for C16: the curve constructed from the empty sequence. -/
theorem c16_identity_table_witness :
    ∃ tc1 d, ToneCurve.fresh.Set identityCurve.toCurve 0 = .ok tc1 ∧
      tc1.lutToneCurve.Holds d ∧ d.length = 65536 ∧
      ∀ i : Nat, i < 65536 →
        d.getD i 0 = (i : ℚ) ∧ tc1.lutToneCurve.atInt (i : Int) = .ok (i : ℚ) :=
  c16_identity_table ToneCurve.fresh identityCurve rfl

/-! ## The hue-preserving application of the tone table -/

theorem RGBTone_spec {tc : AdobeToneCurve} {d : List ℚ} (ht : tc.lutToneCurve.Holds d)
    (h1 : 1 ≤ d.length) {mx mn : ℚ} (md : ℚ) (hne : mn < mx) :
    tc.RGBTone mx md mn =
      .ok (tc.lutToneCurve.value mx,
        tc.lutToneCurve.value mn +
          (tc.lutToneCurve.value mx - tc.lutToneCurve.value mn) * (md - mn) / (mx - mn),
        tc.lutToneCurve.value mn) := by
  have hd : mx - mn ≠ 0 := ne_of_gt (sub_pos.mpr hne)
  simp only [AdobeToneCurve.RGBTone, bind, Except.bind, atFloat_value ht h1,
    fun a => fdiv_ok (a := a) hd, pure, Except.pure]

theorem ref_at_hi (V : ℚ → ℚ) {X Y : ℚ} (h : Y < X) :
    V Y + (V X - V Y) * (X - Y) / (X - Y) = V X := by
  have hd : X - Y ≠ 0 := ne_of_gt (sub_pos.mpr h)
  rw [mul_div_assoc, div_self hd]; ring

theorem ref_at_lo (V : ℚ → ℚ) (X Y : ℚ) :
    V Y + (V X - V Y) * (Y - Y) / (X - Y) = V Y := by
  rw [sub_self, mul_zero, zero_div, add_zero]

/-- The decision tree computes the sort-based reference on the clamped channels. -/
theorem toneTree_spec {tc : AdobeToneCurve} {d : List ℚ} (ht : tc.lutToneCurve.Holds d)
    (h1 : 1 ≤ d.length) (r g b : ℚ) :
    tc.toneTree r g b =
      .ok (if min r (min g b) < max r (max g b) then
          (tc.lutToneCurve.value (min r (min g b)) +
              (tc.lutToneCurve.value (max r (max g b)) -
                tc.lutToneCurve.value (min r (min g b))) * (r - min r (min g b)) /
                (max r (max g b) - min r (min g b)),
            tc.lutToneCurve.value (min r (min g b)) +
              (tc.lutToneCurve.value (max r (max g b)) -
                tc.lutToneCurve.value (min r (min g b))) * (g - min r (min g b)) /
                (max r (max g b) - min r (min g b)),
            tc.lutToneCurve.value (min r (min g b)) +
              (tc.lutToneCurve.value (max r (max g b)) -
                tc.lutToneCurve.value (min r (min g b))) * (b - min r (min g b)) /
                (max r (max g b) - min r (min g b)))
        else (tc.lutToneCurve.value (max r (max g b)),
          tc.lutToneCurve.value (max r (max g b)),
          tc.lutToneCurve.value (max r (max g b)))) := by
  have key : ∀ (X Y : ℚ), max r (max g b) = X → min r (min g b) = Y → Y < X →
      ∀ out : ℚ × ℚ × ℚ,
      out = (tc.lutToneCurve.value Y +
              (tc.lutToneCurve.value X - tc.lutToneCurve.value Y) * (r - Y) / (X - Y),
            tc.lutToneCurve.value Y +
              (tc.lutToneCurve.value X - tc.lutToneCurve.value Y) * (g - Y) / (X - Y),
            tc.lutToneCurve.value Y +
              (tc.lutToneCurve.value X - tc.lutToneCurve.value Y) * (b - Y) / (X - Y)) →
      Except.ok (ε := Fault) out = .ok (if min r (min g b) < max r (max g b) then
          (tc.lutToneCurve.value (min r (min g b)) +
              (tc.lutToneCurve.value (max r (max g b)) -
                tc.lutToneCurve.value (min r (min g b))) * (r - min r (min g b)) /
                (max r (max g b) - min r (min g b)),
            tc.lutToneCurve.value (min r (min g b)) +
              (tc.lutToneCurve.value (max r (max g b)) -
                tc.lutToneCurve.value (min r (min g b))) * (g - min r (min g b)) /
                (max r (max g b) - min r (min g b)),
            tc.lutToneCurve.value (min r (min g b)) +
              (tc.lutToneCurve.value (max r (max g b)) -
                tc.lutToneCurve.value (min r (min g b))) * (b - min r (min g b)) /
                (max r (max g b) - min r (min g b)))
        else (tc.lutToneCurve.value (max r (max g b)),
          tc.lutToneCurve.value (max r (max g b)),
          tc.lutToneCurve.value (max r (max g b)))) := by
    intro X Y hX hY hlt out hout
    rw [hX, hY, if_pos hlt, hout]
  by_cases h1g : r ≥ g
  · by_cases h2 : g > b
    · -- Case 1: r ≥ g > b
      have hlt : b < r := lt_of_lt_of_le h2 h1g
      simp only [AdobeToneCurve.toneTree, if_pos h1g, if_pos h2, RGBTone_spec ht h1 _ hlt, bind,
        Except.bind, pure, Except.pure]
      apply key r b (by rw [max_eq_left (le_of_lt h2), max_eq_left h1g])
        (by rw [min_eq_right (le_of_lt h2), min_eq_right (le_of_lt hlt)]) hlt
      rw [ref_at_hi _ hlt, ref_at_lo]
    · by_cases h3 : b > r
      · -- Case 2: b > r ≥ g
        have hlt : g < b := lt_of_le_of_lt h1g h3
        simp only [AdobeToneCurve.toneTree, if_pos h1g, if_neg h2, if_pos h3,
          RGBTone_spec ht h1 _ hlt, bind, Except.bind, pure, Except.pure]
        apply key b g (by rw [max_eq_right (le_of_lt hlt), max_eq_right (le_of_lt h3)])
          (by rw [min_eq_left (le_of_lt hlt), min_eq_right h1g]) hlt
        rw [ref_at_hi _ hlt, ref_at_lo]
      · by_cases h4 : b > g
        · -- Case 3: r ≥ b > g
          have hbr : b ≤ r := not_lt.mp h3
          have hlt : g < r := lt_of_lt_of_le h4 hbr
          simp only [AdobeToneCurve.toneTree, if_pos h1g, if_neg h2, if_neg h3, if_pos h4,
            RGBTone_spec ht h1 _ hlt, bind, Except.bind, pure, Except.pure]
          apply key r g (by rw [max_eq_right (le_of_lt h4), max_eq_left hbr])
            (by rw [min_eq_left (le_of_lt h4), min_eq_right h1g]) hlt
          rw [ref_at_hi _ hlt, ref_at_lo]
        · -- Case 4: r ≥ g = b
          have hgb : g = b := le_antisymm (not_lt.mp h2) (not_lt.mp h4)
          subst hgb
          simp only [AdobeToneCurve.toneTree, if_pos h1g, if_neg h2, if_neg h3, bind,
            Except.bind, atFloat_value ht h1, pure, Except.pure, max_self, min_self]
          rcases lt_or_eq_of_le h1g with hlt | heq
          · rw [max_eq_left h1g, min_eq_right h1g, if_pos hlt, ref_at_hi _ hlt, ref_at_lo]
          · subst heq
            rw [max_self, min_self, if_neg (lt_irrefl _)]
  · have hrg : r < g := not_le.mp h1g
    by_cases h5 : r ≥ b
    · -- Case 5: g > r ≥ b
      have hlt : b < g := lt_of_le_of_lt h5 hrg
      simp only [AdobeToneCurve.toneTree, if_neg h1g, if_pos h5, RGBTone_spec ht h1 _ hlt, bind,
        Except.bind, pure, Except.pure]
      apply key g b (by rw [max_eq_left (le_of_lt hlt), max_eq_right (le_of_lt hrg)])
        (by rw [min_eq_right (le_of_lt hlt), min_eq_right h5]) hlt
      rw [ref_at_hi _ hlt, ref_at_lo]
    · have hrb : r < b := not_le.mp h5
      by_cases h6 : b > g
      · -- Case 6: b > g > r
        simp only [AdobeToneCurve.toneTree, if_neg h1g, if_neg h5, if_pos h6,
          RGBTone_spec ht h1 _ hrb, bind, Except.bind, pure, Except.pure]
        apply key b r (by rw [max_eq_right (le_of_lt h6), max_eq_right (le_of_lt hrb)])
          (by rw [min_eq_left (le_of_lt h6), min_eq_left (le_of_lt hrg)]) hrb
        rw [ref_at_hi _ hrb, ref_at_lo]
      · -- Case 7: g ≥ b > r
        have hbg : b ≤ g := not_lt.mp h6
        simp only [AdobeToneCurve.toneTree, if_neg h1g, if_neg h5, if_neg h6,
          RGBTone_spec ht h1 _ hrg, bind, Except.bind, pure, Except.pure]
        apply key g r (by rw [max_eq_left hbg, max_eq_right (le_of_lt hrg)])
          (by rw [min_eq_right hbg, min_eq_left (le_of_lt hrb)]) hrg
        rw [ref_at_hi _ hrg, ref_at_lo]

theorem inGamut_iff (v : ℚ) : inGamut v ↔ 0 ≤ v ∧ v ≤ 65535 := by
  unfold inGamut
  rw [not_or, not_lt, not_lt]

theorem clampChannel_of_inGamut {v : ℚ} (h : inGamut v) : clampChannel v = v := by
  obtain ⟨h0, h1⟩ := (inGamut_iff v).mp h
  unfold clampChannel
  rw [min_eq_right h1, max_eq_right h0]

theorem clampChannel_bounds (v : ℚ) : 0 ≤ clampChannel v ∧ clampChannel v ≤ 65535 := by
  unfold clampChannel
  exact ⟨le_max_left _ _, max_le (by norm_num) (min_le_left _ _)⟩

theorem Apply_eq (tc : AdobeToneCurve) (ir ig ib : ℚ) :
    tc.Apply ir ig ib =
      (tc.toneTree (clampChannel ir) (clampChannel ig) (clampChannel ib)).bind fun out =>
        if inGamut ir ∨ inGamut ig ∨ inGamut ib then .ok out else .ok (ir, ig, ib) := rfl

theorem applyReference_eq (V : ℚ → ℚ) (ir ig ib : ℚ) :
    applyReference V ir ig ib =
      if min (clampChannel ir) (min (clampChannel ig) (clampChannel ib)) <
          max (clampChannel ir) (max (clampChannel ig) (clampChannel ib)) then
        (V (min (clampChannel ir) (min (clampChannel ig) (clampChannel ib))) +
            (V (max (clampChannel ir) (max (clampChannel ig) (clampChannel ib))) -
              V (min (clampChannel ir) (min (clampChannel ig) (clampChannel ib)))) *
              (clampChannel ir - min (clampChannel ir) (min (clampChannel ig) (clampChannel ib)))
              / (max (clampChannel ir) (max (clampChannel ig) (clampChannel ib)) -
                min (clampChannel ir) (min (clampChannel ig) (clampChannel ib))),
          V (min (clampChannel ir) (min (clampChannel ig) (clampChannel ib))) +
            (V (max (clampChannel ir) (max (clampChannel ig) (clampChannel ib))) -
              V (min (clampChannel ir) (min (clampChannel ig) (clampChannel ib)))) *
              (clampChannel ig - min (clampChannel ir) (min (clampChannel ig) (clampChannel ib)))
              / (max (clampChannel ir) (max (clampChannel ig) (clampChannel ib)) -
                min (clampChannel ir) (min (clampChannel ig) (clampChannel ib))),
          V (min (clampChannel ir) (min (clampChannel ig) (clampChannel ib))) +
            (V (max (clampChannel ir) (max (clampChannel ig) (clampChannel ib))) -
              V (min (clampChannel ir) (min (clampChannel ig) (clampChannel ib)))) *
              (clampChannel ib - min (clampChannel ir) (min (clampChannel ig) (clampChannel ib)))
              / (max (clampChannel ir) (max (clampChannel ig) (clampChannel ib)) -
                min (clampChannel ir) (min (clampChannel ig) (clampChannel ib))))
      else (V (max (clampChannel ir) (max (clampChannel ig) (clampChannel ib))),
        V (max (clampChannel ir) (max (clampChannel ig) (clampChannel ib))),
        V (max (clampChannel ir) (max (clampChannel ig) (clampChannel ib)))) := rfl

/-- When at least one input channel is within `[0, 65535]`, `Apply` returns the
sort-based reference. -/
theorem Apply_committed {tc : AdobeToneCurve} {d : List ℚ} (ht : tc.lutToneCurve.Holds d)
    (h1 : 1 ≤ d.length) (ir ig ib : ℚ) (hc : inGamut ir ∨ inGamut ig ∨ inGamut ib) :
    tc.Apply ir ig ib = .ok (applyReference tc.lutToneCurve.value ir ig ib) := by
  rw [Apply_eq, toneTree_spec ht h1, applyReference_eq]
  show (if inGamut ir ∨ inGamut ig ∨ inGamut ib then _ else _) = _
  rw [if_pos hc]

/-- When the three input channels are all outside `[0, 65535]`, `Apply` leaves them as
they are. -/
theorem Apply_uncommitted {tc : AdobeToneCurve} {d : List ℚ} (ht : tc.lutToneCurve.Holds d)
    (h1 : 1 ≤ d.length) (ir ig ib : ℚ) (hc : ¬ (inGamut ir ∨ inGamut ig ∨ inGamut ib)) :
    tc.Apply ir ig ib = .ok (ir, ig, ib) := by
  rw [Apply_eq, toneTree_spec ht h1]
  show (if inGamut ir ∨ inGamut ig ∨ inGamut ib then _ else _) = _
  rw [if_neg hc]

theorem applyReference_channels (V : ℚ → ℚ) (ir ig ib : ℚ) :
    applyReference V ir ig ib =
      (refChannel V (max (clampChannel ir) (max (clampChannel ig) (clampChannel ib)))
          (min (clampChannel ir) (min (clampChannel ig) (clampChannel ib))) (clampChannel ir),
        refChannel V (max (clampChannel ir) (max (clampChannel ig) (clampChannel ib)))
          (min (clampChannel ir) (min (clampChannel ig) (clampChannel ib))) (clampChannel ig),
        refChannel V (max (clampChannel ir) (max (clampChannel ig) (clampChannel ib)))
          (min (clampChannel ir) (min (clampChannel ig) (clampChannel ib)))
          (clampChannel ib)) := by
  rw [applyReference_eq]
  unfold refChannel
  split_ifs <;> rfl

theorem refChannel_hi (V : ℚ → ℚ) (hi lo : ℚ) : refChannel V hi lo hi = V hi := by
  unfold refChannel
  split_ifs with h
  · exact ref_at_hi V h
  · rfl

theorem refChannel_lo (V : ℚ → ℚ) {hi lo : ℚ} (h : lo ≤ hi) :
    refChannel V hi lo lo = V lo := by
  unfold refChannel
  split_ifs with h1
  · exact ref_at_lo V hi lo
  · rw [le_antisymm h (not_lt.mp h1)]

theorem refChannel_strict (V : ℚ → ℚ) {hi lo : ℚ} (hlt : lo < hi) (hV : V lo < V hi)
    {c1 c2 : ℚ} : refChannel V hi lo c1 < refChannel V hi lo c2 ↔ c1 < c2 := by
  unfold refChannel
  rw [if_pos hlt, if_pos hlt]
  have hd : 0 < hi - lo := sub_pos.mpr hlt
  have hv : 0 < V hi - V lo := sub_pos.mpr hV
  rw [add_lt_add_iff_left, div_lt_div_iff_of_pos_right hd, mul_lt_mul_left hv, sub_lt_sub_iff_right]

theorem refChannel_id {V : ℚ → ℚ} {hi lo c : ℚ} (hhi : V hi = hi) (hlo : V lo = lo)
    (h1 : lo ≤ c) (h2 : c ≤ hi) : refChannel V hi lo c = c := by
  unfold refChannel
  split_ifs with h
  · have hd : hi - lo ≠ 0 := ne_of_gt (sub_pos.mpr h)
    rw [hhi, hlo]
    field_simp
  · have : lo = hi := le_antisymm (le_trans h1 h2) (not_lt.mp h)
    rw [hhi]
    exact le_antisymm (this ▸ h1) h2

/-! ## The identity tone table -/

theorem value_identity_low {t : avLUTf} {d : List ℚ} (ht : t.Holds d)
    (hid : ∀ i : Nat, i < d.length → d.getD i 0 = (i : ℚ)) {f : ℚ} (h0 : 0 ≤ f)
    (hf : f ≤ (d.length : ℚ) - 2) : t.value f = f := by
  obtain ⟨-, hlt, hc⟩ := floor_index h0 hf
  rw [value_inside ht h0 hf, interpAt_eq rfl hc, hid _ (by omega), hid _ hlt]
  push_cast
  ring

theorem value_identity_high {t : avLUTf} {d : List ℚ} (ht : t.Holds d) (h1 : 1 ≤ d.length)
    (hid : ∀ i : Nat, i < d.length → d.getD i 0 = (i : ℚ)) {f : ℚ} (h0 : 0 ≤ f)
    (hf : (d.length : ℚ) - 2 < f) : t.value f = (d.length : ℚ) - 1 := by
  rw [value_above ht h1 h0 hf, hid _ (by omega), Nat.cast_sub h1]
  norm_num

/-- On the identity table of 65536 entries the lookup returns its index for every index
up to 65534 and for the index 65535. -/
theorem value_identity_fixed {t : avLUTf} {d : List ℚ} (ht : t.Holds d)
    (hl : d.length = 65536) (hid : ∀ i : Nat, i < 65536 → d.getD i 0 = (i : ℚ)) {f : ℚ}
    (h0 : 0 ≤ f) (hf : f ≤ 65534 ∨ f = 65535) : t.value f = f := by
  have hid1 : ∀ i : Nat, i < d.length → d.getD i 0 = (i : ℚ) := by rw [hl]; exact hid
  have hS : (d.length : ℚ) = 65536 := by rw [hl]; norm_num
  rcases hf with h | h
  · exact value_identity_low ht hid1 h0 (by rw [hS]; linarith)
  · rw [value_identity_high ht (by omega) hid1 h0 (by rw [hS, h]; norm_num), hS, h]
    norm_num

/-- On the identity table every index strictly between 65534 and 65535 reads 65535. -/
theorem value_identity_gap {t : avLUTf} {d : List ℚ} (ht : t.Holds d)
    (hl : d.length = 65536) (hid : ∀ i : Nat, i < 65536 → d.getD i 0 = (i : ℚ)) {f : ℚ}
    (hf : 65534 < f) : t.value f = 65535 := by
  have hid1 : ∀ i : Nat, i < d.length → d.getD i 0 = (i : ℚ) := by rw [hl]; exact hid
  have hS : (d.length : ℚ) = 65536 := by rw [hl]; norm_num
  rw [value_identity_high ht (by omega) hid1 (by linarith) (by rw [hS]; linarith), hS]
  norm_num

/-- The identity tone table: what `Set` builds from the identity curve with `gamma = 0`. -/
theorem identity_table_exists :
    ∃ t1 d, ToneCurve.fresh.Set identityCurve.toCurve 0 = .ok { lutToneCurve := t1 } ∧
      t1.Holds d ∧ d.length = 65536 ∧ ∀ i : Nat, i < 65536 → d.getD i 0 = (i : ℚ) :=
  Set_identity ToneCurve.fresh identityCurve rfl

theorem inGamut_of_bounds {v : ℚ} (h0 : 0 ≤ v) (h1 : v ≤ 65535) : inGamut v :=
  (inGamut_iff v).mpr ⟨h0, h1⟩

/-! ## Monotone tables -/

/-- With the identity table, in-range channels whose largest and smallest values avoid the
open interval `(65534, 65535)` are returned unchanged. -/
theorem Apply_identity_fixed {tc : AdobeToneCurve} {d : List ℚ} (ht : tc.lutToneCurve.Holds d)
    (hl : d.length = 65536) (hid : ∀ i : Nat, i < 65536 → d.getD i 0 = (i : ℚ))
    {ir ig ib : ℚ} (hr : inGamut ir) (hg : inGamut ig) (hb : inGamut ib)
    (hhi : max ir (max ig ib) ≤ 65534 ∨ max ir (max ig ib) = 65535)
    (hlo : min ir (min ig ib) ≤ 65534 ∨ min ir (min ig ib) = 65535) :
    tc.Apply ir ig ib = .ok (ir, ig, ib) := by
  rw [Apply_committed ht (by omega) _ _ _ (Or.inl hr), applyReference_channels,
    clampChannel_of_inGamut hr, clampChannel_of_inGamut hg, clampChannel_of_inGamut hb]
  have r0 := ((inGamut_iff ir).mp hr).1
  have g0 := ((inGamut_iff ig).mp hg).1
  have b0 := ((inGamut_iff ib).mp hb).1
  have e1 : ir ≤ max ir (max ig ib) := le_max_left _ _
  have e2 : ig ≤ max ir (max ig ib) := le_trans (le_max_left _ _) (le_max_right _ _)
  have e3 : ib ≤ max ir (max ig ib) := le_trans (le_max_right _ _) (le_max_right _ _)
  have e4 : min ir (min ig ib) ≤ ir := min_le_left _ _
  have e5 : min ir (min ig ib) ≤ ig := le_trans (min_le_right _ _) (min_le_left _ _)
  have e6 : min ir (min ig ib) ≤ ib := le_trans (min_le_right _ _) (min_le_right _ _)
  have vhi := value_identity_fixed ht hl hid (le_trans r0 e1) hhi
  have vlo := value_identity_fixed ht hl hid (le_min r0 (le_min g0 b0)) hlo
  rw [refChannel_id vhi vlo e4 e1, refChannel_id vhi vlo e5 e2, refChannel_id vhi vlo e6 e3]

/-- C27: with the identity tone table and the three input channels in `[0, 65534]`,
`Apply` returns the triple exactly unchanged, whichever of the seven ordering branches
is taken. -/
theorem c27_identity_below_last_cell (tc : AdobeToneCurve) (d : List ℚ) (ir ig ib : ℚ)
    (ht : tc.lutToneCurve.Holds d) (hl : d.length = 65536)
    (hid : ∀ i : Nat, i < 65536 → d.getD i 0 = (i : ℚ))
    (hr : 0 ≤ ir ∧ ir ≤ 65534) (hg : 0 ≤ ig ∧ ig ≤ 65534) (hb : 0 ≤ ib ∧ ib ≤ 65534) :
    tc.Apply ir ig ib = .ok (ir, ig, ib) ∧
      1 ≤ applyCase (clampChannel ir) (clampChannel ig) (clampChannel ib) ∧
      applyCase (clampChannel ir) (clampChannel ig) (clampChannel ib) ≤ 7 := by
  refine ⟨Apply_identity_fixed ht hl hid
    (inGamut_of_bounds hr.1 (by linarith)) (inGamut_of_bounds hg.1 (by linarith))
    (inGamut_of_bounds hb.1 (by linarith))
    (Or.inl (max_le hr.2 (max_le hg.2 hb.2)))
    (Or.inl (le_trans (min_le_left _ _) hr.2)), ?_⟩
  unfold applyCase
  split_ifs <;> decide

theorem c27_identity_below_last_cell_witness :
    ∃ tc1, ToneCurve.fresh.Set identityCurve.toCurve 0 = .ok tc1 ∧
      AdobeToneCurve.Apply { toToneCurve := tc1 } 100 (601 / 2) 65534
        = .ok (100, 601 / 2, 65534) := by
  obtain ⟨t1, d, hset, hh, hl, hid⟩ := identity_table_exists
  exact ⟨_, hset, (c27_identity_below_last_cell { lutToneCurve := t1 } d _ _ _ hh hl hid
    ⟨by norm_num, by norm_num⟩ ⟨by norm_num, by norm_num⟩ ⟨by norm_num, by norm_num⟩).1⟩

/-- C20 (as stated, refuted): with the table `[0, 10, 20]` the input `(-5, 70000, 80000)`,
whose three channels are all outside `[0, 65535]`, comes back as `(-5, 70000, 80000)`,
not as the clamped triple `(0, 65535, 65535)`. -/
theorem c20_outputs_not_clamped :
    AdobeToneCurve.Apply { lutToneCurve := avLUTf.ofVector [0, 10, 20] } (-5) 70000 80000
        = .ok (-5, 70000, 80000) ∧
      (clampChannel (-5), clampChannel 70000, clampChannel 80000) = (0, 65535, 65535) := by
  constructor
  · apply Apply_uncommitted (d := [0, 10, 20]) ofVector_example_holds (by decide)
    rw [inGamut_iff, inGamut_iff, inGamut_iff]
    norm_num
  · norm_num [clampChannel]

/-- C20 (amended): for every input triple whose three channels all lie outside
`[0, 65535]`, `Apply` does not commit the tone-mapped values and leaves each output equal
to the corresponding input as passed in, not clamped. -/
theorem c20_out_of_range_untouched (tc : AdobeToneCurve) (d : List ℚ) (ir ig ib : ℚ)
    (ht : tc.lutToneCurve.Holds d) (h1 : 1 ≤ d.length)
    (hr : ir < 0 ∨ ir > 65535) (hg : ig < 0 ∨ ig > 65535) (hb : ib < 0 ∨ ib > 65535) :
    tc.Apply ir ig ib = .ok (ir, ig, ib) := by
  apply Apply_uncommitted ht h1
  unfold inGamut
  tauto

theorem c20_out_of_range_untouched_witness :
    AdobeToneCurve.Apply { lutToneCurve := avLUTf.ofVector [0, 10, 20] } 70000 (-1) (-2)
      = .ok (70000, -1, -2) :=
  c20_out_of_range_untouched { lutToneCurve := avLUTf.ofVector [0, 10, 20] } [0, 10, 20]
    70000 (-1) (-2) ofVector_example_holds (by decide) (Or.inr (by norm_num))
    (Or.inl (by norm_num)) (Or.inl (by norm_num))

/-! ## The branches of the decision tree -/

/-- The decision tree, branch by branch: the call of `RGBTone` on the arguments given by
`rgbToneArgs`, or the two direct lookups of the branch that makes no call. -/
theorem toneTree_branch (tc : AdobeToneCurve) (r g b : ℚ) :
    tc.toneTree r g b =
      match rgbToneArgs r g b with
      | some a => (tc.RGBTone a.1 a.2.1 a.2.2).bind fun o =>
          .ok (placeChannels (applyCase r g b) o)
      | none => (tc.lutToneCurve.atFloat r).bind fun r1 =>
          (tc.lutToneCurve.atFloat g).bind fun g1 => .ok (r1, g1, g1) := by
  unfold AdobeToneCurve.toneTree rgbToneArgs applyCase
  split_ifs <;> rfl

theorem rgbToneArgs_none (r g b : ℚ) : rgbToneArgs r g b = none ↔ applyCase r g b = 4 := by
  unfold applyCase rgbToneArgs
  split_ifs <;> simp

/-- C24: for every triple of clamped channels, in each of the six branches of `Apply` that
call `RGBTone` the arguments satisfy `maxval ≥ medval ≥ minval` and `maxval > minval`, so
the divisor `maxvalold - minvalold` of the middle-channel reconstruction is not zero and
the division returns. -/
theorem c24_rgbtone_arguments_ordered (tc : AdobeToneCurve) (r g b mx md mn : ℚ)
    (h : rgbToneArgs r g b = some (mx, md, mn)) :
    mx ≥ md ∧ md ≥ mn ∧ mx > mn ∧ mx - mn ≠ 0 ∧
      (∀ n : ℚ, fdiv n (mx - mn) = .ok (n / (mx - mn))) ∧
      applyCase r g b ≠ 4 ∧
      tc.toneTree r g b = (tc.RGBTone mx md mn).bind fun o =>
        .ok (placeChannels (applyCase r g b) o) := by
  have hord : mx ≥ md ∧ md ≥ mn ∧ mx > mn := by
    unfold rgbToneArgs at h
    split_ifs at h with h1 h2 h3 h4 h5 h6 <;>
      simp only [Option.some.injEq, Prod.mk.injEq] at h <;>
      obtain ⟨rfl, rfl, rfl⟩ := h
    · exact ⟨h1, le_of_lt h2, lt_of_lt_of_le h2 h1⟩
    · exact ⟨le_of_lt h3, h1, lt_of_le_of_lt h1 h3⟩
    · exact ⟨not_lt.mp h3, le_of_lt h4, lt_of_lt_of_le h4 (not_lt.mp h3)⟩
    · exact ⟨le_of_lt (not_le.mp h1), h5, lt_of_le_of_lt h5 (not_le.mp h1)⟩
    · exact ⟨le_of_lt h6, le_of_lt (not_le.mp h1), lt_trans (not_le.mp h1) h6⟩
    · exact ⟨not_lt.mp h6, le_of_lt (not_le.mp h5), lt_of_lt_of_le (not_le.mp h5) (not_lt.mp h6)⟩
  have hne : mx - mn ≠ 0 := ne_of_gt (sub_pos.mpr hord.2.2)
  have h4 : applyCase r g b ≠ 4 := by
    intro hc
    rw [(rgbToneArgs_none r g b).mpr hc] at h
    cases h
  refine ⟨hord.1, hord.2.1, hord.2.2, hne, fun n => fdiv_ok hne, h4, ?_⟩
  rw [toneTree_branch, h]

theorem c24_rgbtone_arguments_ordered_witness :
    rgbToneArgs 1 1 2 = some (2, 1, 1) ∧ (2 : ℚ) ≥ 1 ∧ (1 : ℚ) ≥ 1 ∧ (2 : ℚ) > 1 := by
  have h : rgbToneArgs 1 1 2 = some (2, 1, 1) := by
    unfold rgbToneArgs
    norm_num
  have k := c24_rgbtone_arguments_ordered { lutToneCurve := avLUTf.ofVector [0, 10, 20] }
    1 1 2 2 1 1 h
  exact ⟨h, k.1, k.2.1, k.2.2.1⟩

/-! ## The cells read by the fractional lookup -/

/-- The fractional lookup reads exactly the cells listed by `cellsRead`. -/
theorem atFloat_cellsRead (t : avLUTf) (f : ℚ) :
    t.atFloat f =
      match t.cellsRead f with
      | [c] => t.load c
      | [c1, c2] => (t.load c1).bind fun p1 => (t.load c2).bind fun p2 =>
          .ok (p1 + (p2 - p1) * (f - ((floatToInt f : Int) : ℚ)))
      | _ => .error .noFuel := by
  unfold avLUTf.atFloat avLUTf.cellsRead
  split_ifs <;> rfl

theorem readPoints_head (k1 k2 : ℚ) (q : List ℚ) : ∀ (n i ix : Nat) (x y : List ℚ)
    (ident : Bool),
    readPoints (k1 :: q) n i (ix + 1) x y ident = readPoints (k2 :: q) n i (ix + 1) x y ident := by
  intro n
  induction n with
  | zero => intro i ix x y ident; rfl
  | succ n ih =>
    intro i ix x y ident
    have e1 : rd (k1 :: q) (ix + 1) = rd (k2 :: q) (ix + 1) := rfl
    have e2 : rd (k1 :: q) (ix + 1 + 1) = rd (k2 :: q) (ix + 1 + 1) := rfl
    simp only [readPoints, bind, Except.bind, e1, e2, ih]

/-- The last statement of the constructor, applied to the result of `loadPoints`. -/
theorem construct_load (p : List ℚ) (poly_pn : Int) (h : 3 ≤ p.length)
    (hk : toDiagonalCurveType (p.getD 0 0) = DCT_Linear ∨
      toDiagonalCurveType (p.getD 0 0) = DCT_Spline ∨
      toDiagonalCurveType (p.getD 0 0) = DCT_NURBS ∨
      toDiagonalCurveType (p.getD 0 0) = DCT_CatumullRom) :
    DiagonalCurve.construct p poly_pn =
      (loadPoints { DiagonalCurve.init poly_pn with kind := toDiagonalCurveType (p.getD 0 0) }
        p).bind fun r => if r.2 = true then .ok { r.1 with kind := DCT_Empty } else .ok r.1 := by
  simp only [DiagonalCurve.construct, if_neg (not_lt.mpr h), bind, Except.bind,
    rd_ok (show 0 < p.length by omega), if_pos hk]
  cases loadPoints { DiagonalCurve.init poly_pn with
    kind := toDiagonalCurveType (p.getD 0 0) } p with
  | error e => rfl
  | ok r => rfl

/-- What `chooseKind` returns for a kind other than Spline or at most two points,
followed by the last statement of the constructor: the declared kind is forgotten. -/
theorem chooseKind_forget (c : DiagonalCurve) (K : Int) (N : Nat) (x y : List ℚ)
    (ident : Bool) (h : K ≠ DCT_Spline ∨ N ≤ 2) :
    ((chooseKind { c with kind := K, N := N, x := x, y := y } ident).bind fun d =>
      (if ident = true then Except.ok (ε := Fault) { d with kind := DCT_Empty }
        else .ok d)) =
      .ok (if ident = true then
          { c with kind := DCT_Empty, N := N, x := x, y := y }
        else { c with kind := DCT_Linear, N := N, x := x, y := y }) := by
  have hn : ¬ (K = DCT_Spline ∧ N > 2) := by
    rintro ⟨h1, h2⟩
    rcases h with h | h
    · exact h h1
    · omega
  cases ident with
  | true => rfl
  | false =>
    simp only [chooseKind, if_true, if_neg hn, pure, Except.pure, Except.bind]
    rfl

/-- The constructor after `loadPoints`, for a kind other than Spline or at most two
points: the result does not depend on the declared kind. -/
theorem loadPoints_forget (c : DiagonalCurve) (K : Int) (k : ℚ) (q : List ℚ)
    (h : K ≠ DCT_Spline ∨ pointCount (k :: q) ≤ 2) :
    ((loadPoints { c with kind := K } (k :: q)).bind fun r =>
      (if r.2 = true then Except.ok (ε := Fault) { r.1 with kind := DCT_Empty }
        else .ok r.1)) =
      ((loadPoints { c with kind := DCT_Linear } (0 :: q)).bind fun r =>
      (if r.2 = true then Except.ok (ε := Fault) { r.1 with kind := DCT_Empty }
        else .ok r.1)) := by
  have hN : ((k :: q).length - 1) / 2 = ((0 :: q).length - 1) / 2 := rfl
  have hN2 : K ≠ DCT_Spline ∨ ((0 :: q).length - 1) / 2 ≤ 2 := h
  simp only [loadPoints, bind, Except.bind, readPoints_head k 0 q, hN]
  cases readPoints (0 :: q) (((0 :: q).length - 1) / 2) 0 (0 + 1)
      (List.replicate (((0 :: q).length - 1) / 2) 0)
      (List.replicate (((0 :: q).length - 1) / 2) 0) true with
  | error e => rfl
  | ok v =>
    obtain ⟨x, y, ident⟩ := v
    simp only []
    cases checkEnds x (((0 :: q).length - 1) / 2) ident with
    | error e => rfl
    | ok ident1 =>
      simp only []
      cases nudgeAtZero x with
      | error e => rfl
      | ok x1 =>
        simp only []
        cases nudgeAtOne x1 with
        | error e => rfl
        | ok x2 =>
          simp only []
          have a := chooseKind_forget c K (((0 :: q).length - 1) / 2) x2 y ident1 hN2
          have b := chooseKind_forget c DCT_Linear (((0 :: q).length - 1) / 2) x2 y ident1
            (Or.inl (by decide))
          revert a b
          generalize chooseKind (⟨((0 :: q).length - 1) / 2, c.ppn, x2, y, c.hashSize, c.ypp,
            K⟩ : DiagonalCurve) ident1 = eK
          generalize chooseKind (⟨((0 :: q).length - 1) / 2, c.ppn, x2, y, c.hashSize, c.ypp,
            DCT_Linear⟩ : DiagonalCurve) ident1 = eL
          intro a b
          cases eK with
          | error e => cases a
          | ok dK =>
            cases eL with
            | error e => cases b
            | ok dL => exact a.trans b.symm

/-- For a declared kind other than Spline, or at most two control points, the constructor
returns what it returns for the same points declared Linear. -/
theorem construct_forget (k : ℚ) (q : List ℚ) (poly_pn : Int) (hlen : 2 ≤ q.length)
    (hk : toDiagonalCurveType k = DCT_Linear ∨ toDiagonalCurveType k = DCT_Spline ∨
      toDiagonalCurveType k = DCT_NURBS ∨ toDiagonalCurveType k = DCT_CatumullRom)
    (h : toDiagonalCurveType k ≠ DCT_Spline ∨ pointCount (k :: q) ≤ 2) :
    DiagonalCurve.construct (k :: q) poly_pn = DiagonalCurve.construct (0 :: q) poly_pn := by
  have h3 : 3 ≤ (k :: q).length := by rw [List.length_cons]; omega
  have h3b : 3 ≤ ((0 : ℚ) :: q).length := by rw [List.length_cons]; omega
  have hz : toDiagonalCurveType (0 : ℚ) = DCT_Linear := by
    unfold toDiagonalCurveType
    rw [if_pos (le_refl _), Int.floor_zero]
  rw [construct_load (k :: q) poly_pn h3 hk,
    construct_load (0 :: q) poly_pn h3b (Or.inl hz)]
  have e1 : (k :: q).getD 0 0 = k := rfl
  have e2 : ((0 : ℚ) :: q).getD 0 0 = 0 := rfl
  rw [e1, e2, hz]
  exact loadPoints_forget (DiagonalCurve.init poly_pn) (toDiagonalCurveType k) k q h

/-- The constructor on points that are not an identity curve, for a declared kind other
than Spline or at most two control points: the kind kept is Linear. -/
theorem construct_linear (p : List ℚ) (poly_pn : Int) (h5 : 5 ≤ p.length)
    (hk : toDiagonalCurveType (p.getD 0 0) = DCT_Linear ∨
      toDiagonalCurveType (p.getD 0 0) = DCT_Spline ∨
      toDiagonalCurveType (p.getD 0 0) = DCT_NURBS ∨
      toDiagonalCurveType (p.getD 0 0) = DCT_CatumullRom)
    (hN : toDiagonalCurveType (p.getD 0 0) ≠ DCT_Spline ∨ pointCount p ≤ 2)
    (hid : isIdentity p = false) :
    DiagonalCurve.construct p poly_pn = .ok { loaded p poly_pn with kind := DCT_Linear } := by
  rw [construct_recognised p poly_pn h5 hk, hid]
  have hn : ¬ ((loaded p poly_pn).kind = DCT_Spline ∧ (loaded p poly_pn).N > 2) := by
    rintro ⟨h1, h2⟩
    have e1 : (loaded p poly_pn).N = pointCount p := rfl
    have e2 : (loaded p poly_pn).kind = toDiagonalCurveType (p.getD 0 0) := rfl
    rcases hN with h | h
    · exact h (e2 ▸ h1)
    · omega
  simp only [chooseKind, if_true, if_neg hn, pure, Except.pure]
  rfl

/-- C21: for every list of fewer than 3 control points, the curve declared Spline is the
curve declared Linear built from the same points: the constructor returns the same object,
so `getVal` agrees for every `t`; when the two points are not detected as identity the
object has kind Linear and no spline coefficients, so `getVal` takes the unclamped linear
branch. -/
theorem c21_short_spline_demoted (k1 k0 : ℚ) (q : List ℚ) (poly_pn : Int)
    (h1 : toDiagonalCurveType k1 = DCT_Spline) (h0 : toDiagonalCurveType k0 = DCT_Linear)
    (hlen : 2 ≤ q.length) (hN : pointCount (k1 :: q) < 3) :
    DiagonalCurve.construct (k1 :: q) poly_pn = DiagonalCurve.construct (k0 :: q) poly_pn ∧
      (∀ t, ((DiagonalCurve.construct (k1 :: q) poly_pn).bind fun c => c.getVal t) =
        ((DiagonalCurve.construct (k0 :: q) poly_pn).bind fun c => c.getVal t)) ∧
      (pointCount (k1 :: q) = 2 → isIdentity (k1 :: q) = false →
        ∃ c, DiagonalCurve.construct (k1 :: q) poly_pn = .ok c ∧ c.kind = DCT_Linear ∧
          c.ypp = [] ∧ c.N = 2) := by
  have hN0 : pointCount (k0 :: q) ≤ 2 := by
    have : pointCount (k0 :: q) = pointCount (k1 :: q) := rfl
    omega
  have e : DiagonalCurve.construct (k1 :: q) poly_pn =
      DiagonalCurve.construct (k0 :: q) poly_pn :=
    (construct_forget k1 q poly_pn hlen (Or.inr (Or.inl h1)) (Or.inr (by omega))).trans
      (construct_forget k0 q poly_pn hlen (Or.inl h0) (Or.inr hN0)).symm
  refine ⟨e, fun t => by rw [e], fun h2 hid => ?_⟩
  have h5 : 5 ≤ (k1 :: q).length := by
    unfold pointCount at h2
    omega
  exact ⟨_, construct_linear (k1 :: q) poly_pn h5 (Or.inr (Or.inl h1))
    (Or.inr (by omega)) hid, rfl, rfl, h2⟩

theorem c21_short_spline_demoted_witness :
    DiagonalCurve.construct [1, 0, 0, 1, 2] 1000 = DiagonalCurve.construct [0, 0, 0, 1, 2] 1000 ∧
      DiagonalCurve.construct [1, 0, 0, 1, 2] 1000 =
        .ok { N := 2, ppn := 1000, x := [0, 1], y := [0, 2], hashSize := 1000, ypp := [],
              kind := DCT_Linear } ∧
      DiagonalCurve.getVal
        { N := 2, ppn := 1000, x := [0, 1], y := [0, 2], hashSize := 1000, ypp := [],
          kind := DCT_Linear } (3 / 4) = .ok (3 / 2) := by
  have hk1 : toDiagonalCurveType 1 = DCT_Spline := by
    unfold toDiagonalCurveType
    rw [if_pos (by norm_num), Int.floor_one]
  have hk0 : toDiagonalCurveType 0 = DCT_Linear := by
    unfold toDiagonalCurveType
    rw [if_pos (le_refl _), Int.floor_zero]
  refine ⟨(c21_short_spline_demoted 1 0 [0, 0, 1, 2] 1000 hk1 hk0 (by decide) (by decide)).1,
    ?_, ?_⟩
  · simp [DiagonalCurve.construct, DiagonalCurve.init, loadPoints, checkEnds, nudgeAtZero,
      nudgeAtOne, chooseKind, readPoints, rd, wr, rdI, toDiagonalCurveType, bind, Except.bind,
      pure, Except.pure, abs_lt]
    norm_num [abs_lt]
  · simp [DiagonalCurve.getVal, bisect, fdiv, rd, rdI, bind, Except.bind]
    norm_num
    rfl

/-- C29: for every control-point list, a curve declared NURBS (3) or CatmullRom (4) is the
curve declared Linear built from the same points: the constructor returns the same object,
so `getVal` agrees for every `t`; when the points are not detected as identity the kind
kept is Linear. -/
theorem c29_nurbs_catmullrom_as_linear (k k0 : ℚ) (q : List ℚ) (poly_pn : Int)
    (hk : toDiagonalCurveType k = DCT_NURBS ∨ toDiagonalCurveType k = DCT_CatumullRom)
    (h0 : toDiagonalCurveType k0 = DCT_Linear) (hlen : 2 ≤ q.length) :
    DiagonalCurve.construct (k :: q) poly_pn = DiagonalCurve.construct (k0 :: q) poly_pn ∧
      (∀ t, ((DiagonalCurve.construct (k :: q) poly_pn).bind fun c => c.getVal t) =
        ((DiagonalCurve.construct (k0 :: q) poly_pn).bind fun c => c.getVal t)) ∧
      (4 ≤ q.length → isIdentity (k :: q) = false →
        ∃ c, DiagonalCurve.construct (k :: q) poly_pn = .ok c ∧ c.kind = DCT_Linear ∧
          c.ypp = []) := by
  have hns : toDiagonalCurveType k ≠ DCT_Spline := by
    rcases hk with h | h <;> rw [h] <;> decide
  have hns0 : toDiagonalCurveType k0 ≠ DCT_Spline := by rw [h0]; decide
  have e : DiagonalCurve.construct (k :: q) poly_pn =
      DiagonalCurve.construct (k0 :: q) poly_pn :=
    (construct_forget k q poly_pn hlen (Or.inr (Or.inr hk)) (Or.inl hns)).trans
      (construct_forget k0 q poly_pn hlen (Or.inl h0) (Or.inl hns0)).symm
  refine ⟨e, fun t => by rw [e], fun h4 hid => ?_⟩
  have h5 : 5 ≤ (k :: q).length := by rw [List.length_cons]; omega
  exact ⟨_, construct_linear (k :: q) poly_pn h5 (Or.inr (Or.inr hk)) (Or.inl hns) hid,
    rfl, rfl⟩

theorem c29_nurbs_catmullrom_as_linear_witness :
    DiagonalCurve.construct [3, 0, 0, 1 / 2, 1 / 5, 1, 1] 1000 =
        DiagonalCurve.construct [0, 0, 0, 1 / 2, 1 / 5, 1, 1] 1000 ∧
      DiagonalCurve.construct [3, 0, 0, 1 / 2, 1 / 5, 1, 1] 1000 =
        .ok { N := 3, ppn := 1000, x := [0, 1 / 2, 1], y := [0, 1 / 5, 1], hashSize := 1000,
              ypp := [], kind := DCT_Linear } := by
  have hk3 : toDiagonalCurveType 3 = DCT_NURBS := by
    unfold toDiagonalCurveType
    rw [if_pos (by norm_num)]
    exact Int.floor_eq_iff.mpr ⟨by norm_num, by norm_num⟩
  have hk0 : toDiagonalCurveType 0 = DCT_Linear := by
    unfold toDiagonalCurveType
    rw [if_pos (le_refl _), Int.floor_zero]
  refine ⟨(c29_nurbs_catmullrom_as_linear 3 0 [0, 0, 1 / 2, 1 / 5, 1, 1] 1000 (Or.inl hk3) hk0
    (by decide)).1, ?_⟩
  simp [DiagonalCurve.construct, DiagonalCurve.init, loadPoints, checkEnds, nudgeAtZero,
    nudgeAtOne, chooseKind, readPoints, rd, wr, rdI, toDiagonalCurveType, bind, Except.bind,
    pure, Except.pure, abs_lt]
  norm_num [abs_lt]

/-! ## The forward elimination -/

/-- The forward elimination of `spline_cubic_set` on its initial arrays returns, and
leaves the closed forms `fwdYpp` and `fwdU` in `ypp[0..N-2]` and `u[0..N-2]`. -/
theorem splineForward_run (c : DiagonalCurve) (hN : 3 ≤ c.N) (hx : c.x.length = c.N)
    (hy : c.y.length = c.N) (hinc : c.x.Pairwise (· < ·)) :
    ∃ ypp1 u1, splineForward c.x c.y (c.N - 2) 1 ((List.replicate c.N (0 : ℚ)).set 0 0)
        ((List.replicate (c.N - 1) (0 : ℚ)).set 0 0) = .ok (ypp1, u1) ∧
      ∀ j, j ≤ c.N - 2 → ypp1.getD j 0 = fwdYpp c.x j ∧ u1.getD j 0 = fwdU c.x c.y j := by
  have hu0 : 0 < (List.replicate (c.N - 1) (0 : ℚ)).length := by
    rw [List.length_replicate]; omega
  have hy0 : 0 < (List.replicate c.N (0 : ℚ)).length := by
    rw [List.length_replicate]; omega
  obtain ⟨ypp1, u1, hfwd, -, -, hinv⟩ :=
    splineForward_spec c.x c.y (by omega) hinc (c.N - 2) 0
      ((List.replicate c.N (0 : ℚ)).set 0 0) ((List.replicate (c.N - 1) (0 : ℚ)).set 0 0)
      (by omega) (by rw [List.length_set, List.length_replicate]; omega)
      (by rw [List.length_set, List.length_replicate]; omega)
      (by
        intro j hj
        have : j = 0 := by omega
        subst this
        rw [getD_set_self _ hy0, getD_set_self _ hu0]
        exact ⟨rfl, rfl⟩)
  refine ⟨ypp1, u1, hfwd, fun j hj => hinv j (by omega)⟩

/-- C23 (as stated, refuted): for the points `(0, 0)`, `(1/2, 1/5)`, `(1, 1)` the forward
elimination leaves `u[1] = 18/5`, whereas the stated formula gives `36/5`. -/
theorem c23_stated_formula_differs :
    splineForward [0, 1 / 2, 1] [0, 1 / 5, 1] 1 1 [0, 0, 0] [0, 0]
        = .ok ([0, -(1 / 4), 0], [0, 18 / 5]) ∧
      statedU [0, 1 / 2, 1] [0, 1 / 5, 1] 1 0 = 36 / 5 ∧
      DiagonalCurve.spline_cubic_set
        { N := 3, ppn := 1000, x := [0, 1 / 2, 1], y := [0, 1 / 5, 1], hashSize := 1000,
          ypp := [], kind := DCT_Spline } =
        .ok { N := 3, ppn := 1000, x := [0, 1 / 2, 1], y := [0, 1 / 5, 1], hashSize := 1000,
              ypp := [0, 18 / 5, 0], kind := DCT_Spline } := by
  have h1 : splineForward [0, 1 / 2, 1] [0, 1 / 5, 1] 1 1 [0, 0, 0] [0, 0]
      = .ok ([0, -(1 / 4), 0], [0, 18 / 5]) := by
    simp only [splineForward, bind, Except.bind]
    simp only [rd, wr, fdiv]
    norm_num
  refine ⟨h1, ?_, ?_⟩
  · simp only [statedU, slopeDiff, sigAt, pivotAt, fwdYpp]
    norm_num
  · simp only [DiagonalCurve.spline_cubic_set, bind, Except.bind]
    simp only [wr, List.replicate, List.length, List.set]
    norm_num
    rw [h1]
    simp only [wrI, wr, splineBack, rd, bind, Except.bind]
    norm_num
    have e : Int.toNat 2 = 2 := rfl
    rw [e]
    simp [pure, Except.pure]

/-- C23 (amended): for `N ≥ 3` and strictly increasing `x`, the forward elimination of
`spline_cubic_set` returns, with `u[0] = 0` and for every `i` in `1..N-2`
`u[i] = (6 * ((y[i+1]-y[i])/(x[i+1]-x[i]) - (y[i]-y[i-1])/(x[i]-x[i-1])) / (x[i+1]-x[i-1])
- sig * u[i-1]) / p`, the whole difference being divided by `p`, where
`sig = (x[i]-x[i-1])/(x[i+1]-x[i-1])` and `p = sig * ypp[i-1] + 2`. -/
theorem c23_forward_elimination (c : DiagonalCurve) (hN : 3 ≤ c.N) (hx : c.x.length = c.N)
    (hy : c.y.length = c.N) (hinc : c.x.Pairwise (· < ·)) :
    ∃ ypp1 u1, splineForward c.x c.y (c.N - 2) 1 ((List.replicate c.N (0 : ℚ)).set 0 0)
        ((List.replicate (c.N - 1) (0 : ℚ)).set 0 0) = .ok (ypp1, u1) ∧
      u1.getD 0 0 = 0 ∧
      ∀ i, 1 ≤ i → i ≤ c.N - 2 →
        u1.getD i 0 =
          (6 * ((c.y.getD (i + 1) 0 - c.y.getD i 0) / (c.x.getD (i + 1) 0 - c.x.getD i 0)
              - (c.y.getD i 0 - c.y.getD (i - 1) 0) / (c.x.getD i 0 - c.x.getD (i - 1) 0))
            / (c.x.getD (i + 1) 0 - c.x.getD (i - 1) 0)
            - (c.x.getD i 0 - c.x.getD (i - 1) 0) / (c.x.getD (i + 1) 0 - c.x.getD (i - 1) 0)
              * u1.getD (i - 1) 0)
          / ((c.x.getD i 0 - c.x.getD (i - 1) 0) / (c.x.getD (i + 1) 0 - c.x.getD (i - 1) 0)
              * ypp1.getD (i - 1) 0 + 2) := by
  obtain ⟨ypp1, u1, hrun, hinv⟩ := splineForward_run c hN hx hy hinc
  refine ⟨ypp1, u1, hrun, (hinv 0 (by omega)).2, fun i h1 h2 => ?_⟩
  obtain ⟨k, rfl⟩ : ∃ k, i = k + 1 := ⟨i - 1, by omega⟩
  rw [(hinv (k + 1) h2).2, Nat.add_sub_cancel, (hinv k (by omega)).2, (hinv k (by omega)).1]
  rfl

theorem c23_forward_elimination_witness :
    ∃ ypp1 u1, splineForward [0, 1 / 2, 1] [0, 1 / 5, 1] (3 - 2) 1
        ((List.replicate 3 (0 : ℚ)).set 0 0) ((List.replicate (3 - 1) (0 : ℚ)).set 0 0)
        = .ok (ypp1, u1) ∧ u1.getD 0 0 = 0 :=
  have h := c23_forward_elimination
    { N := 3, ppn := 1000, x := [0, 1 / 2, 1], y := [0, 1 / 5, 1], hashSize := 1000,
      ypp := [], kind := DCT_Spline } (by decide) rfl rfl (by simp; norm_num)
  h.imp fun _ h1 => h1.imp fun _ h2 => ⟨h2.1, h2.2.1⟩

theorem roundHalfEven_intCast (k : Int) : roundHalfEven (k : ℚ) = k := by
  unfold roundHalfEven
  rw [Int.floor_intCast, sub_self, if_pos (by norm_num)]

theorem roundHalfEven_near {q : ℚ} {n : Int} (h1 : (n : ℚ) - 1 / 2 < q)
    (h2 : q < (n : ℚ) + 1 / 2) : roundHalfEven q = n := by
  unfold roundHalfEven
  by_cases h : (n : ℚ) ≤ q
  · have hf : ⌊q⌋ = n := Int.floor_eq_iff.mpr ⟨h, by linarith⟩
    rw [hf, if_pos (by linarith)]
  · have hf : ⌊q⌋ = n - 1 := Int.floor_eq_iff.mpr ⟨by push_cast; linarith, by push_cast; linarith⟩
    rw [hf, if_neg (by push_cast; linarith), if_pos (by push_cast; linarith)]
    ring

theorem log2_of_bounds {q : ℚ} {e : Int} (h1 : (2 : ℚ) ^ e ≤ |q|) (h2 : |q| < (2 : ℚ) ^ (e + 1)) :
    Int.log 2 |q| = e := by
  have hpos : 0 < |q| := lt_of_lt_of_le (zpow_pos (by norm_num) e) h1
  have a : e ≤ Int.log 2 |q| :=
    (Int.zpow_le_iff_le_log (b := 2) (by norm_num) hpos).mp (by simpa using h1)
  have b : Int.log 2 |q| < e + 1 :=
    (Int.lt_zpow_iff_log_lt (b := 2) (by norm_num) hpos).mp (by simpa using h2)
  omega

theorem roundBinary_of_bounds (p : Nat) (emin : Int) {q : ℚ} (e : Int)
    (h1 : (2 : ℚ) ^ e ≤ |q|) (h2 : |q| < (2 : ℚ) ^ (e + 1)) (he : emin ≤ e) :
    roundBinary p emin q =
      (roundHalfEven (q / 2 ^ (e - ((p : Int) - 1))) : ℚ) * 2 ^ (e - ((p : Int) - 1)) := by
  have hq : q ≠ 0 := by
    intro h
    rw [h, abs_zero] at h1
    exact absurd h1 (not_le.mpr (zpow_pos (by norm_num) e))
  unfold roundBinary
  rw [if_neg hq, log2_of_bounds h1 h2, max_eq_left he]

/-- Evaluation of a rounding to `float`: `q` lies in the binade of exponent `e` and `n` is
the integer nearest to `q / 2 ^ (e - 23)`. -/
theorem roundFloat_eval {q : ℚ} (e n : Int) (h1 : (2 : ℚ) ^ e ≤ |q|)
    (h2 : |q| < (2 : ℚ) ^ (e + 1)) (he : -126 ≤ e)
    (hn1 : (n : ℚ) - 1 / 2 < q / 2 ^ (e - 23)) (hn2 : q / 2 ^ (e - 23) < (n : ℚ) + 1 / 2) :
    roundFloat q = (n : ℚ) * 2 ^ (e - 23) := by
  unfold roundFloat
  rw [roundBinary_of_bounds 24 (-126) e h1 h2 he]
  have e1 : e - (((24 : ℕ) : Int) - 1) = e - 23 := by norm_num
  rw [e1, roundHalfEven_near hn1 hn2]

/-- Evaluation of a rounding to `double`. -/
theorem roundDouble_eval {q : ℚ} (e n : Int) (h1 : (2 : ℚ) ^ e ≤ |q|)
    (h2 : |q| < (2 : ℚ) ^ (e + 1)) (he : -1022 ≤ e)
    (hn1 : (n : ℚ) - 1 / 2 < q / 2 ^ (e - 52)) (hn2 : q / 2 ^ (e - 52) < (n : ℚ) + 1 / 2) :
    roundDouble q = (n : ℚ) * 2 ^ (e - 52) := by
  unfold roundDouble
  rw [roundBinary_of_bounds 53 (-1022) e h1 h2 he]
  have e1 : e - (((53 : ℕ) : Int) - 1) = e - 52 := by norm_num
  rw [e1, roundHalfEven_near hn1 hn2]

theorem roundBinary_zero (p : Nat) (emin : Int) : roundBinary p emin 0 = 0 := by
  unfold roundBinary
  rw [if_pos rfl]

/-- A value `n * 2 ^ j` with `|n| < 2 ^ p` and `j` not below the least exponent of the
format is a value of the format: rounding returns it. -/
theorem roundBinary_repr (p : Nat) (emin : Int) (n j : Int) (hn : |n| < 2 ^ p)
    (hj : emin - ((p : Int) - 1) ≤ j) (hp : 1 ≤ p) :
    roundBinary p emin ((n : ℚ) * 2 ^ j) = (n : ℚ) * 2 ^ j := by
  by_cases h0 : n = 0
  · rw [h0, Int.cast_zero, zero_mul, roundBinary_zero]
  have h2 : (0 : ℚ) < 2 ^ j := zpow_pos (by norm_num) j
  have hq : (n : ℚ) * 2 ^ j ≠ 0 := mul_ne_zero (Int.cast_ne_zero.mpr h0) (ne_of_gt h2)
  have hpos : 0 < |(n : ℚ) * 2 ^ j| := abs_pos.mpr hq
  have hlt : |(n : ℚ) * 2 ^ j| < (2 : ℚ) ^ (j + (p : Int)) := by
    rw [abs_mul, abs_of_pos h2, zpow_add₀ (by norm_num), mul_comm ((2 : ℚ) ^ j)]
    apply mul_lt_mul_of_pos_right _ h2
    rw [zpow_natCast]
    have : ((|n| : Int) : ℚ) < ((2 ^ p : Int) : ℚ) := by exact_mod_cast hn
    simpa using this
  have hL : Int.log 2 |(n : ℚ) * 2 ^ j| < j + (p : Int) :=
    (Int.lt_zpow_iff_log_lt (b := 2) (by norm_num) hpos).mp (by simpa using hlt)
  have hp1 : (1 : Int) ≤ (p : Int) := by exact_mod_cast hp
  obtain ⟨d, hd⟩ : ∃ d : Nat, (d : Int) =
      j - (max (Int.log 2 |(n : ℚ) * 2 ^ j|) emin - ((p : Int) - 1)) :=
    ⟨(j - (max (Int.log 2 |(n : ℚ) * 2 ^ j|) emin - ((p : Int) - 1))).toNat, by
      rw [Int.toNat_of_nonneg]
      rcases max_cases (Int.log 2 |(n : ℚ) * 2 ^ j|) emin with ⟨h, -⟩ | ⟨h, -⟩ <;> rw [h] <;> omega⟩
  unfold roundBinary
  rw [if_neg hq]
  generalize max (Int.log 2 |(n : ℚ) * 2 ^ j|) emin - ((p : Int) - 1) = m at hd ⊢
  have hj2 : j = m + (d : Int) := by omega
  have e1 : (n : ℚ) * 2 ^ j / 2 ^ m = ((n * 2 ^ d : Int) : ℚ) := by
    rw [hj2, zpow_add₀ (by norm_num), zpow_natCast]
    have hm : (2 : ℚ) ^ m ≠ 0 := ne_of_gt (zpow_pos (by norm_num) m)
    push_cast
    field_simp
    ring
  rw [e1, roundHalfEven_intCast, hj2, zpow_add₀ (by norm_num), zpow_natCast]
  push_cast
  ring

theorem roundFloat_natCast {n : Nat} (h : n < 16777216) : roundFloat (n : ℚ) = n := by
  have := roundBinary_repr 24 (-126) (n : Int) 0 (by
    rw [abs_of_nonneg (by omega)]
    norm_num
    omega) (by norm_num) (by norm_num)
  simpa [roundFloat] using this

/-! ## The tone mapper in `float` arithmetic -/

theorem identityCells_length : identityCells.length = 65536 := by
  simp [identityCells]

theorem identityCells_getD {i : Nat} (h : i < 65536) : identityCells.getD i 0 = (i : ℚ) := by
  unfold identityCells
  rw [List.getD_eq_getElem?_getD, List.getElem?_map, List.getElem?_range h]
  rfl

theorem identityTable_holds : identityTable.lutToneCurve.Holds identityCells :=
  ofVector_holds identityCells (by rw [identityCells_length]; norm_num)
    (by rw [identityCells_length]; norm_num)

theorem roundFloat_zero : roundFloat 0 = 0 := roundBinary_zero 24 (-126)

theorem roundFloat_one : roundFloat 1 = 1 := by
  have := roundFloat_natCast (n := 1) (by norm_num)
  simpa using this

/-- On the identity table the rounded lookup of a whole index up to 65534 is the index. -/
theorem atFloatRounded_identity_nat {n : Nat} (h : n ≤ 65534) :
    identityTable.lutToneCurve.atFloatRounded (n : ℚ) = .ok (n : ℚ) := by
  have ht := identityTable_holds
  have hl := identityCells_length
  have h0 : ¬ ((n : ℚ) < 0) := not_lt.mpr (Nat.cast_nonneg n)
  have hm : ¬ ((n : ℚ) > identityTable.lutToneCurve.maxsf) := by
    rw [ht.2.2.2.2, hl]
    have : (n : ℚ) ≤ 65534 := by exact_mod_cast h
    push_cast
    linarith
  have hfl : floatToInt (n : ℚ) = (n : Int) := by
    unfold floatToInt
    rw [if_pos (Nat.cast_nonneg n)]
    exact Int.floor_natCast n
  have l1 : identityTable.lutToneCurve.load (n : Int) = .ok (n : ℚ) := by
    rw [load_of_holds ht (by omega), identityCells_getD (by omega)]
  have l2 : identityTable.lutToneCurve.load ((n : Int) + 1) = .ok ((n : ℚ) + 1) := by
    have := load_of_holds ht (i := n + 1) (by omega)
    rw [identityCells_getD (by omega)] at this
    push_cast at this
    exact this
  have rn : roundFloat (n : ℚ) = n := roundFloat_natCast (by omega)
  simp only [avLUTf.atFloatRounded, if_neg h0, if_neg hm, hfl, bind, Except.bind, l1, l2, pure,
    Except.pure, Int.cast_natCast, rn, sub_self, roundFloat_zero, add_sub_cancel_left,
    roundFloat_one, mul_zero, add_zero]

/-- The rounded `RGBTone` once its two lookups and its divisor are known. -/
theorem RGBToneRounded_eval {tc : AdobeToneCurve} {mx md mn M m : ℚ}
    (hM : tc.lutToneCurve.atFloatRounded mx = .ok M)
    (hm : tc.lutToneCurve.atFloatRounded mn = .ok m)
    (hD : roundFloat (mx - mn) ≠ 0) :
    tc.RGBToneRounded mx md mn =
      .ok (M, roundFloat (m + roundFloat (roundFloat (roundFloat (M - m) * roundFloat (md - mn))
        / roundFloat (mx - mn))), m) := by
  simp only [AdobeToneCurve.RGBToneRounded, bind, Except.bind, hM, hm, fdiv_ok hD, pure,
    Except.pure]

theorem toneTreeRounded_branch (tc : AdobeToneCurve) (r g b : ℚ) :
    tc.toneTreeRounded r g b =
      match rgbToneArgs r g b with
      | some a => (tc.RGBToneRounded a.1 a.2.1 a.2.2).bind fun o =>
          .ok (placeChannels (applyCase r g b) o)
      | none => (tc.lutToneCurve.atFloatRounded r).bind fun r1 =>
          (tc.lutToneCurve.atFloatRounded g).bind fun g1 => .ok (r1, g1, g1) := by
  unfold AdobeToneCurve.toneTreeRounded rgbToneArgs applyCase
  split_ifs <;> rfl

theorem ApplyRounded_eq (tc : AdobeToneCurve) (ir ig ib : ℚ) :
    tc.ApplyRounded ir ig ib =
      (tc.toneTreeRounded (clampChannel ir) (clampChannel ig) (clampChannel ib)).bind fun out =>
        if inGamut ir ∨ inGamut ig ∨ inGamut ib then .ok out else .ok (ir, ig, ib) := rfl

/-- The rounded `Apply` on in-range channels, from the result of the decision tree. -/
theorem ApplyRounded_of_tree {tc : AdobeToneCurve} {ir ig ib : ℚ} {out : ℚ × ℚ × ℚ}
    (hr : inGamut ir) (hg : inGamut ig) (hb : inGamut ib)
    (h : tc.toneTreeRounded ir ig ib = .ok out) : tc.ApplyRounded ir ig ib = .ok out := by
  rw [ApplyRounded_eq, clampChannel_of_inGamut hr, clampChannel_of_inGamut hg,
    clampChannel_of_inGamut hb, h]
  show (if inGamut ir ∨ inGamut ig ∨ inGamut ib then _ else _) = _
  rw [if_pos (Or.inl hr)]

/-- The rounded `RGBTone` on the identity table for `maxval = medval = 49903` and
`minval = 1499`: the product `48404 * 48404 = 2342947216` rounds to `2342947328`, the
quotient by `48404` rounds to `48404 + 1/256`, and `medval` becomes `49903 + 1/256`. -/
theorem RGBToneRounded_tie :
    identityTable.RGBToneRounded 49903 49903 1499 = .ok (49903, 12775169 / 256, 1499) := by
  have hM : identityTable.lutToneCurve.atFloatRounded 49903 = .ok 49903 := by
    have := atFloatRounded_identity_nat (n := 49903) (by norm_num)
    simpa using this
  have hm : identityTable.lutToneCurve.atFloatRounded 1499 = .ok 1499 := by
    have := atFloatRounded_identity_nat (n := 1499) (by norm_num)
    simpa using this
  have hA : roundFloat ((49903 : ℚ) - 1499) = 48404 := by
    have := roundFloat_natCast (n := 48404) (by norm_num)
    norm_num at this ⊢
    exact this
  have hC : roundFloat ((48404 : ℚ) * 48404) = 2342947328 := by
    rw [roundFloat_eval 31 9152138 (by norm_num) (by norm_num) (by norm_num) (by norm_num)
      (by norm_num)]
    norm_num
  have hE : roundFloat ((2342947328 : ℚ) / 48404) = 12391425 / 256 := by
    rw [roundFloat_eval 15 12391425 (by norm_num [abs_of_pos]) (by norm_num [abs_of_pos])
      (by norm_num) (by norm_num) (by norm_num)]
    norm_num
  have hS : roundFloat ((1499 : ℚ) + 12391425 / 256) = 12775169 / 256 := by
    have := roundBinary_repr 24 (-126) 12775169 (-8) (by norm_num) (by norm_num) (by norm_num)
    unfold roundFloat
    norm_num at this ⊢
    exact this
  rw [RGBToneRounded_eval hM hm (by rw [hA]; norm_num), hA, hC, hE, hS]

/-- The rounded `RGBTone` on the identity table for `maxval = 44869`, `medval = 32233` and
`minval = 448`: the product `44421 * 31785 = 1411921485` rounds to `1411921536`, the
quotient by `44421` rounds to `31785 + 1/512`, and `medval` becomes `32233 + 1/512`. -/
theorem RGBToneRounded_drift :
    identityTable.RGBToneRounded 44869 32233 448 = .ok (44869, 16503297 / 512, 448) := by
  have hM : identityTable.lutToneCurve.atFloatRounded 44869 = .ok 44869 := by
    have := atFloatRounded_identity_nat (n := 44869) (by norm_num)
    simpa using this
  have hm : identityTable.lutToneCurve.atFloatRounded 448 = .ok 448 := by
    have := atFloatRounded_identity_nat (n := 448) (by norm_num)
    simpa using this
  have hA : roundFloat ((44869 : ℚ) - 448) = 44421 := by
    have := roundFloat_natCast (n := 44421) (by norm_num)
    norm_num at this ⊢
    exact this
  have hB : roundFloat ((32233 : ℚ) - 448) = 31785 := by
    have := roundFloat_natCast (n := 31785) (by norm_num)
    norm_num at this ⊢
    exact this
  have hC : roundFloat ((44421 : ℚ) * 31785) = 1411921536 := by
    rw [roundFloat_eval 30 11030637 (by norm_num) (by norm_num) (by norm_num) (by norm_num)
      (by norm_num)]
    norm_num
  have hE : roundFloat ((1411921536 : ℚ) / 44421) = 16273921 / 512 := by
    rw [roundFloat_eval 14 16273921 (by norm_num [abs_of_pos]) (by norm_num [abs_of_pos])
      (by norm_num) (by norm_num) (by norm_num)]
    norm_num
  have hS : roundFloat ((448 : ℚ) + 16273921 / 512) = 16503297 / 512 := by
    have := roundBinary_repr 24 (-126) 16503297 (-9) (by norm_num) (by norm_num) (by norm_num)
    unfold roundFloat
    norm_num at this ⊢
    exact this
  rw [RGBToneRounded_eval hM hm (by rw [hA]; norm_num), hA, hB, hC, hE, hS]

theorem inGamut_natCast {n : Nat} (h : n ≤ 65535) : inGamut (n : ℚ) :=
  (inGamut_iff _).mpr ⟨Nat.cast_nonneg n, by exact_mod_cast h⟩

/-- The rounded `Apply` on the identity table breaks the tie `r = g` of
`(49903, 49903, 1499)`. -/
theorem ApplyRounded_tie :
    identityTable.ApplyRounded 49903 49903 1499 = .ok (49903, 12775169 / 256, 1499) := by
  apply ApplyRounded_of_tree
  · have := inGamut_natCast (n := 49903) (by norm_num); simpa using this
  · have := inGamut_natCast (n := 49903) (by norm_num); simpa using this
  · have := inGamut_natCast (n := 1499) (by norm_num); simpa using this
  · have ha : rgbToneArgs 49903 49903 1499 = some (49903, 49903, 1499) := by
      unfold rgbToneArgs; norm_num
    have hc : applyCase 49903 49903 1499 = 1 := by
      unfold applyCase; norm_num
    rw [toneTreeRounded_branch, ha, hc]
    show (identityTable.RGBToneRounded 49903 49903 1499).bind _ = _
    rw [RGBToneRounded_tie]
    rfl

/-- The rounded `Apply` on the identity table, with the equal channels in the places of
`g` and `b`. -/
theorem ApplyRounded_tie_gb :
    identityTable.ApplyRounded 1499 49903 49903 = .ok (1499, 49903, 12775169 / 256) := by
  apply ApplyRounded_of_tree
  · have := inGamut_natCast (n := 1499) (by norm_num); simpa using this
  · have := inGamut_natCast (n := 49903) (by norm_num); simpa using this
  · have := inGamut_natCast (n := 49903) (by norm_num); simpa using this
  · have ha : rgbToneArgs 1499 49903 49903 = some (49903, 49903, 1499) := by
      unfold rgbToneArgs; norm_num
    have hc : applyCase 1499 49903 49903 = 7 := by
      unfold applyCase; norm_num
    rw [toneTreeRounded_branch, ha, hc]
    show (identityTable.RGBToneRounded 49903 49903 1499).bind _ = _
    rw [RGBToneRounded_tie]
    rfl

/-- The rounded `Apply` on the identity table moves the middle channel of
`(44869, 448, 32233)`. -/
theorem ApplyRounded_drift :
    identityTable.ApplyRounded 44869 448 32233 = .ok (44869, 448, 16503297 / 512) := by
  apply ApplyRounded_of_tree
  · have := inGamut_natCast (n := 44869) (by norm_num); simpa using this
  · have := inGamut_natCast (n := 448) (by norm_num); simpa using this
  · have := inGamut_natCast (n := 32233) (by norm_num); simpa using this
  · have ha : rgbToneArgs 44869 448 32233 = some (44869, 32233, 448) := by
      unfold rgbToneArgs; norm_num
    have hc : applyCase 44869 448 32233 = 3 := by
      unfold applyCase; norm_num
    rw [toneTreeRounded_branch, ha, hc]
    show (identityTable.RGBToneRounded 44869 32233 448).bind _ = _
    rw [RGBToneRounded_drift]
    rfl

/-! ## The Linear branch in `double` arithmetic -/

theorem roundDouble_zero : roundDouble 0 = 0 := roundBinary_zero 53 (-1022)

/-- Inside the domain the rounded `getVal` of a Linear curve is the rounded chord on the
pair the bisection ends on: the pair `(k, k + 1)` with `x[k] ≤ t < x[k+1]`, or the last
pair when `t = x[N-1]`. -/
theorem getValRounded_linear_inside (c : DiagonalCurve) (t : ℚ) (hk : c.kind = DCT_Linear)
    (hN : 2 ≤ c.N) (hx : c.x.length = c.N) (hy : c.y.length = c.N)
    (h0 : c.x.getD 0 0 ≤ t) (h1 : t ≤ c.x.getD (c.N - 1) 0)
    (hh : ∀ k, k + 1 < c.N → roundDouble (c.x.getD (k + 1) 0 - c.x.getD k 0) ≠ 0) :
    ∃ k, k + 1 < c.N ∧ bisect c.x t c.N 0 (c.N - 1) = .ok (k, k + 1) ∧
      c.x.getD k 0 ≤ t ∧ (k + 1 = c.N - 1 ∨ t < c.x.getD (k + 1) 0) ∧
      c.getValRounded t = .ok (chordRounded c k t) := by
  obtain ⟨k, hb, -, hk2, hlo, hhi⟩ :=
    bisect_spec c.x t (c.N - 1) c.N 0 (c.N - 1) (by omega) (by omega) (by omega) h0 (Or.inl rfl)
  refine ⟨k, by omega, hb, hlo, hhi, ?_⟩
  have hne := hh k (by omega)
  simp only [DiagonalCurve.getValRounded, DiagonalCurve.linearRounded, hk, true_or, if_true,
    bind, Except.bind, rdI_pred (show 1 ≤ c.N by omega),
    rd_ok (show c.N - 1 < c.x.length by omega),
    if_neg (not_lt.mpr h1), rd_ok (show 0 < c.x.length by omega), if_neg (not_lt.mpr h0), hb,
    rd_ok (show k + 1 < c.x.length by omega), rd_ok (show k < c.x.length by omega),
    rd_ok (show k + 1 < c.y.length by omega), rd_ok (show k < c.y.length by omega),
    fdiv_ok hne, pure, Except.pure, chordRounded]

/-- The rounded chord at its left end is `y[k]`, when `y[k]` is a `double`. -/
theorem chordRounded_left (c : DiagonalCurve) (k : Nat)
    (hy : roundDouble (c.y.getD k 0) = c.y.getD k 0) :
    chordRounded c k (c.x.getD k 0) = c.y.getD k 0 := by
  unfold chordRounded
  rw [sub_self, roundDouble_zero, zero_mul, roundDouble_zero, zero_div, roundDouble_zero,
    add_zero, hy]

/-! ## Values of a binary format -/

theorem roundHalfEven_ge_floor (w : ℚ) : ⌊w⌋ ≤ roundHalfEven w := by
  unfold roundHalfEven
  split_ifs <;> omega

theorem roundHalfEven_le_floor_succ (w : ℚ) : roundHalfEven w ≤ ⌊w⌋ + 1 := by
  unfold roundHalfEven
  split_ifs <;> omega

theorem roundHalfEven_ne_zero {w : ℚ} (h : 1 ≤ |w|) : roundHalfEven w ≠ 0 := by
  rcases le_abs.mp h with h1 | h1
  · have : (1 : Int) ≤ ⌊w⌋ := Int.le_floor.mpr (by simpa using h1)
    have := roundHalfEven_ge_floor w
    omega
  · have hw : w ≤ -1 := by linarith
    have hf : ⌊w⌋ ≤ -1 := Int.floor_le_neg_one_iff.mpr (by linarith)
    by_cases hf1 : ⌊w⌋ = -1
    · have hw1 : w = -1 := by
        have := Int.floor_le w
        rw [hf1] at this
        push_cast at this
        linarith
      rw [hw1]
      have := roundHalfEven_intCast (-1)
      simp only [Int.cast_neg, Int.cast_one] at this
      rw [this]
      decide
    · have := roundHalfEven_le_floor_succ w
      omega

/-- In absolute value the rounded significand is at most `2 ^ p`. -/
theorem roundHalfEven_abs_le {w : ℚ} {p : Nat} (h : |w| < 2 ^ p) :
    |roundHalfEven w| ≤ 2 ^ p := by
  have h1 : w < 2 ^ p := lt_of_le_of_lt (le_abs_self w) h
  have h2 : -(2 ^ p : ℚ) < w := by
    have := neg_abs_le w
    linarith
  have f1 : ⌊w⌋ < 2 ^ p := by
    have : ((⌊w⌋ : Int) : ℚ) < ((2 ^ p : Int) : ℚ) := by
      push_cast
      exact lt_of_le_of_lt (Int.floor_le w) h1
    exact_mod_cast this
  have f2 : -(2 ^ p : Int) ≤ ⌊w⌋ := by
    apply Int.le_floor.mpr
    push_cast
    linarith
  have a := roundHalfEven_ge_floor w
  have b := roundHalfEven_le_floor_succ w
  rw [abs_le]
  constructor <;> omega

/-- The exponent the rounding of a non-zero `q` works at. -/
theorem roundBinary_exponent (p : Nat) (emin : Int) {q : ℚ} (hq : q ≠ 0) :
    ∃ e : Int, emin ≤ e ∧ Int.log 2 |q| ≤ e ∧ (e = emin ∨ e = Int.log 2 |q|) ∧
      roundBinary p emin q =
        (roundHalfEven (q / 2 ^ (e - ((p : Int) - 1))) : ℚ) * 2 ^ (e - ((p : Int) - 1)) := by
  refine ⟨max (Int.log 2 |q|) emin, le_max_right _ _, le_max_left _ _, ?_, ?_⟩
  · rcases max_cases (Int.log 2 |q|) emin with ⟨h, -⟩ | ⟨h, -⟩
    · exact Or.inr h
    · exact Or.inl h
  · unfold roundBinary
    rw [if_neg hq]

/-- Every rounded value has the form `n * 2 ^ j` with `|n| < 2 ^ p` and `j` not below the
least exponent of the format. -/
theorem roundBinary_form (p : Nat) (emin : Int) (hp : 1 ≤ p) (q : ℚ) :
    ∃ n j : Int, |n| < 2 ^ p ∧ emin - ((p : Int) - 1) ≤ j ∧
      roundBinary p emin q = (n : ℚ) * 2 ^ j := by
  by_cases hq : q = 0
  · refine ⟨0, emin - ((p : Int) - 1), ?_, le_refl _, ?_⟩
    · rw [abs_zero]; positivity
    · rw [hq, roundBinary_zero, Int.cast_zero, zero_mul]
  obtain ⟨e, he, hL, -, hr⟩ := roundBinary_exponent p emin hq
  have hpos : 0 < |q| := abs_pos.mpr hq
  have hu : (0 : ℚ) < 2 ^ (e - ((p : Int) - 1)) := zpow_pos (by norm_num) _
  have hlt : |q| < (2 : ℚ) ^ (e + 1) := by
    have := Int.lt_zpow_succ_log_self (b := 2) (by norm_num) |q|
    have h2 : ((2 : ℕ) : ℚ) ^ (Int.log 2 |q| + 1) ≤ (2 : ℚ) ^ (e + 1) := by
      rw [Nat.cast_ofNat]
      exact zpow_le_zpow_right₀ (by norm_num) (by omega)
    exact lt_of_lt_of_le this h2
  have hw : |q / 2 ^ (e - ((p : Int) - 1))| < 2 ^ p := by
    rw [abs_div, abs_of_pos hu, div_lt_iff₀ hu]
    have e1 : (2 : ℚ) ^ p * 2 ^ (e - ((p : Int) - 1)) = 2 ^ (e + 1) := by
      rw [← zpow_natCast, ← zpow_add₀ (by norm_num)]
      congr 1
      omega
    rw [e1]
    exact hlt
  have hn := roundHalfEven_abs_le hw
  rcases lt_or_eq_of_le hn with h | h
  · exact ⟨_, _, h, by omega, hr⟩
  · -- the significand rounded up to `2 ^ p`: one binade higher
    obtain ⟨s, hs⟩ : ∃ s : Int, roundHalfEven (q / 2 ^ (e - ((p : Int) - 1))) = 2 * s ∧
        |s| = 2 ^ (p - 1) := by
      have hpow : (2 : Int) ^ p = 2 * 2 ^ (p - 1) := by
        rw [← pow_succ']
        congr 1
        omega
      rcases abs_eq (by positivity : (0 : Int) ≤ 2 ^ p) |>.mp h with h' | h'
      · refine ⟨2 ^ (p - 1), by rw [h', hpow], abs_of_nonneg (by positivity)⟩
      · refine ⟨-2 ^ (p - 1), by rw [h', hpow]; ring, ?_⟩
        rw [abs_neg]
        exact abs_of_nonneg (by positivity)
    refine ⟨s, e - ((p : Int) - 1) + 1, ?_, by omega, ?_⟩
    · rw [hs.2]
      exact pow_lt_pow_right₀ (by norm_num) (by omega)
    · rw [hr, hs.1, zpow_add₀ (by norm_num), zpow_one]
      push_cast
      ring

/-- Rounding is idempotent: a rounded value is a value of the format. -/
theorem roundBinary_idem (p : Nat) (emin : Int) (hp : 1 ≤ p) (q : ℚ) :
    roundBinary p emin (roundBinary p emin q) = roundBinary p emin q := by
  obtain ⟨n, j, hn, hj, h⟩ := roundBinary_form p emin hp q
  rw [h]
  exact roundBinary_repr p emin n j hn hj hp

/-- Every value of the format is a multiple of its least spacing. -/
theorem repr_grid (p : Nat) (emin : Int) (hp : 1 ≤ p) {a : ℚ} (h : roundBinary p emin a = a) :
    ∃ K : Int, a = (K : ℚ) * 2 ^ (emin - ((p : Int) - 1)) := by
  obtain ⟨n, j, -, hj, hf⟩ := roundBinary_form p emin hp a
  obtain ⟨d, hd⟩ : ∃ d : Nat, (d : Int) = j - (emin - ((p : Int) - 1)) :=
    ⟨(j - (emin - ((p : Int) - 1))).toNat, by rw [Int.toNat_of_nonneg]; omega⟩
  refine ⟨n * 2 ^ d, ?_⟩
  have hj2 : j = (d : Int) + (emin - ((p : Int) - 1)) := by omega
  rw [← h, hf, hj2, zpow_add₀ (by norm_num), zpow_natCast]
  push_cast
  ring

/-- A non-zero multiple of the least spacing does not round to zero. -/
theorem roundBinary_grid_ne_zero (p : Nat) (emin : Int) (hp : 1 ≤ p) {K : Int} (hK : K ≠ 0) :
    roundBinary p emin ((K : ℚ) * 2 ^ (emin - ((p : Int) - 1))) ≠ 0 := by
  have hq0 : (0 : ℚ) < 2 ^ (emin - ((p : Int) - 1)) := zpow_pos (by norm_num) _
  have hq : (K : ℚ) * 2 ^ (emin - ((p : Int) - 1)) ≠ 0 :=
    mul_ne_zero (Int.cast_ne_zero.mpr hK) (ne_of_gt hq0)
  have hge : (2 : ℚ) ^ (emin - ((p : Int) - 1)) ≤ |(K : ℚ) * 2 ^ (emin - ((p : Int) - 1))| := by
    rw [abs_mul, abs_of_pos hq0]
    have : (1 : ℚ) ≤ |(K : ℚ)| := by
      have h1 : (1 : Int) ≤ |K| := Int.one_le_abs hK
      have : ((1 : Int) : ℚ) ≤ ((|K| : Int) : ℚ) := by exact_mod_cast h1
      simpa using this
    nlinarith
  obtain ⟨e, he, hL, hcase, hr⟩ := roundBinary_exponent p emin hq
  rw [hr]
  have hu : (0 : ℚ) < 2 ^ (e - ((p : Int) - 1)) := zpow_pos (by norm_num) _
  have hpos : 0 < |(K : ℚ) * 2 ^ (emin - ((p : Int) - 1))| := abs_pos.mpr hq
  have hule : (2 : ℚ) ^ (e - ((p : Int) - 1)) ≤ |(K : ℚ) * 2 ^ (emin - ((p : Int) - 1))| := by
    rcases hcase with h | h
    · rw [h]; exact hge
    · have h1 := Int.zpow_log_le_self (b := 2) (by norm_num) hpos
      rw [Nat.cast_ofNat] at h1
      have h2 : (2 : ℚ) ^ (e - ((p : Int) - 1)) ≤ 2 ^ Int.log 2 |(K : ℚ) * 2 ^ (emin - ((p : Int) - 1))| :=
        zpow_le_zpow_right₀ (by norm_num) (by omega)
      exact le_trans h2 h1
  have hw : 1 ≤ |(K : ℚ) * 2 ^ (emin - ((p : Int) - 1)) / 2 ^ (e - ((p : Int) - 1))| := by
    rw [abs_div, abs_of_pos hu, le_div_iff₀ hu, one_mul]
    exact hule
  exact mul_ne_zero (Int.cast_ne_zero.mpr (roundHalfEven_ne_zero hw)) (ne_of_gt hu)

/-- The difference of two distinct values of the format does not round to zero. -/
theorem roundBinary_sub_ne_zero (p : Nat) (emin : Int) (hp : 1 ≤ p) {a b : ℚ}
    (ha : roundBinary p emin a = a) (hb : roundBinary p emin b = b) (hab : a ≠ b) :
    roundBinary p emin (a - b) ≠ 0 := by
  obtain ⟨Ka, hKa⟩ := repr_grid p emin hp ha
  obtain ⟨Kb, hKb⟩ := repr_grid p emin hp hb
  have hK : Ka - Kb ≠ 0 := by
    intro h
    apply hab
    have : Ka = Kb := by omega
    rw [hKa, hKb, this]
  have e : a - b = ((Ka - Kb : Int) : ℚ) * 2 ^ (emin - ((p : Int) - 1)) := by
    rw [hKa, hKb]
    push_cast
    ring
  rw [e]
  exact roundBinary_grid_ne_zero p emin hp hK

theorem roundFloat_idem (q : ℚ) : roundFloat (roundFloat q) = roundFloat q :=
  roundBinary_idem 24 (-126) (by norm_num) q

theorem roundFloat_sub_ne_zero {a b : ℚ} (ha : roundFloat a = a) (hb : roundFloat b = b)
    (hab : a ≠ b) : roundFloat (a - b) ≠ 0 :=
  roundBinary_sub_ne_zero 24 (-126) (by norm_num) ha hb hab

theorem roundDouble_sub_ne_zero {a b : ℚ} (ha : roundDouble a = a) (hb : roundDouble b = b)
    (hab : a ≠ b) : roundDouble (a - b) ≠ 0 :=
  roundBinary_sub_ne_zero 53 (-1022) (by norm_num) ha hb hab

/-! ## A Linear curve at its last control point, in `double` arithmetic -/

theorem roundDouble_tenth : roundDouble tenthDouble = tenthDouble := by
  have := roundBinary_repr 53 (-1022) 7205759403792794 (-56) (by norm_num) (by norm_num)
    (by norm_num)
  unfold roundDouble tenthDouble
  norm_num at this ⊢
  exact this

theorem roundDouble_fifth : roundDouble fifthDouble = fifthDouble := by
  have := roundBinary_repr 53 (-1022) 7205759403792794 (-55) (by norm_num) (by norm_num)
    (by norm_num)
  unfold roundDouble fifthDouble
  norm_num at this ⊢
  exact this

/-- The product `0.1 * 0.2` in `double`. -/
theorem roundDouble_tenth_mul_fifth :
    roundDouble (tenthDouble * fifthDouble) = 1441151880758559 / 72057594037927936 := by
  unfold tenthDouble fifthDouble
  rw [roundDouble_eval (-6) 5764607523034236 (by norm_num [abs_of_pos])
    (by norm_num [abs_of_pos]) (by norm_num) (by norm_num) (by norm_num)]
  norm_num

/-- The quotient `(0.1 * 0.2) / 0.1` in `double`: one unit in the last place above `0.2`. -/
theorem roundDouble_quotient :
    roundDouble ((1441151880758559 / 72057594037927936 : ℚ) / tenthDouble) =
      fifthDouble + 1 / 36028797018963968 := by
  unfold tenthDouble fifthDouble
  rw [roundDouble_eval (-3) 7205759403792795 (by norm_num [abs_of_pos])
    (by norm_num [abs_of_pos]) (by norm_num) (by norm_num) (by norm_num)]
  norm_num

theorem roundDouble_above_fifth :
    roundDouble (fifthDouble + 1 / 36028797018963968) = fifthDouble + 1 / 36028797018963968 := by
  have := roundBinary_repr 53 (-1022) 7205759403792795 (-55) (by norm_num) (by norm_num)
    (by norm_num)
  unfold roundDouble fifthDouble
  norm_num at this ⊢
  exact this

theorem tenthDouble_pos : 0 < tenthDouble := by
  unfold tenthDouble
  norm_num

/-- In `double` arithmetic the Linear curve through `(0, 0)` and `(0.1, 0.2)` returns
`0.2 + 2 ^ (-55)` at its last control point `0.1`. -/
theorem getValRounded_last_point :
    tenthFifthCurve.getValRounded tenthDouble = .ok (fifthDouble + 1 / 36028797018963968) := by
  have hpos := tenthDouble_pos
  have hsub : tenthDouble - 0 = tenthDouble := sub_zero _
  have hsub2 : fifthDouble - 0 = fifthDouble := sub_zero _
  obtain ⟨k, hk1, -, -, -, hv⟩ :=
    getValRounded_linear_inside tenthFifthCurve tenthDouble rfl (by decide) rfl rfl
      (le_of_lt hpos) (le_refl _) (by
        intro k hk
        have hk0 : k = 0 := by
          have : tenthFifthCurve.N = 2 := rfl
          omega
        subst hk0
        show roundDouble (tenthDouble - 0) ≠ 0
        rw [hsub, roundDouble_tenth]
        exact ne_of_gt hpos)
  have hk0 : k = 0 := by
    have : tenthFifthCurve.N = 2 := rfl
    omega
  subst hk0
  rw [hv]
  show Except.ok (roundDouble (0 + roundDouble (roundDouble (roundDouble (tenthDouble - 0) *
    roundDouble (fifthDouble - 0)) / roundDouble (tenthDouble - 0)))) = _
  rw [hsub, hsub2, roundDouble_tenth, roundDouble_fifth, roundDouble_tenth_mul_fifth,
    roundDouble_quotient, zero_add, roundDouble_above_fifth]

/-! ## The decision tree in `float` arithmetic -/

theorem floatToInt_floor {f : ℚ} (h0 : 0 ≤ f) : floatToInt f = ⌊f⌋ := by
  unfold floatToInt
  rw [if_pos h0]

theorem atFloatRounded_inside {t : avLUTf} {d : List ℚ} (ht : t.Holds d) {f : ℚ} (h0 : 0 ≤ f)
    (hf : f ≤ (d.length : ℚ) - 2) :
    t.atFloatRounded f = .ok (roundFloat (d.getD ⌊f⌋.toNat 0 +
      roundFloat (roundFloat (d.getD (⌊f⌋.toNat + 1) 0 - d.getD ⌊f⌋.toNat 0) *
        roundFloat (f - roundFloat (⌊f⌋ : ℚ))))) := by
  obtain ⟨hfl0, hfl1, -⟩ := floor_index h0 hf
  have e : (⌊f⌋ + 1).toNat = ⌊f⌋.toNat + 1 := by omega
  simp only [avLUTf.atFloatRounded, if_neg (not_lt.mpr h0), ht.2.2.2.2, gt_iff_lt,
    if_neg (not_lt.mpr hf), floatToInt_floor h0, bind, Except.bind,
    load_int_of_holds ht hfl0 (show ⌊f⌋.toNat < d.length by omega),
    load_int_of_holds ht (show 0 ≤ ⌊f⌋ + 1 by omega)
      (show (⌊f⌋ + 1).toNat < d.length by omega), e, pure, Except.pure]

theorem atFloatRounded_below {t : avLUTf} {d : List ℚ} (ht : t.Holds d) (h1 : 1 ≤ d.length)
    {f : ℚ} (hf : f < 0) : t.atFloatRounded f = .ok (d.getD 0 0) := by
  simp only [avLUTf.atFloatRounded, if_pos hf]
  exact load_int_of_holds ht (le_refl 0) (by simpa using h1)

theorem atFloatRounded_above {t : avLUTf} {d : List ℚ} (ht : t.Holds d) (h1 : 1 ≤ d.length)
    {f : ℚ} (h0 : ¬ f < 0) (hf : (d.length : ℚ) - 2 < f) :
    t.atFloatRounded f = .ok (d.getD (d.length - 1) 0) := by
  simp only [avLUTf.atFloatRounded, if_neg h0, ht.2.2.2.2, gt_iff_lt, if_pos hf, ht.2.2.1]
  exact load_of_holds ht (by omega)

/-- Every rounded lookup in a table of logical size at least 1 returns a value, and the
value is a `float` when the cells are. -/
theorem atFloatRounded_value {t : avLUTf} {d : List ℚ} (ht : t.Holds d) (h1 : 1 ≤ d.length)
    (hd : ∀ i, i < d.length → roundFloat (d.getD i 0) = d.getD i 0) (f : ℚ) :
    t.atFloatRounded f = .ok (t.valueRounded f) ∧
      roundFloat (t.valueRounded f) = t.valueRounded f := by
  have key : ∃ v, t.atFloatRounded f = .ok v ∧ roundFloat v = v := by
    by_cases h0 : f < 0
    · exact ⟨_, atFloatRounded_below ht h1 h0, hd 0 (by omega)⟩
    · by_cases hf : (d.length : ℚ) - 2 < f
      · exact ⟨_, atFloatRounded_above ht h1 h0 hf, hd _ (by omega)⟩
      · exact ⟨_, atFloatRounded_inside ht (not_lt.mp h0) (not_lt.mp hf), roundFloat_idem _⟩
  obtain ⟨v, hv, hr⟩ := key
  simp only [avLUTf.valueRounded, hv]
  exact ⟨trivial, hr⟩

/-- The reconstruction of a channel equal to the smallest one returns `LUT(min)`. -/
theorem midRounded_at_lo {hi' lo' : ℚ} (hi lo : ℚ) (h : roundFloat lo' = lo') :
    midRounded hi' lo' lo hi lo = lo' := by
  unfold midRounded
  rw [sub_self, roundFloat_zero, mul_zero, roundFloat_zero, zero_div, roundFloat_zero, add_zero,
    h]

theorem RGBToneRounded_spec {tc : AdobeToneCurve} {d : List ℚ} (ht : tc.lutToneCurve.Holds d)
    (h1 : 1 ≤ d.length) (hd : ∀ i, i < d.length → roundFloat (d.getD i 0) = d.getD i 0)
    {mx mn : ℚ} (md : ℚ) (hmx : roundFloat mx = mx) (hmn : roundFloat mn = mn)
    (hne : mn < mx) :
    tc.RGBToneRounded mx md mn =
      .ok (tc.lutToneCurve.valueRounded mx,
        midRounded (tc.lutToneCurve.valueRounded mx) (tc.lutToneCurve.valueRounded mn) md mx mn,
        tc.lutToneCurve.valueRounded mn) :=
  RGBToneRounded_eval (atFloatRounded_value ht h1 hd mx).1 (atFloatRounded_value ht h1 hd mn).1
    (roundFloat_sub_ne_zero hmx hmn (ne_of_gt hne))

/-- The value of `sortedRounded` once the largest channel, the smallest channel and their
places are known. -/
theorem sortedRounded_of {lut : ℚ → ℚ} {r g b X Y : ℚ} (iMax iMin : Nat)
    (hX : max r (max g b) = X) (hY : min r (min g b) = Y) (hlt : Y < X)
    (h1 : (if r = X then 0 else if g = X then 1 else 2) = iMax)
    (h2 : (if b = Y then 2 else if g = Y then 1 else 0) = iMin) :
    sortedRounded lut r g b =
      ((if iMax = 0 then lut X else if iMin = 0 then lut Y
          else midRounded (lut X) (lut Y) r X Y),
        (if iMax = 1 then lut X else if iMin = 1 then lut Y
          else midRounded (lut X) (lut Y) g X Y),
        (if iMax = 2 then lut X else if iMin = 2 then lut Y
          else midRounded (lut X) (lut Y) b X Y)) := by
  unfold sortedRounded
  simp only [hX, hY, if_pos hlt, h1, h2]

/-- In `float` arithmetic the decision tree computes the sort-based reference
`sortedRounded` on the clamped channels. -/
theorem toneTreeRounded_spec {tc : AdobeToneCurve} {d : List ℚ}
    (ht : tc.lutToneCurve.Holds d) (h1 : 1 ≤ d.length)
    (hd : ∀ i, i < d.length → roundFloat (d.getD i 0) = d.getD i 0) {r g b : ℚ}
    (hr : roundFloat r = r) (hg : roundFloat g = g) (hb : roundFloat b = b) :
    tc.toneTreeRounded r g b = .ok (sortedRounded tc.lutToneCurve.valueRounded r g b) := by
  by_cases h1g : r ≥ g
  · by_cases h2 : g > b
    · -- Case 1: r ≥ g > b
      have hlt : b < r := lt_of_lt_of_le h2 h1g
      simp only [AdobeToneCurve.toneTreeRounded, if_pos h1g, if_pos h2,
        RGBToneRounded_spec ht h1 hd _ hr hb hlt, bind, Except.bind, pure, Except.pure]
      rw [sortedRounded_of 0 2
        (by rw [max_eq_left (le_of_lt h2), max_eq_left h1g])
        (by rw [min_eq_right (le_of_lt h2), min_eq_right (le_of_lt hlt)]) hlt
        (by rw [if_pos rfl]) (by rw [if_pos rfl])]
      rfl
    · by_cases h3 : b > r
      · -- Case 2: b > r ≥ g
        have hlt : g < b := lt_of_le_of_lt h1g h3
        simp only [AdobeToneCurve.toneTreeRounded, if_pos h1g, if_neg h2, if_pos h3,
          RGBToneRounded_spec ht h1 hd _ hb hg hlt, bind, Except.bind, pure, Except.pure]
        rw [sortedRounded_of 2 1
          (by rw [max_eq_right (le_of_lt hlt), max_eq_right (le_of_lt h3)])
          (by rw [min_eq_left (le_of_lt hlt), min_eq_right h1g]) hlt
          (by rw [if_neg (ne_of_lt h3), if_neg (ne_of_lt hlt)])
          (by rw [if_neg (ne_of_gt hlt), if_pos rfl])]
        rfl
      · by_cases h4 : b > g
        · -- Case 3: r ≥ b > g
          have hbr : b ≤ r := not_lt.mp h3
          have hlt : g < r := lt_of_lt_of_le h4 hbr
          simp only [AdobeToneCurve.toneTreeRounded, if_pos h1g, if_neg h2, if_neg h3, if_pos h4,
            RGBToneRounded_spec ht h1 hd _ hr hg hlt, bind, Except.bind, pure, Except.pure]
          rw [sortedRounded_of 0 1
            (by rw [max_eq_right (le_of_lt h4), max_eq_left hbr])
            (by rw [min_eq_left (le_of_lt h4), min_eq_right h1g]) hlt
            (by rw [if_pos rfl])
            (by rw [if_neg (ne_of_gt h4), if_pos rfl])]
          rfl
        · -- Case 4: r ≥ g = b
          have hgb : g = b := le_antisymm (not_lt.mp h2) (not_lt.mp h4)
          subst hgb
          simp only [AdobeToneCurve.toneTreeRounded, if_pos h1g, if_neg h2, if_neg h3, bind,
            Except.bind, (atFloatRounded_value ht h1 hd _).1, pure, Except.pure]
          rcases lt_or_eq_of_le h1g with hlt | heq
          · rw [sortedRounded_of 0 2
              (by rw [max_self, max_eq_left h1g])
              (by rw [min_self, min_eq_right h1g]) hlt
              (by rw [if_pos rfl]) (by rw [if_pos rfl])]
            show _ = Except.ok (tc.lutToneCurve.valueRounded r,
              midRounded (tc.lutToneCurve.valueRounded r) (tc.lutToneCurve.valueRounded g) g r g,
              tc.lutToneCurve.valueRounded g)
            rw [midRounded_at_lo r g (atFloatRounded_value ht h1 hd g).2]
          · subst heq
            unfold sortedRounded
            simp only [max_self, min_self, lt_self_iff_false, if_false]
  · have hrg : r < g := not_le.mp h1g
    by_cases h5 : r ≥ b
    · -- Case 5: g > r ≥ b
      have hlt : b < g := lt_of_le_of_lt h5 hrg
      simp only [AdobeToneCurve.toneTreeRounded, if_neg h1g, if_pos h5,
        RGBToneRounded_spec ht h1 hd _ hg hb hlt, bind, Except.bind, pure, Except.pure]
      rw [sortedRounded_of 1 2
        (by rw [max_eq_left (le_of_lt hlt), max_eq_right (le_of_lt hrg)])
        (by rw [min_eq_right (le_of_lt hlt), min_eq_right h5]) hlt
        (by rw [if_neg (ne_of_lt hrg), if_pos rfl]) (by rw [if_pos rfl])]
      rfl
    · have hrb : r < b := not_le.mp h5
      by_cases h6 : b > g
      · -- Case 6: b > g > r
        simp only [AdobeToneCurve.toneTreeRounded, if_neg h1g, if_neg h5, if_pos h6,
          RGBToneRounded_spec ht h1 hd _ hb hr hrb, bind, Except.bind, pure, Except.pure]
        rw [sortedRounded_of 2 0
          (by rw [max_eq_right (le_of_lt h6), max_eq_right (le_of_lt hrb)])
          (by rw [min_eq_left (le_of_lt h6), min_eq_left (le_of_lt hrg)]) hrb
          (by rw [if_neg (ne_of_lt hrb), if_neg (ne_of_lt h6)])
          (by rw [if_neg (ne_of_gt hrb), if_neg (ne_of_gt hrg)])]
        rfl
      · -- Case 7: g ≥ b > r
        have hbg : b ≤ g := not_lt.mp h6
        simp only [AdobeToneCurve.toneTreeRounded, if_neg h1g, if_neg h5, if_neg h6,
          RGBToneRounded_spec ht h1 hd _ hg hr hrg, bind, Except.bind, pure, Except.pure]
        rw [sortedRounded_of 1 0
          (by rw [max_eq_left hbg, max_eq_right (le_of_lt hrg)])
          (by rw [min_eq_right hbg, min_eq_left (le_of_lt hrb)]) hrg
          (by rw [if_neg (ne_of_lt hrg), if_pos rfl])
          (by rw [if_neg (ne_of_gt hrb), if_neg (ne_of_gt hrg)])]
        rfl

/-! ## Apply in `float` arithmetic -/

theorem clampChannel_repr {v : ℚ} (h : roundFloat v = v) :
    roundFloat (clampChannel v) = clampChannel v := by
  have h65 : roundFloat (65535 : ℚ) = 65535 := by
    have := roundFloat_natCast (n := 65535) (by norm_num)
    simpa using this
  unfold clampChannel
  rcases max_cases (0 : ℚ) (min 65535 v) with ⟨e, -⟩ | ⟨e, -⟩
  · rw [e, roundFloat_zero]
  · rw [e]
    rcases min_cases (65535 : ℚ) v with ⟨e2, -⟩ | ⟨e2, -⟩
    · rw [e2, h65]
    · rw [e2, h]

/-- When at least one input channel is within `[0, 65535]`, the rounded `Apply` returns the
rounded sort-based reference. -/
theorem ApplyRounded_committed {tc : AdobeToneCurve} {d : List ℚ}
    (ht : tc.lutToneCurve.Holds d) (h1 : 1 ≤ d.length)
    (hd : ∀ i, i < d.length → roundFloat (d.getD i 0) = d.getD i 0) {ir ig ib : ℚ}
    (hr : roundFloat ir = ir) (hg : roundFloat ig = ig) (hb : roundFloat ib = ib)
    (hc : inGamut ir ∨ inGamut ig ∨ inGamut ib) :
    tc.ApplyRounded ir ig ib =
      .ok (applyReferenceRounded tc.lutToneCurve.valueRounded ir ig ib) := by
  rw [ApplyRounded_eq, toneTreeRounded_spec ht h1 hd (clampChannel_repr hr) (clampChannel_repr hg)
    (clampChannel_repr hb)]
  show (if inGamut ir ∨ inGamut ig ∨ inGamut ib then _ else _) = _
  rw [if_pos hc]
  rfl

/-- The three channels lie between the smallest and the largest. -/
theorem channel_bounds (r g b : ℚ) :
    (min r (min g b) ≤ r ∧ r ≤ max r (max g b)) ∧ (min r (min g b) ≤ g ∧ g ≤ max r (max g b)) ∧
      (min r (min g b) ≤ b ∧ b ≤ max r (max g b)) := by
  have hlo : min g b ≤ g ∧ min g b ≤ b := ⟨min_le_left g b, min_le_right g b⟩
  have hhi : g ≤ max g b ∧ b ≤ max g b := ⟨le_max_left g b, le_max_right g b⟩
  have hm : min r (min g b) ≤ min g b := min_le_right r (min g b)
  have hM : max g b ≤ max r (max g b) := le_max_right r (max g b)
  exact ⟨⟨min_le_left r _, le_max_left r _⟩, ⟨hm.trans hlo.1, hhi.1.trans hM⟩,
    ⟨hm.trans hlo.2, hhi.2.trans hM⟩⟩

/-- The rounded reference with the largest and the smallest channel named. -/
theorem sortedRounded_named {lut : ℚ → ℚ} {r g b X Y : ℚ}
    (hX : max r (max g b) = X) (hY : min r (min g b) = Y) (hlt : Y < X) :
    sortedRounded lut r g b =
      ((if (if r = X then 0 else if g = X then 1 else 2) = 0 then lut X
          else if (if b = Y then 2 else if g = Y then 1 else 0) = 0 then lut Y
          else midRounded (lut X) (lut Y) r X Y),
        (if (if r = X then 0 else if g = X then 1 else 2) = 1 then lut X
          else if (if b = Y then 2 else if g = Y then 1 else 0) = 1 then lut Y
          else midRounded (lut X) (lut Y) g X Y),
        (if (if r = X then 0 else if g = X then 1 else 2) = 2 then lut X
          else if (if b = Y then 2 else if g = Y then 1 else 0) = 2 then lut Y
          else midRounded (lut X) (lut Y) b X Y)) := by
  unfold sortedRounded
  simp only [hX, hY, if_pos hlt]

theorem sortedRounded_equal {lut : ℚ → ℚ} {r g b : ℚ}
    (h : ¬ min r (min g b) < max r (max g b)) :
    sortedRounded lut r g b =
      (lut (max r (max g b)), lut (max r (max g b)), lut (max r (max g b))) := by
  unfold sortedRounded
  simp only [if_neg h]

theorem max_attained (r g b : ℚ) :
    r = max r (max g b) ∨ g = max r (max g b) ∨ b = max r (max g b) := by
  rcases max_cases r (max g b) with ⟨e, -⟩ | ⟨e, -⟩
  · exact Or.inl e.symm
  · rw [e]
    rcases max_cases g b with ⟨e2, -⟩ | ⟨e2, -⟩
    · exact Or.inr (Or.inl e2.symm)
    · exact Or.inr (Or.inr e2.symm)

/-- In the rounded reference every channel equal to the smallest one becomes `LUT(min)`:
a tie with the smallest channel stays a tie. -/
theorem sortedRounded_bottom {lut : ℚ → ℚ} (r g b : ℚ)
    (hl : roundFloat (lut (min r (min g b))) = lut (min r (min g b))) :
    (r = min r (min g b) → (sortedRounded lut r g b).1 = lut (min r (min g b))) ∧
      (g = min r (min g b) → (sortedRounded lut r g b).2.1 = lut (min r (min g b))) ∧
      (b = min r (min g b) → (sortedRounded lut r g b).2.2 = lut (min r (min g b))) := by
  by_cases hlt : min r (min g b) < max r (max g b)
  · rw [sortedRounded_named rfl rfl hlt]
    have hmax := max_attained r g b
    generalize max r (max g b) = X at hlt hmax ⊢
    generalize min r (min g b) = Y at hl hlt ⊢
    refine ⟨fun h => ?_, fun h => ?_, fun h => ?_⟩
    · have hne : r ≠ X := by rw [h]; exact ne_of_lt hlt
      show (if (if r = X then 0 else if g = X then 1 else 2) = 0 then lut X
          else if (if b = Y then 2 else if g = Y then 1 else 0) = 0 then lut Y
          else midRounded (lut X) (lut Y) r X Y) = lut Y
      rw [if_neg hne, h]
      split_ifs
      all_goals first
        | rfl
        | (exfalso; assumption)
        | omega
        | exact midRounded_at_lo _ _ hl
    · have hne : g ≠ X := by rw [h]; exact ne_of_lt hlt
      show (if (if r = X then 0 else if g = X then 1 else 2) = 1 then lut X
          else if (if b = Y then 2 else if g = Y then 1 else 0) = 1 then lut Y
          else midRounded (lut X) (lut Y) g X Y) = lut Y
      rw [if_neg hne, h]
      split_ifs
      all_goals first
        | rfl
        | (exfalso; assumption)
        | omega
        | exact midRounded_at_lo _ _ hl
    · show (if (if r = X then 0 else if g = X then 1 else 2) = 2 then lut X
          else if (if b = Y then 2 else if g = Y then 1 else 0) = 2 then lut Y
          else midRounded (lut X) (lut Y) b X Y) = lut Y
      have hne : b ≠ X := by rw [h]; exact ne_of_lt hlt
      have hrg : r = X ∨ g = X := by
        rcases hmax with h1 | h1 | h1
        · exact Or.inl h1
        · exact Or.inr h1
        · exact absurd h1 hne
      rw [if_pos h]
      split_ifs with h1 h2 h3
      all_goals first
        | rfl
        | (exfalso; assumption)
        | omega
        | (exfalso; rcases hrg with h5 | h5 <;> contradiction)
  · have heq : max r (max g b) = min r (min g b) := by
      obtain ⟨⟨a1, a2⟩, -, -⟩ := channel_bounds r g b
      exact le_antisymm (not_lt.mp hlt) (le_trans a1 a2)
    rw [sortedRounded_equal hlt]
    exact ⟨fun _ => congrArg lut heq, fun _ => congrArg lut heq, fun _ => congrArg lut heq⟩

/-- In the rounded reference one channel equal to the largest becomes `LUT(max)`. -/
theorem sortedRounded_top {lut : ℚ → ℚ} (r g b : ℚ) :
    (r = max r (max g b) ∧ (sortedRounded lut r g b).1 = lut (max r (max g b))) ∨
      (g = max r (max g b) ∧ (sortedRounded lut r g b).2.1 = lut (max r (max g b))) ∨
      (b = max r (max g b) ∧ (sortedRounded lut r g b).2.2 = lut (max r (max g b))) := by
  by_cases hlt : min r (min g b) < max r (max g b)
  · rw [sortedRounded_named rfl rfl hlt]
    have hmax := max_attained r g b
    generalize max r (max g b) = X at hlt hmax ⊢
    generalize min r (min g b) = Y at hlt ⊢
    by_cases h1 : r = X
    · refine Or.inl ⟨h1, ?_⟩
      show (if (if r = X then 0 else if g = X then 1 else 2) = 0 then lut X else _) = lut X
      rw [if_pos h1, if_pos rfl]
    · by_cases h2 : g = X
      · refine Or.inr (Or.inl ⟨h2, ?_⟩)
        show (if (if r = X then 0 else if g = X then 1 else 2) = 1 then lut X else _) = lut X
        rw [if_neg h1, if_pos h2, if_pos rfl]
      · have h3 : b = X := by
          rcases hmax with h | h | h
          · exact absurd h h1
          · exact absurd h h2
          · exact h
        refine Or.inr (Or.inr ⟨h3, ?_⟩)
        show (if (if r = X then 0 else if g = X then 1 else 2) = 2 then lut X else _) = lut X
        rw [if_neg h1, if_neg h2, if_pos rfl]
  · rw [sortedRounded_equal hlt]
    rcases max_attained r g b with h | h | h
    · exact Or.inl ⟨h, rfl⟩
    · exact Or.inr (Or.inl ⟨h, rfl⟩)
    · exact Or.inr (Or.inr ⟨h, rfl⟩)

/-- The fractional part of a non-negative value of a binary format is a value of the
format. -/
theorem roundBinary_fract (p : Nat) (emin : Int) (hp : 1 ≤ p) {c : ℚ}
    (hc : roundBinary p emin c = c) (h0 : 0 ≤ c) :
    roundBinary p emin (c - (⌊c⌋ : ℚ)) = c - (⌊c⌋ : ℚ) := by
  obtain ⟨n, j, hn, hj, hf⟩ := roundBinary_form p emin hp c
  rw [hc] at hf
  have h2 : (0 : ℚ) < 2 ^ j := zpow_pos (by norm_num) j
  have hn0 : 0 ≤ n := by
    have : (0 : ℚ) ≤ (n : ℚ) := by
      by_contra hneg
      have : (n : ℚ) * 2 ^ j < 0 := mul_neg_of_neg_of_pos (not_le.mp hneg) h2
      linarith
    exact_mod_cast this
  by_cases hj0 : 0 ≤ j
  · obtain ⟨m, hm⟩ : ∃ m : Nat, j = (m : Int) := ⟨j.toNat, (Int.toNat_of_nonneg hj0).symm⟩
    have : c = ((n * 2 ^ m : Int) : ℚ) := by
      rw [hf, hm, zpow_natCast]
      push_cast
      ring
    rw [this, Int.floor_intCast, sub_self, roundBinary_zero]
  · obtain ⟨m, hm⟩ : ∃ m : Nat, j = -(m : Int) := ⟨(-j).toNat, by
      rw [Int.toNat_of_nonneg (by omega)]; ring⟩
    have hc2 : c = (n : ℚ) / ((2 ^ m : ℕ) : ℚ) := by
      rw [hf, hm, zpow_neg, zpow_natCast]
      push_cast
      rw [div_eq_mul_inv]
    have hfl : ⌊c⌋ = n / ((2 ^ m : ℕ) : Int) := by
      rw [hc2]
      exact Rat.floor_intCast_div_natCast n (2 ^ m)
    have hpos : (0 : Int) < ((2 ^ m : ℕ) : Int) := by positivity
    have hmod := Int.emod_add_ediv n ((2 ^ m : ℕ) : Int)
    have hfr : c - (⌊c⌋ : ℚ) = ((n % ((2 ^ m : ℕ) : Int) : Int) : ℚ) * 2 ^ j := by
      rw [hfl, hc2, hm, zpow_neg, zpow_natCast]
      have e : (n : ℚ) = ((n % ((2 ^ m : ℕ) : Int) : Int) : ℚ) +
          (((2 ^ m : ℕ) : Int) : ℚ) * ((n / ((2 ^ m : ℕ) : Int) : Int) : ℚ) := by
        exact_mod_cast hmod.symm
      have hne : (((2 ^ m : ℕ) : Int) : ℚ) ≠ 0 := by positivity
      push_cast at e hne ⊢
      field_simp
      linarith
    rw [hfr]
    apply roundBinary_repr p emin _ j _ hj hp
    have a1 : 0 ≤ n % ((2 ^ m : ℕ) : Int) := Int.emod_nonneg _ (ne_of_gt hpos)
    have a2 : n % ((2 ^ m : ℕ) : Int) ≤ n := by
      have h3 := mul_nonneg (le_of_lt hpos) (Int.ediv_nonneg hn0 (le_of_lt hpos))
      linarith
    rw [abs_of_nonneg a1]
    rw [abs_of_nonneg hn0] at hn
    omega

theorem valueRounded_inside {t : avLUTf} {d : List ℚ} (ht : t.Holds d) {f : ℚ} (h0 : 0 ≤ f)
    (hf : f ≤ (d.length : ℚ) - 2) :
    t.valueRounded f = roundFloat (d.getD ⌊f⌋.toNat 0 +
      roundFloat (roundFloat (d.getD (⌊f⌋.toNat + 1) 0 - d.getD ⌊f⌋.toNat 0) *
        roundFloat (f - roundFloat (⌊f⌋ : ℚ)))) := by
  simp only [avLUTf.valueRounded, atFloatRounded_inside ht h0 hf]

theorem valueRounded_above {t : avLUTf} {d : List ℚ} (ht : t.Holds d) (h1 : 1 ≤ d.length)
    {f : ℚ} (h0 : 0 ≤ f) (hf : (d.length : ℚ) - 2 < f) :
    t.valueRounded f = d.getD (d.length - 1) 0 := by
  simp only [avLUTf.valueRounded, atFloatRounded_above ht h1 (not_lt.mpr h0) hf]

/-- On the identity table of 65536 entries the rounded lookup of a `float` index in
`[0, 65534]` is the index: every operation of the interpolation is exact. -/
theorem valueRounded_identity_low {t : avLUTf} {d : List ℚ} (ht : t.Holds d)
    (hl : d.length = 65536) (hid : ∀ i : Nat, i < 65536 → d.getD i 0 = (i : ℚ)) {c : ℚ}
    (hc : roundFloat c = c) (h0 : 0 ≤ c) (h1 : c ≤ 65534) : t.valueRounded c = c := by
  have hS : (d.length : ℚ) = 65536 := by rw [hl]; norm_num
  have hf : c ≤ (d.length : ℚ) - 2 := by rw [hS]; linarith
  obtain ⟨hfl0, hfl1, hcast⟩ := floor_index h0 hf
  rw [valueRounded_inside ht h0 hf, hid _ (by omega), hid _ (by omega)]
  have hk : roundFloat ((⌊c⌋.toNat : ℕ) : ℚ) = ((⌊c⌋.toNat : ℕ) : ℚ) :=
    roundFloat_natCast (by omega)
  have hfr : roundFloat (c - (⌊c⌋ : ℚ)) = c - (⌊c⌋ : ℚ) :=
    roundBinary_fract 24 (-126) (by norm_num) hc h0
  rw [← hcast, hk]
  rw [← hcast] at hfr
  have e1 : (((⌊c⌋.toNat + 1 : ℕ) : ℚ)) - ((⌊c⌋.toNat : ℕ) : ℚ) = 1 := by
    push_cast
    ring
  rw [e1, roundFloat_one, hfr, one_mul, hfr, add_sub_cancel, hc]

/-- On the identity table of 65536 entries the rounded lookup returns its `float` index
for every index up to 65534 and for the index 65535. -/
theorem valueRounded_identity_fixed {t : avLUTf} {d : List ℚ} (ht : t.Holds d)
    (hl : d.length = 65536) (hid : ∀ i : Nat, i < 65536 → d.getD i 0 = (i : ℚ)) {c : ℚ}
    (hc : roundFloat c = c) (h0 : 0 ≤ c) (hf : c ≤ 65534 ∨ c = 65535) :
    t.valueRounded c = c := by
  rcases hf with h | h
  · exact valueRounded_identity_low ht hl hid hc h0 h
  · have hS : (d.length : ℚ) = 65536 := by rw [hl]; norm_num
    rw [valueRounded_above ht (by omega) h0 (by rw [hS, h]; norm_num), hid _ (by omega), hl, h]
    norm_num

/-- The cells of an identity table are `float` values below `2 ^ 100`. -/
theorem identity_cells_repr {d : List ℚ} (hl : d.length = 65536)
    (hid : ∀ i : Nat, i < 65536 → d.getD i 0 = (i : ℚ)) :
    ∀ i, i < d.length → roundFloat (d.getD i 0) = d.getD i 0 ∧ |d.getD i 0| ≤ 2 ^ 100 := by
  intro i hi
  rw [hid i (by omega)]
  refine ⟨roundFloat_natCast (by omega), ?_⟩
  rw [abs_of_nonneg (Nat.cast_nonneg i)]
  have : (i : ℚ) ≤ 65536 := by exact_mod_cast (show i ≤ 65536 by omega)
  refine le_trans this ?_
  norm_num

/-- The rounded reference uses the table only at the largest and the smallest channel. -/
theorem sortedRounded_congr {lut1 lut2 : ℚ → ℚ} (r g b : ℚ)
    (hhi : lut1 (max r (max g b)) = lut2 (max r (max g b)))
    (hlo : lut1 (min r (min g b)) = lut2 (min r (min g b))) :
    sortedRounded lut1 r g b = sortedRounded lut2 r g b := by
  unfold sortedRounded
  simp only [hhi, hlo]

/-- When the three input channels are all outside `[0, 65535]`, the rounded `Apply` leaves
them as they are. -/
theorem ApplyRounded_uncommitted {tc : AdobeToneCurve} {d : List ℚ}
    (ht : tc.lutToneCurve.Holds d) (h1 : 1 ≤ d.length)
    (hd : ∀ i, i < d.length → roundFloat (d.getD i 0) = d.getD i 0) {ir ig ib : ℚ}
    (hr : roundFloat ir = ir) (hg : roundFloat ig = ig) (hb : roundFloat ib = ib)
    (hc : ¬ (inGamut ir ∨ inGamut ig ∨ inGamut ib)) :
    tc.ApplyRounded ir ig ib = .ok (ir, ig, ib) := by
  rw [ApplyRounded_eq, toneTreeRounded_spec ht h1 hd (clampChannel_repr hr) (clampChannel_repr hg)
    (clampChannel_repr hb)]
  show (if inGamut ir ∨ inGamut ig ∨ inGamut ib then _ else _) = _
  rw [if_neg hc]

/-! ## Linear interpolation, in exact and in `double` arithmetic -/

/-- C6 (as stated, refuted): in `double` arithmetic the Linear curve through `(0, 0)` and
`(0.1, 0.2)` returns `0.2 + 2 ^ (-55)` (printed `0.20000000000000004`) at its last control
point `x[1] = 0.1`, not `y[1] = 0.2`: the product `0.1 * 0.2` and its quotient by `0.1` are
rounded. -/
theorem c6_last_point_rounded :
    tenthFifthCurve.getValRounded (tenthFifthCurve.x.getD 1 0) =
        .ok (fifthDouble + 1 / 36028797018963968) ∧
      tenthFifthCurve.y.getD 1 0 = fifthDouble ∧
      fifthDouble + 1 / 36028797018963968 ≠ fifthDouble :=
  ⟨getValRounded_last_point, rfl, by norm_num⟩

/-- C6 (amended): for a Linear curve with `N ≥ 2` stored points and strictly increasing
`x`, every `t` with `x[0] ≤ t ≤ x[N-1]` and every `k` with `x[k] ≤ t ≤ x[k+1]`: the
bisection ends on an adjacent pair bracketing `t` and, in exact arithmetic,
`getVal(t) = y[k] + (t - x[k]) * (y[k+1] - y[k]) / (x[k+1] - x[k])`, in particular
`getVal(x[i]) = y[i]` for every control point `i`.  In `double` arithmetic, for stored
coordinates that are `double` values of magnitude at most `2 ^ 500`, the bisection ends on
the pair `(k, k + 1)` with `x[k] ≤ t < x[k+1]`, or on the last pair when `t = x[N-1]`,
`getVal(t)` is that expression on this pair with the result of every operation rounded,
and `getVal(x[i]) = y[i]` for every control point but the last. -/
theorem c6_linear_interpolation (c : DiagonalCurve) (hk : c.kind = DCT_Linear)
    (hN : 2 ≤ c.N) (hx : c.x.length = c.N) (hy : c.y.length = c.N)
    (hinc : c.x.Pairwise (· < ·)) :
    (∀ t k, c.x.getD 0 0 ≤ t → t ≤ c.x.getD (c.N - 1) 0 → k + 1 < c.N →
      c.x.getD k 0 ≤ t → t ≤ c.x.getD (k + 1) 0 →
      (∃ lo, bisect c.x t c.N 0 (c.N - 1) = .ok (lo, lo + 1) ∧ lo + 1 < c.N ∧
        c.x.getD lo 0 ≤ t ∧ t ≤ c.x.getD (lo + 1) 0) ∧
      c.getVal t = .ok (c.y.getD k 0 +
        (t - c.x.getD k 0) * (c.y.getD (k + 1) 0 - c.y.getD k 0) /
          (c.x.getD (k + 1) 0 - c.x.getD k 0))) ∧
    (∀ i, i < c.N → c.getVal (c.x.getD i 0) = .ok (c.y.getD i 0)) ∧
    ((∀ i, i < c.N →
        roundDouble (c.x.getD i 0) = c.x.getD i 0 ∧ roundDouble (c.y.getD i 0) = c.y.getD i 0 ∧
          |c.x.getD i 0| ≤ 2 ^ 500 ∧ |c.y.getD i 0| ≤ 2 ^ 500) →
      (∀ t k, k + 1 < c.N → c.x.getD k 0 ≤ t →
        (t < c.x.getD (k + 1) 0 ∨ (k + 1 = c.N - 1 ∧ t = c.x.getD (k + 1) 0)) →
        bisect c.x t c.N 0 (c.N - 1) = .ok (k, k + 1) ∧
          c.getValRounded t = .ok (chordRounded c k t)) ∧
      (∀ i, i + 1 < c.N → c.getValRounded (c.x.getD i 0) = .ok (c.y.getD i 0))) := by
  have main : ∀ t k, c.x.getD 0 0 ≤ t → t ≤ c.x.getD (c.N - 1) 0 → k + 1 < c.N →
      c.x.getD k 0 ≤ t → t ≤ c.x.getD (k + 1) 0 →
      (∃ lo, bisect c.x t c.N 0 (c.N - 1) = .ok (lo, lo + 1) ∧ lo + 1 < c.N ∧
        c.x.getD lo 0 ≤ t ∧ t ≤ c.x.getD (lo + 1) 0) ∧
      c.getVal t = .ok (chord c k t) := by
    intro t k h0 h1 hkN hk0 hk1
    obtain ⟨lo, hlo, hb, hl0, hl1, hv⟩ := getVal_linear_inside c t hk hN hx hy hinc h0 h1
    refine ⟨⟨lo, hb, hlo, hl0, hl1⟩, ?_⟩
    rw [hv]
    exact congrArg Except.ok
      (chord_unique c hinc t lo k (by omega) (by omega) hl0 hl1 hk0 hk1)
  have exactAt : ∀ i, i < c.N → c.getVal (c.x.getD i 0) = .ok (c.y.getD i 0) := by
    intro i hi
    have hfirst : c.x.getD 0 0 ≤ c.x.getD i 0 :=
      pairwise_getD_le hinc (Nat.zero_le i) (by omega)
    have hlast : c.x.getD i 0 ≤ c.x.getD (c.N - 1) 0 :=
      pairwise_getD_le hinc (by omega) (by omega)
    by_cases hi1 : i + 1 < c.N
    · have h := (main (c.x.getD i 0) i hfirst hlast hi1 (le_refl _)
        (pairwise_getD_le hinc (Nat.le_succ i) (by omega))).2
      rw [h, chord_left]
    · have hi0 : i - 1 + 1 = i := by omega
      have hne : c.x.getD (i - 1 + 1) 0 - c.x.getD (i - 1) 0 ≠ 0 :=
        ne_of_gt (sub_pos.mpr (pairwise_getD hinc (Nat.lt_succ_self _) (by omega)))
      have h := (main (c.x.getD i 0) (i - 1) hfirst hlast (by omega)
        (pairwise_getD_le hinc (Nat.sub_le i 1) (by omega)) (by rw [hi0])).2
      rw [h]
      have := chord_right c (i - 1) hne
      rw [hi0] at this
      rw [this]
  refine ⟨main, exactAt, fun hrep => ?_⟩
  have rounded : ∀ t k, k + 1 < c.N → c.x.getD k 0 ≤ t →
      (t < c.x.getD (k + 1) 0 ∨ (k + 1 = c.N - 1 ∧ t = c.x.getD (k + 1) 0)) →
      bisect c.x t c.N 0 (c.N - 1) = .ok (k, k + 1) ∧
        c.getValRounded t = .ok (chordRounded c k t) := by
    intro t k hkN hk0 hk1
    have h0 : c.x.getD 0 0 ≤ t :=
      le_trans (pairwise_getD_le hinc (Nat.zero_le k) (by omega)) hk0
    have h1 : t ≤ c.x.getD (c.N - 1) 0 := by
      rcases hk1 with h | ⟨h, e⟩
      · exact le_trans (le_of_lt h) (pairwise_getD_le hinc (by omega) (by omega))
      · rw [e, h]
    obtain ⟨lo, hlo, hb, hl0, hl1, hv⟩ :=
      getValRounded_linear_inside c t hk hN hx hy h0 h1 (fun j hj =>
        roundDouble_sub_ne_zero (hrep (j + 1) hj).1 (hrep j (by omega)).1
          (ne_of_gt (pairwise_getD hinc (Nat.lt_succ_self j) (by omega))))
    have hlok : lo = k := by
      by_contra hne
      rcases Nat.lt_or_gt_of_ne hne with h | h
      · -- the pair found lies to the left of `k`
        have h2 : c.x.getD (lo + 1) 0 ≤ c.x.getD k 0 :=
          pairwise_getD_le hinc (by omega) (by omega)
        rcases hl1 with h3 | h3
        · omega
        · linarith
      · -- the pair found lies to the right of `k`
        have h2 : c.x.getD (k + 1) 0 ≤ c.x.getD lo 0 :=
          pairwise_getD_le hinc (by omega) (by omega)
        rcases hk1 with h3 | ⟨h3, -⟩
        · linarith
        · omega
    subst hlok
    exact ⟨hb, hv⟩
  refine ⟨rounded, fun i hi => ?_⟩
  rw [(rounded (c.x.getD i 0) i hi (le_refl _)
    (Or.inl (pairwise_getD hinc (Nat.lt_succ_self i) (by omega)))).2,
    chordRounded_left c i (hrep i (by omega)).2.1]

/-- Witness for C6: the Linear curve through `(0, 0)`, `(1, 1/2)` at its last control
point in exact arithmetic, and the Linear curve through `(0, 0)`, `(0.1, 0.2)` at its first
control point in `double` arithmetic. -/
theorem c6_linear_interpolation_witness :
    DiagonalCurve.getVal
        { N := 2, ppn := 1000, x := [0, 1], y := [0, 1 / 2], hashSize := 1000, ypp := [],
          kind := DCT_Linear } 1 = .ok (1 / 2) ∧
      tenthFifthCurve.getValRounded 0 = .ok 0 := by
  constructor
  · exact (c6_linear_interpolation
      { N := 2, ppn := 1000, x := [0, 1], y := [0, 1 / 2], hashSize := 1000, ypp := [],
        kind := DCT_Linear } rfl (by decide) rfl rfl (by simp)).2.1 1 (by decide)
  · have hp : tenthFifthCurve.x.Pairwise (· < ·) := by
      show [0, tenthDouble].Pairwise (· < ·)
      simp [tenthDouble_pos]
    have hb1 : |tenthDouble| ≤ 2 ^ 500 := by
      unfold tenthDouble
      rw [abs_of_pos (by norm_num)]
      exact le_trans (show (3602879701896397 / 36028797018963968 : ℚ) ≤ 1 by norm_num)
        (one_le_pow₀ (by norm_num))
    have hb2 : |fifthDouble| ≤ 2 ^ 500 := by
      unfold fifthDouble
      rw [abs_of_pos (by norm_num)]
      exact le_trans (show (3602879701896397 / 18014398509481984 : ℚ) ≤ 1 by norm_num)
        (one_le_pow₀ (by norm_num))
    have h0 : |(0 : ℚ)| ≤ 2 ^ 500 := by
      rw [abs_zero]
      positivity
    exact (c6_linear_interpolation tenthFifthCurve rfl (by decide) rfl rfl hp).2.2
      (by
        intro i hi
        have hi2 : i < 2 := hi
        interval_cases i
        · exact ⟨roundDouble_zero, roundDouble_zero, h0, h0⟩
        · exact ⟨roundDouble_tenth, roundDouble_fifth, hb1, hb2⟩) |>.2 0 (by decide)

/-! ## The hue-preserving mapper, in exact and in `float` arithmetic -/

/-- The outputs of the rounded `Apply` when at least one channel is within `[0, 65535]`:
every channel equal to the smallest clamped channel becomes `LUT(min)` and one channel
equal to the largest becomes `LUT(max)`. -/
theorem ApplyRounded_ends {tc : AdobeToneCurve} {d : List ℚ} (ht : tc.lutToneCurve.Holds d)
    (h1 : 1 ≤ d.length) (hd : ∀ i, i < d.length → roundFloat (d.getD i 0) = d.getD i 0)
    {ir ig ib : ℚ} (hr : roundFloat ir = ir) (hg : roundFloat ig = ig)
    (hb : roundFloat ib = ib) (hc : inGamut ir ∨ inGamut ig ∨ inGamut ib) :
    ∃ r2 g2 b2, tc.ApplyRounded ir ig ib = .ok (r2, g2, b2) ∧
      (clampChannel ir = min (clampChannel ir) (min (clampChannel ig) (clampChannel ib)) →
        r2 = tc.lutToneCurve.valueRounded
          (min (clampChannel ir) (min (clampChannel ig) (clampChannel ib)))) ∧
      (clampChannel ig = min (clampChannel ir) (min (clampChannel ig) (clampChannel ib)) →
        g2 = tc.lutToneCurve.valueRounded
          (min (clampChannel ir) (min (clampChannel ig) (clampChannel ib)))) ∧
      (clampChannel ib = min (clampChannel ir) (min (clampChannel ig) (clampChannel ib)) →
        b2 = tc.lutToneCurve.valueRounded
          (min (clampChannel ir) (min (clampChannel ig) (clampChannel ib)))) ∧
      ((clampChannel ir = max (clampChannel ir) (max (clampChannel ig) (clampChannel ib)) ∧
          r2 = tc.lutToneCurve.valueRounded
            (max (clampChannel ir) (max (clampChannel ig) (clampChannel ib)))) ∨
        (clampChannel ig = max (clampChannel ir) (max (clampChannel ig) (clampChannel ib)) ∧
          g2 = tc.lutToneCurve.valueRounded
            (max (clampChannel ir) (max (clampChannel ig) (clampChannel ib)))) ∨
        (clampChannel ib = max (clampChannel ir) (max (clampChannel ig) (clampChannel ib)) ∧
          b2 = tc.lutToneCurve.valueRounded
            (max (clampChannel ir) (max (clampChannel ig) (clampChannel ib))))) := by
  have hbot := @sortedRounded_bottom tc.lutToneCurve.valueRounded (clampChannel ir)
    (clampChannel ig) (clampChannel ib) (atFloatRounded_value ht h1 hd _).2
  have htop := @sortedRounded_top tc.lutToneCurve.valueRounded (clampChannel ir)
    (clampChannel ig) (clampChannel ib)
  exact ⟨_, _, _, ApplyRounded_committed ht h1 hd hr hg hb hc, hbot.1, hbot.2.1, hbot.2.2, htop⟩

theorem roundFloat_plateau : roundFloat (131069 / 2 : ℚ) = 131069 / 2 := by
  have := roundBinary_repr 24 (-126) 131069 (-1) (by norm_num) (by norm_num) (by norm_num)
  simpa [roundFloat] using this

theorem valueRounded_identity_gap {c : ℚ} (hc : 65534 < c) :
    identityTable.lutToneCurve.valueRounded c = 65535 := by
  have hS : (identityCells.length : ℚ) = 65536 := by rw [identityCells_length]; norm_num
  rw [valueRounded_above identityTable_holds (by rw [identityCells_length]; norm_num)
    (by linarith) (by rw [hS]; linarith), identityCells_length,
    identityCells_getD (by norm_num)]
  norm_num

/-- In `float` arithmetic too the identity table turns `(65535, 65534.5, 65534.5)` into
`(65535, 65535, 65535)`: the three lookups return the last cell. -/
theorem ApplyRounded_plateau_tie :
    identityTable.ApplyRounded 65535 (131069 / 2) (131069 / 2) = .ok (65535, 65535, 65535) := by
  have h1 : inGamut (65535 : ℚ) := inGamut_of_bounds (by norm_num) (by norm_num)
  have h2 : inGamut (131069 / 2 : ℚ) := inGamut_of_bounds (by norm_num) (by norm_num)
  have f1 : roundFloat (65535 : ℚ) = 65535 := by
    have := roundFloat_natCast (n := 65535) (by norm_num)
    simpa using this
  rw [ApplyRounded_committed identityTable_holds (by rw [identityCells_length]; norm_num)
    (fun i hi => (identity_cells_repr identityCells_length
      (fun i hi => identityCells_getD hi) i hi).1) f1 roundFloat_plateau roundFloat_plateau
    (Or.inl h1)]
  unfold applyReferenceRounded
  rw [clampChannel_of_inGamut h1, clampChannel_of_inGamut h2,
    sortedRounded_of 0 2 (show max (65535 : ℚ) (max (131069 / 2) (131069 / 2)) = 65535 by norm_num)
      (show min (65535 : ℚ) (min (131069 / 2) (131069 / 2)) = 131069 / 2 by norm_num)
      (by norm_num) (by norm_num) (by norm_num),
    valueRounded_identity_gap (show (65534 : ℚ) < 65535 by norm_num),
    valueRounded_identity_gap (show (65534 : ℚ) < 131069 / 2 by norm_num),
    midRounded_at_lo _ _ f1]
  rfl

/-- In `float` arithmetic too the identity table turns `(65534.5, 65534.5, 65534.5)` into
`(65535, 65535, 65535)`. -/
theorem ApplyRounded_plateau :
    identityTable.ApplyRounded (131069 / 2) (131069 / 2) (131069 / 2)
      = .ok (65535, 65535, 65535) := by
  have h2 : inGamut (131069 / 2 : ℚ) := inGamut_of_bounds (by norm_num) (by norm_num)
  rw [ApplyRounded_committed identityTable_holds (by rw [identityCells_length]; norm_num)
    (fun i hi => (identity_cells_repr identityCells_length
      (fun i hi => identityCells_getD hi) i hi).1) roundFloat_plateau roundFloat_plateau
    roundFloat_plateau (Or.inl h2)]
  unfold applyReferenceRounded
  rw [clampChannel_of_inGamut h2, sortedRounded_equal (by simp), max_self, max_self,
    valueRounded_identity_gap (show (65534 : ℚ) < 131069 / 2 by norm_num)]

/-- C17 (as stated, refuted): with the identity tone table the strict inequality `r > g`
of the in-range input `(65535, 65534.5, 65534.5)` becomes a tie, the outputs being
`(65535, 65535, 65535)` in exact and in `float` arithmetic alike; and in `float`
arithmetic the tie `r = g` of the input `(49903, 49903, 1499)` becomes a strict
inequality, the outputs being `(49903, 49903 + 1/256, 1499)`. -/
theorem c17_strict_order_collapses :
    (∃ tc1, ToneCurve.fresh.Set identityCurve.toCurve 0 = .ok tc1 ∧
      AdobeToneCurve.Apply { toToneCurve := tc1 } 65535 (131069 / 2) (131069 / 2)
        = .ok (65535, 65535, 65535) ∧ (131069 / 2 : ℚ) < 65535) ∧
      identityTable.ApplyRounded 65535 (131069 / 2) (131069 / 2) = .ok (65535, 65535, 65535) ∧
      identityTable.ApplyRounded 49903 49903 1499 = .ok (49903, 12775169 / 256, 1499) ∧
      (49903 : ℚ) < 12775169 / 256 := by
  refine ⟨?_, ApplyRounded_plateau_tie, ApplyRounded_tie, by norm_num⟩
  obtain ⟨t1, d, hset, hh, hl, hid⟩ := identity_table_exists
  refine ⟨_, hset, ?_, by norm_num⟩
  have hholds : (AdobeToneCurve.mk { lutToneCurve := t1 }).lutToneCurve.Holds d := hh
  rw [Apply_committed hholds (by omega) _ _ _
    (Or.inl (inGamut_of_bounds (by norm_num) (by norm_num))), applyReference_channels,
    clampChannel_of_inGamut (inGamut_of_bounds (by norm_num) (by norm_num)),
    clampChannel_of_inGamut
      (inGamut_of_bounds (show (0 : ℚ) ≤ 131069 / 2 by norm_num) (by norm_num)),
    max_self, min_self, max_eq_left (by norm_num), min_eq_right (by norm_num)]
  have hV1 : t1.value 65535 = 65535 := value_identity_gap hh hl hid (by norm_num)
  have hV2 : t1.value (131069 / 2) = 65535 := value_identity_gap hh hl hid (by norm_num)
  show Except.ok (refChannel t1.value 65535 (131069 / 2) 65535,
    refChannel t1.value 65535 (131069 / 2) (131069 / 2),
    refChannel t1.value 65535 (131069 / 2) (131069 / 2)) = _
  rw [refChannel_hi, refChannel_lo _ (by norm_num), hV1, hV2]

/-- C17 (amended): when at least one input channel is within `[0, 65535]`, in exact
arithmetic `Apply` returns equal outputs for equal clamped channels, for every table, and
when the table maps the largest clamped channel strictly above the smallest one the three
outputs are ranked exactly as the clamped inputs, every strict inequality staying strict.
In `float` arithmetic, for a table and inputs that are `float` values (the cells of
magnitude at most `2 ^ 100`), every channel equal to the smallest clamped channel `m`
becomes `LUT(m)` and one channel equal to the largest `M` becomes `LUT(M)`: a tie with the
smallest channel stays a tie, whereas a tie with the largest one can be broken by the
rounding of the middle-channel reconstruction. -/
theorem c17_ranking_preserved (tc : AdobeToneCurve) (d : List ℚ) (ir ig ib : ℚ)
    (ht : tc.lutToneCurve.Holds d) (h1 : 1 ≤ d.length)
    (hc : inGamut ir ∨ inGamut ig ∨ inGamut ib) :
    (∃ r1 g1 b1, tc.Apply ir ig ib = .ok (r1, g1, b1) ∧
      (clampChannel ir = clampChannel ig → r1 = g1) ∧
      (clampChannel ig = clampChannel ib → g1 = b1) ∧
      (clampChannel ir = clampChannel ib → r1 = b1) ∧
      ((min (clampChannel ir) (min (clampChannel ig) (clampChannel ib)) <
          max (clampChannel ir) (max (clampChannel ig) (clampChannel ib)) →
        tc.lutToneCurve.value
            (min (clampChannel ir) (min (clampChannel ig) (clampChannel ib))) <
          tc.lutToneCurve.value
            (max (clampChannel ir) (max (clampChannel ig) (clampChannel ib)))) →
        (r1 < g1 ↔ clampChannel ir < clampChannel ig) ∧
        (g1 < r1 ↔ clampChannel ig < clampChannel ir) ∧
        (g1 < b1 ↔ clampChannel ig < clampChannel ib) ∧
        (b1 < g1 ↔ clampChannel ib < clampChannel ig) ∧
        (r1 < b1 ↔ clampChannel ir < clampChannel ib) ∧
        (b1 < r1 ↔ clampChannel ib < clampChannel ir))) ∧
    ((∀ i, i < d.length → roundFloat (d.getD i 0) = d.getD i 0 ∧ |d.getD i 0| ≤ 2 ^ 100) →
      roundFloat ir = ir → roundFloat ig = ig → roundFloat ib = ib →
      ∃ r2 g2 b2, tc.ApplyRounded ir ig ib = .ok (r2, g2, b2) ∧
        (clampChannel ir = min (clampChannel ir) (min (clampChannel ig) (clampChannel ib)) →
          r2 = tc.lutToneCurve.valueRounded
            (min (clampChannel ir) (min (clampChannel ig) (clampChannel ib)))) ∧
        (clampChannel ig = min (clampChannel ir) (min (clampChannel ig) (clampChannel ib)) →
          g2 = tc.lutToneCurve.valueRounded
            (min (clampChannel ir) (min (clampChannel ig) (clampChannel ib)))) ∧
        (clampChannel ib = min (clampChannel ir) (min (clampChannel ig) (clampChannel ib)) →
          b2 = tc.lutToneCurve.valueRounded
            (min (clampChannel ir) (min (clampChannel ig) (clampChannel ib)))) ∧
        ((clampChannel ir = max (clampChannel ir) (max (clampChannel ig) (clampChannel ib)) ∧
            r2 = tc.lutToneCurve.valueRounded
              (max (clampChannel ir) (max (clampChannel ig) (clampChannel ib)))) ∨
          (clampChannel ig = max (clampChannel ir) (max (clampChannel ig) (clampChannel ib)) ∧
            g2 = tc.lutToneCurve.valueRounded
              (max (clampChannel ir) (max (clampChannel ig) (clampChannel ib)))) ∨
          (clampChannel ib = max (clampChannel ir) (max (clampChannel ig) (clampChannel ib)) ∧
            b2 = tc.lutToneCurve.valueRounded
              (max (clampChannel ir) (max (clampChannel ig) (clampChannel ib)))))) := by
  refine ⟨?_, fun hd hr hg hb =>
    ApplyRounded_ends ht h1 (fun i hi => (hd i hi).1) hr hg hb hc⟩
  refine ⟨_, _, _, by rw [Apply_committed ht h1 _ _ _ hc, applyReference_channels],
    fun h => by rw [h], fun h => by rw [h], fun h => by rw [h], fun hV => ?_⟩
  generalize clampChannel ir = r at *
  generalize clampChannel ig = g at *
  generalize clampChannel ib = b at *
  by_cases hlt : min r (min g b) < max r (max g b)
  · have hs := fun c1 c2 =>
      @refChannel_strict tc.lutToneCurve.value _ _ hlt (hV hlt) c1 c2
    exact ⟨hs _ _, hs _ _, hs _ _, hs _ _, hs _ _, hs _ _⟩
  · have hle : max r (max g b) ≤ min r (min g b) := not_lt.mp hlt
    obtain ⟨⟨e4, e1⟩, ⟨e5, e2⟩, ⟨e6, e3⟩⟩ := channel_bounds r g b
    have hrg : r = g := le_antisymm (by linarith) (by linarith)
    have hgb : g = b := le_antisymm (by linarith) (by linarith)
    subst hrg
    subst hgb
    simp only [lt_self_iff_false, and_self]

/-- Witness for C17: the table `[0, 10, 20]` and the input `(2, 1, 0)` in exact arithmetic;
the identity table and the input `(49903, 49903, 1499)` in `float` arithmetic. -/
theorem c17_ranking_preserved_witness :
    (∃ r1 g1 b1, AdobeToneCurve.Apply { lutToneCurve := avLUTf.ofVector [0, 10, 20] } 2 1 0
        = .ok (r1, g1, b1) ∧ g1 < r1 ∧ b1 < g1) ∧
      ∃ r2 g2 b2, identityTable.ApplyRounded 49903 49903 1499 = .ok (r2, g2, b2) ∧
        b2 = identityTable.lutToneCurve.valueRounded
          (min (clampChannel 49903) (min (clampChannel 49903) (clampChannel 1499))) := by
  have hh : (avLUTf.ofVector [0, 10, 20]).Holds [0, 10, 20] := ofVector_example_holds
  have c2 : clampChannel 2 = 2 := by norm_num [clampChannel]
  have c1 : clampChannel 1 = 1 := by norm_num [clampChannel]
  have c0 : clampChannel 0 = 0 := by norm_num [clampChannel]
  constructor
  · obtain ⟨r1, g1, b1, hA, -, -, -, hs⟩ :=
      (c17_ranking_preserved { lutToneCurve := avLUTf.ofVector [0, 10, 20] } [0, 10, 20]
        2 1 0 hh (by decide) (Or.inl (inGamut_of_bounds (by norm_num) (by norm_num)))).1
    have hV : min (clampChannel 2) (min (clampChannel 1) (clampChannel 0)) <
          max (clampChannel 2) (max (clampChannel 1) (clampChannel 0)) →
        (avLUTf.ofVector [0, 10, 20]).value
            (min (clampChannel 2) (min (clampChannel 1) (clampChannel 0))) <
          (avLUTf.ofVector [0, 10, 20]).value
            (max (clampChannel 2) (max (clampChannel 1) (clampChannel 0))) := by
      intro _
      rw [c2, c1, c0]
      have e1 : min (2 : ℚ) (min 1 0) = 0 := by norm_num
      have e2 : max (2 : ℚ) (max 1 0) = 2 := by norm_num
      rw [e1, e2, value_inside hh (le_refl _) (by norm_num),
        value_above hh (by decide) (by norm_num) (by norm_num), interpAt_zero]
      norm_num
    have hs2 := hs hV
    rw [c2, c1, c0] at hs2
    exact ⟨r1, g1, b1, hA, hs2.2.1.mpr (by norm_num), hs2.2.2.2.1.mpr (by norm_num)⟩
  · have hrep := identity_cells_repr identityCells_length (fun i hi => identityCells_getD hi)
    have f1 : roundFloat (49903 : ℚ) = 49903 := by
      have := roundFloat_natCast (n := 49903) (by norm_num)
      simpa using this
    have f2 : roundFloat (1499 : ℚ) = 1499 := by
      have := roundFloat_natCast (n := 1499) (by norm_num)
      simpa using this
    have hin : inGamut (49903 : ℚ) := by
      have := inGamut_natCast (n := 49903) (by norm_num)
      simpa using this
    obtain ⟨r2, g2, b2, hA, -, -, hb, -⟩ :=
      (c17_ranking_preserved identityTable identityCells 49903 49903 1499 identityTable_holds
        (by rw [identityCells_length]; norm_num) (Or.inl hin)).2 hrep f1 f1 f2
    refine ⟨r2, g2, b2, hA, hb ?_⟩
    have c3 : clampChannel 49903 = 49903 := clampChannel_of_inGamut hin
    have c4 : clampChannel 1499 = 1499 := by norm_num [clampChannel]
    rw [c3, c4]
    norm_num

theorem roundFloat_max {r g b : ℚ} (hr : roundFloat r = r) (hg : roundFloat g = g)
    (hb : roundFloat b = b) : roundFloat (max r (max g b)) = max r (max g b) := by
  rcases max_attained r g b with e | e | e
  · rw [← e, hr]
  · rw [← e, hg]
  · rw [← e, hb]

theorem min_attained (r g b : ℚ) :
    r = min r (min g b) ∨ g = min r (min g b) ∨ b = min r (min g b) := by
  rcases min_cases r (min g b) with ⟨e, -⟩ | ⟨e, -⟩
  · exact Or.inl e.symm
  · rw [e]
    rcases min_cases g b with ⟨e2, -⟩ | ⟨e2, -⟩
    · exact Or.inr (Or.inl e2.symm)
    · exact Or.inr (Or.inr e2.symm)

theorem roundFloat_min {r g b : ℚ} (hr : roundFloat r = r) (hg : roundFloat g = g)
    (hb : roundFloat b = b) : roundFloat (min r (min g b)) = min r (min g b) := by
  rcases min_attained r g b with e | e | e
  · rw [← e, hr]
  · rw [← e, hg]
  · rw [← e, hb]

/-- With the identity table, the rounded `Apply` on three in-range `float` channels whose
largest and smallest are each at most `65534` or equal to `65535` is the rounded
reference with the table replaced by the identity function. -/
theorem ApplyRounded_identity {tc : AdobeToneCurve} {d : List ℚ}
    (ht : tc.lutToneCurve.Holds d) (hl : d.length = 65536)
    (hid : ∀ i : Nat, i < 65536 → d.getD i 0 = (i : ℚ)) {ir ig ib : ℚ}
    (hr : inGamut ir) (hg : inGamut ig) (hb : inGamut ib)
    (hhi : max ir (max ig ib) ≤ 65534 ∨ max ir (max ig ib) = 65535)
    (hlo : min ir (min ig ib) ≤ 65534 ∨ min ir (min ig ib) = 65535)
    (fr : roundFloat ir = ir) (fg : roundFloat ig = ig) (fb : roundFloat ib = ib) :
    tc.ApplyRounded ir ig ib = .ok (sortedRounded (fun v => v) ir ig ib) := by
  have hrep := identity_cells_repr hl hid
  rw [ApplyRounded_committed ht (by omega) (fun i hi => (hrep i hi).1) fr fg fb (Or.inl hr)]
  unfold applyReferenceRounded
  rw [clampChannel_of_inGamut hr, clampChannel_of_inGamut hg, clampChannel_of_inGamut hb]
  have r0 := ((inGamut_iff ir).mp hr).1
  have g0 := ((inGamut_iff ig).mp hg).1
  have b0 := ((inGamut_iff ib).mp hb).1
  refine congrArg Except.ok (sortedRounded_congr ir ig ib ?_ ?_)
  · exact valueRounded_identity_fixed ht hl hid (roundFloat_max fr fg fb)
      (le_trans r0 (le_max_left _ _)) hhi
  · exact valueRounded_identity_fixed ht hl hid (roundFloat_min fr fg fb)
      (le_min r0 (le_min g0 b0)) hlo

/-- C18 (as stated, refuted): with the identity tone table the in-range input
`(65534.5, 65534.5, 65534.5)` comes back as `(65535, 65535, 65535)`, in exact and in
`float` arithmetic alike; and in `float` arithmetic the in-range input
`(44869, 448, 32233)` comes back as `(44869, 448, 32233 + 1/512)`. -/
theorem c18_identity_table_moves_triple :
    (∃ tc1, ToneCurve.fresh.Set identityCurve.toCurve 0 = .ok tc1 ∧
      AdobeToneCurve.Apply { toToneCurve := tc1 } (131069 / 2) (131069 / 2) (131069 / 2)
        = .ok (65535, 65535, 65535) ∧ (131069 / 2 : ℚ) ≠ 65535) ∧
      identityTable.ApplyRounded (131069 / 2) (131069 / 2) (131069 / 2)
        = .ok (65535, 65535, 65535) ∧
      identityTable.ApplyRounded 44869 448 32233 = .ok (44869, 448, 16503297 / 512) ∧
      (16503297 / 512 : ℚ) ≠ 32233 := by
  refine ⟨?_, ApplyRounded_plateau, ApplyRounded_drift, by norm_num⟩
  obtain ⟨t1, d, hset, hh, hl, hid⟩ := identity_table_exists
  refine ⟨_, hset, ?_, by norm_num⟩
  have hholds : (AdobeToneCurve.mk { lutToneCurve := t1 }).lutToneCurve.Holds d := hh
  have hin : inGamut (131069 / 2) :=
    inGamut_of_bounds (show (0 : ℚ) ≤ 131069 / 2 by norm_num) (by norm_num)
  rw [Apply_committed hholds (by omega) _ _ _ (Or.inl hin), applyReference_channels,
    clampChannel_of_inGamut hin, max_self, max_self, min_self, min_self]
  have hV2 : t1.value (131069 / 2) = 65535 := value_identity_gap hh hl hid (by norm_num)
  show Except.ok (refChannel t1.value (131069 / 2) (131069 / 2) (131069 / 2),
    refChannel t1.value (131069 / 2) (131069 / 2) (131069 / 2),
    refChannel t1.value (131069 / 2) (131069 / 2) (131069 / 2)) = _
  rw [refChannel_hi, hV2]

/-- C18 (amended): with the identity tone table (entry `i` equal to `i` for `i` in
`0..65535`), when the three channels lie in `[0, 65535]` and the largest and the smallest
of them are each at most `65534` or equal to `65535`, or when the three channels all lie
outside `[0, 65535]`: in exact arithmetic `Apply` returns the input triple unchanged; in
`float` arithmetic, on `float` inputs, it returns the out-of-range triple unchanged and
turns the in-range triple into the rounded reference of the identity function, which
returns the largest and the smallest channel unchanged and replaces the remaining channel
`c` by the rounded value of `m + (M - m) * (c - m) / (M - m)`. -/
theorem c18_identity_table_fixes (tc : AdobeToneCurve) (d : List ℚ) (ir ig ib : ℚ)
    (ht : tc.lutToneCurve.Holds d) (hl : d.length = 65536)
    (hid : ∀ i : Nat, i < 65536 → d.getD i 0 = (i : ℚ))
    (h : (inGamut ir ∧ inGamut ig ∧ inGamut ib ∧
          (max ir (max ig ib) ≤ 65534 ∨ max ir (max ig ib) = 65535) ∧
          (min ir (min ig ib) ≤ 65534 ∨ min ir (min ig ib) = 65535)) ∨
        (¬ inGamut ir ∧ ¬ inGamut ig ∧ ¬ inGamut ib)) :
    tc.Apply ir ig ib = .ok (ir, ig, ib) ∧
      (roundFloat ir = ir → roundFloat ig = ig → roundFloat ib = ib →
        tc.ApplyRounded ir ig ib =
          .ok (if inGamut ir then sortedRounded (fun v => v) ir ig ib else (ir, ig, ib))) := by
  rcases h with ⟨hr, hg, hb, hhi, hlo⟩ | ⟨hr, hg, hb⟩
  · refine ⟨Apply_identity_fixed ht hl hid hr hg hb hhi hlo, fun fr fg fb => ?_⟩
    rw [if_pos hr]
    exact ApplyRounded_identity ht hl hid hr hg hb hhi hlo fr fg fb
  · refine ⟨Apply_uncommitted ht (by omega) _ _ _ (by tauto), fun fr fg fb => ?_⟩
    rw [if_neg hr]
    exact ApplyRounded_uncommitted ht (by omega)
      (fun i hi => (identity_cells_repr hl hid i hi).1) fr fg fb (by tauto)

/-- Witness for C18: the identity table and the input `(65535, 300.5, 7)`. -/
theorem c18_identity_table_fixes_witness :
    identityTable.Apply 65535 (601 / 2) 7 = .ok (65535, 601 / 2, 7) ∧
      identityTable.ApplyRounded 65535 (601 / 2) 7 =
        .ok (sortedRounded (fun v => v) 65535 (601 / 2) 7) := by
  have h1 : inGamut (65535 : ℚ) := inGamut_of_bounds (by norm_num) (by norm_num)
  have h2 : inGamut (601 / 2 : ℚ) := inGamut_of_bounds (by norm_num) (by norm_num)
  have h3 : inGamut (7 : ℚ) := inGamut_of_bounds (by norm_num) (by norm_num)
  have f1 : roundFloat (65535 : ℚ) = 65535 := by
    have := roundFloat_natCast (n := 65535) (by norm_num)
    simpa using this
  have f2 : roundFloat (601 / 2 : ℚ) = 601 / 2 := by
    have := roundBinary_repr 24 (-126) 601 (-1) (by norm_num) (by norm_num) (by norm_num)
    simpa [roundFloat] using this
  have f3 : roundFloat (7 : ℚ) = 7 := by
    have := roundFloat_natCast (n := 7) (by norm_num)
    simpa using this
  have key := c18_identity_table_fixes identityTable identityCells 65535 (601 / 2) 7
    identityTable_holds identityCells_length (fun i hi => identityCells_getD hi)
    (Or.inl ⟨h1, h2, h3, Or.inr (by norm_num), Or.inl (by norm_num)⟩)
  refine ⟨key.1, ?_⟩
  have k2 := key.2 f1 f2 f3
  rw [if_pos h1] at k2
  exact k2

/-- C19 (as stated, refuted): in `float` arithmetic, with the identity table and the
in-range input `(1499, 49903, 49903)`, `Apply` returns `(1499, 49903, 49903 + 1/256)`: the
channels `g` and `b` are equal and their outputs differ, so the outputs are not a function
of the channel value, and they are not the reference `(1499, 49903, 49903)`. -/
theorem c19_equal_channels_differ :
    identityTable.ApplyRounded 1499 49903 49903 = .ok (1499, 49903, 12775169 / 256) ∧
      applyReference identityTable.lutToneCurve.value 1499 49903 49903 = (1499, 49903, 49903) ∧
      (49903 : ℚ) ≠ 12775169 / 256 := by
  refine ⟨ApplyRounded_tie_gb, ?_, by norm_num⟩
  have h1 : inGamut (1499 : ℚ) := inGamut_of_bounds (by norm_num) (by norm_num)
  have h2 : inGamut (49903 : ℚ) := inGamut_of_bounds (by norm_num) (by norm_num)
  have hA := Apply_identity_fixed identityTable_holds identityCells_length
    (fun i hi => identityCells_getD hi) h1 h2 h2 (Or.inl (by norm_num)) (Or.inl (by norm_num))
  rw [Apply_committed identityTable_holds (by rw [identityCells_length]; norm_num) _ _ _
    (Or.inl h1)] at hA
  exact Except.ok.inj hA

/-- C19 (amended): for every allocated tone table and every input triple with at least one
channel inside `[0, 65535]`: in `float` arithmetic, for a table and inputs that are
`float` values (the cells of magnitude at most `2 ^ 100`), `Apply` returns the stable-sort
reference, where `(max, mid, min)` are the clamped channels in descending order, equal
channels keeping the order `r`, `g`, `b`, and `max' = LUT(max)`, `min' = LUT(min)`,
`mid' = min' + (max' - min') * (mid - min) / (max - min)` with every operation rounded,
every channel being `LUT(max)` if `max = min`; in exact arithmetic `Apply` returns the
sort-based reference in which each channel `c` becomes
`LUT(m) + (LUT(M) - LUT(m)) * (c - m) / (M - m)` if `M > m`, so that `M` becomes `LUT(M)`
and `m` becomes `LUT(m)`, and every channel becomes `LUT(M)` if `M = m`. -/
theorem c19_tree_equals_reference (tc : AdobeToneCurve) (d : List ℚ) (ir ig ib : ℚ)
    (ht : tc.lutToneCurve.Holds d) (h1 : 1 ≤ d.length)
    (hc : inGamut ir ∨ inGamut ig ∨ inGamut ib) :
    ((∀ i, i < d.length → roundFloat (d.getD i 0) = d.getD i 0 ∧ |d.getD i 0| ≤ 2 ^ 100) →
      roundFloat ir = ir → roundFloat ig = ig → roundFloat ib = ib →
      tc.ApplyRounded ir ig ib =
        .ok (applyReferenceRounded tc.lutToneCurve.valueRounded ir ig ib)) ∧
    tc.Apply ir ig ib = .ok (applyReference tc.lutToneCurve.value ir ig ib) ∧
      ∀ M m : ℚ, m < M →
        tc.lutToneCurve.value m +
            (tc.lutToneCurve.value M - tc.lutToneCurve.value m) * (M - m) / (M - m)
          = tc.lutToneCurve.value M ∧
        tc.lutToneCurve.value m +
            (tc.lutToneCurve.value M - tc.lutToneCurve.value m) * (m - m) / (M - m)
          = tc.lutToneCurve.value m :=
  ⟨fun hd fr fg fb => ApplyRounded_committed ht h1 (fun i hi => (hd i hi).1) fr fg fb hc,
    Apply_committed ht h1 ir ig ib hc, fun M m h => ⟨ref_at_hi _ h, ref_at_lo _ M m⟩⟩

/-- Witness for C19: the identity table and the input `(1499, 49903, 49903)`, in `float`
and in exact arithmetic. -/
theorem c19_tree_equals_reference_witness :
    identityTable.ApplyRounded 1499 49903 49903 =
        .ok (applyReferenceRounded identityTable.lutToneCurve.valueRounded 1499 49903 49903) ∧
      identityTable.Apply 1499 49903 49903 =
        .ok (applyReference identityTable.lutToneCurve.value 1499 49903 49903) := by
  have h1 : inGamut (1499 : ℚ) := inGamut_of_bounds (by norm_num) (by norm_num)
  have f1 : roundFloat (1499 : ℚ) = 1499 := by
    have := roundFloat_natCast (n := 1499) (by norm_num)
    simpa using this
  have f2 : roundFloat (49903 : ℚ) = 49903 := by
    have := roundFloat_natCast (n := 49903) (by norm_num)
    simpa using this
  have key := c19_tree_equals_reference identityTable identityCells 1499 49903 49903
    identityTable_holds (by rw [identityCells_length]; norm_num) (Or.inl h1)
  exact ⟨key.1 (identity_cells_repr identityCells_length (fun i hi => identityCells_getD hi))
    f1 f2 f2, key.2.1⟩

end alicevision.image
